import Mathlib

/-!
Verification of the routing/leveling core of the `egui-cfg` repository.

The Rust source (src/route.rs, src/view.rs, src/lib.rs) is shallowly embedded:
`f32` scalars become exact rationals, `Vec` becomes `List`, `HashMap` becomes a
function into `Option`, fallible operations return `Option`, and a Rust panic
is a distinguished constructor of the result type.  Fixed-point behaviour of
`f32` that the claims depend on is modelled explicitly where it matters (the
`f32::MAX` sentinel absorbs the small penalty additions that the code performs,
because those additions are far below the ulp of `f32::MAX`).
-/

namespace EguiCfg

/-- A world position (`egui::Pos2`), with exact rational coordinates. -/
abbrev Pos : Type := ℚ × ℚ

/-- `egui::Rect`: an axis aligned rectangle given by its min and max corners. -/
structure Rect where
  min : Pos
  max : Pos
deriving DecidableEq

namespace Rect

/-- `egui::Rect::expand`: grow the rectangle by `m` on every side. -/
def expand (r : Rect) (m : ℚ) : Rect :=
  ⟨(r.min.1 - m, r.min.2 - m), (r.max.1 + m, r.max.2 + m)⟩

/-- `egui::Rect::contains`: inclusive on all four sides. -/
def contains (r : Rect) (p : Pos) : Bool :=
  decide (r.min.1 ≤ p.1) && decide (p.1 ≤ r.max.1) &&
  decide (r.min.2 ≤ p.2) && decide (p.2 ≤ r.max.2)

/-- `egui::Rect::width`. -/
def width (r : Rect) : ℚ := r.max.1 - r.min.1

end Rect

/-- `GridCoord`: a cell coordinate `(x, y)`. -/
abbrev GridCoord : Type := ℕ × ℕ

/-- `Grid` (route.rs lines 7-12). -/
structure Grid where
  origin : Pos
  cols : ℕ
  rows : ℕ
  cell : ℚ
deriving DecidableEq

namespace Grid

/-- `Grid::from_scene` (route.rs lines 16-30).  The `as usize` cast of the
floored `f32` saturates negative values to `0`, which `Int.toNat` models. -/
def from_scene (scene : Rect) (cell : ℚ) : Grid :=
  { origin := ((⌊scene.min.1 / cell⌋ : ℚ) * cell, (⌊scene.min.2 / cell⌋ : ℚ) * cell)
    cols := (⌊(scene.max.1 - scene.min.1) / cell⌋).toNat
    rows := (⌊(scene.max.2 - scene.min.2) / cell⌋).toNat
    cell := cell }

/-- `Grid::cardinal_neighbors` (route.rs lines 33-53), in source push order. -/
def cardinal_neighbors (g : Grid) (c : GridCoord) : List GridCoord :=
  let (x, y) := c
  (if x + 1 < g.cols then [(x + 1, y)] else []) ++
  (if 1 ≤ x then [(x - 1, y)] else []) ++
  (if y + 1 < g.rows then [(x, y + 1)] else []) ++
  (if 1 ≤ y then [(x, y - 1)] else [])

/-- `Grid::to_cell` (route.rs lines 56-68).  The Rust code clamps the floored
cell index with `isize::clamp(0, cols-1)`; when `cols = 0` or `rows = 0` the
clamp bounds are inverted and `clamp` panics, which `none` models. -/
def to_cell (g : Grid) (p : Pos) : Option GridCoord :=
  let x : ℤ := ⌊(p.1 - g.origin.1) / g.cell⌋
  let y : ℤ := ⌊(p.2 - g.origin.2) / g.cell⌋
  if g.cols = 0 ∨ g.rows = 0 then none
  else some ((min (max x 0) ((g.cols : ℤ) - 1)).toNat,
             (min (max y 0) ((g.rows : ℤ) - 1)).toNat)

/-- `Grid::to_index` (route.rs lines 71-73): row major flattening. -/
def to_index (g : Grid) (c : GridCoord) : ℕ := c.2 * g.cols + c.1

/-- `Grid::cell_center` (route.rs lines 76-79). -/
def cell_center (g : Grid) (c : GridCoord) : Pos :=
  (g.origin.1 + ((c.1 : ℚ) + 1/2) * g.cell, g.origin.2 + ((c.2 : ℚ) + 1/2) * g.cell)

/-- `Grid::get_direction` (route.rs lines 82-87): componentwise sign. -/
def get_direction (a b : GridCoord) : ℤ × ℤ :=
  (Int.sign ((b.1 : ℤ) - (a.1 : ℤ)), Int.sign ((b.2 : ℤ) - (a.2 : ℤ)))

end Grid

/-- A cell cost.  The code stores `f32` and uses `f32::MAX` as the impassable
sentinel; `blocked` is that sentinel and `val q` any other value.  Adding a
penalty to a blocked cell leaves it blocked: in `f32`, `f32::MAX + p` rounds
back to `f32::MAX` for every penalty `p` the code can produce (all far below
the ulp of `f32::MAX`). -/
inductive Cost where
  | blocked : Cost
  | val : ℚ → Cost
deriving DecidableEq

namespace Cost

/-- `+=` on a cost cell (see the comment on `Cost`). -/
def add (c : Cost) (p : ℚ) : Cost :=
  match c with
  | blocked => blocked
  | val q => val (q + p)

/-- The order on costs: `blocked` (`f32::MAX`) is the top element. -/
def le (a b : Cost) : Prop :=
  match b with
  | blocked => True
  | val q =>
    match a with
    | blocked => False
    | val p => p ≤ q

instance : LE Cost := ⟨Cost.le⟩

instance decLe : ∀ a b : Cost, Decidable (a ≤ b)
  | _, blocked => isTrue True.intro
  | blocked, val _ => isFalse id
  | val p, val q => inferInstanceAs (Decidable (p ≤ q))

theorem le_refl (a : Cost) : a ≤ a := by
  cases a with
  | blocked => exact True.intro
  | val q => exact (show (q : ℚ) ≤ q from le_of_eq rfl)

theorem le_trans {a b c : Cost} (h1 : a ≤ b) (h2 : b ≤ c) : a ≤ c := by
  cases c with
  | blocked => exact True.intro
  | val r =>
    cases b with
    | blocked => exact absurd h2 id
    | val q =>
      cases a with
      | blocked => exact absurd h1 id
      | val p =>
        have h1' : (p : ℚ) ≤ q := h1
        have h2' : (q : ℚ) ≤ r := h2
        exact h1'.trans h2'

end Cost

/-- `CostField` (route.rs lines 90-94): a flat row major cost vector. -/
structure CostField where
  cost : List Cost
  grid : Grid
deriving DecidableEq

namespace CostField

/-- `CostField::new` (route.rs lines 97-102): every cell at the baseline 1.0. -/
def new (grid : Grid) : CostField :=
  { cost := List.replicate (grid.cols * grid.rows) (Cost.val 1), grid := grid }

/-- `CostField::cost_at` (route.rs lines 108-110): `Vec::get` returns `None`
out of range. -/
def cost_at (cf : CostField) (c : GridCoord) : Option Cost :=
  cf.cost.get? (cf.grid.to_index c)

/-- Overwrite one cell (`*self.get_cost_cell_mut(coords) = v`).  The Rust
index panics out of range; the callers below only use in range indices, where
`List.set` agrees with the Rust update. -/
def setCost (cf : CostField) (c : GridCoord) (v : Cost) : CostField :=
  { cf with cost := cf.cost.set (cf.grid.to_index c) v }

/-- Add a penalty to one cell (`*self.get_cost_cell_mut(coords) += p`). -/
def addCost (cf : CostField) (c : GridCoord) (p : ℚ) : CostField :=
  let i := cf.grid.to_index c
  let v := (cf.cost.getD i Cost.blocked).add p
  { cf with cost := cf.cost.set i v }

/-- `CostField::add_block_rect` (route.rs lines 112-137).

`egui::Rect::distance_to_pos` is a Euclidean distance, whose value is a
square root and irrational in general; the embedding therefore takes the
distance function `dist` as an explicit argument.  With `dist` the Euclidean
rectangle-to-point distance this definition is exactly the source function;
every general theorem below holds for all `dist`, and concrete evaluations
use a `dist` that agrees with the Euclidean distance at the evaluated cells. -/
def add_block_rect (dist : Rect → Pos → ℚ) (cf : CostField)
    (block_rectangle : Rect) (margin : ℚ) : CostField :=
  let rect := block_rectangle.expand margin
  (List.range cf.grid.rows).foldl (fun cf1 y =>
    (List.range cf1.grid.cols).foldl (fun cf2 x =>
      let coords : GridCoord := (x, y)
      let cellc := cf2.grid.cell_center coords
      if rect.contains cellc then
        cf2.setCost coords Cost.blocked
      else
        let d := dist rect cellc
        let falloff := (max (cf2.grid.cell * 3 - d) 0) / (cf2.grid.cell * 3)
        cf2.addCost coords (3 * falloff)) cf1) cf

/-- Consecutive pairs of a list (`slice::windows(2)`). -/
def windows2 : List Pos → List (Pos × Pos)
  | a :: b :: rest => (a, b) :: windows2 (b :: rest)
  | _ => []

/-- `CostField::add_polyline_penalty` (route.rs lines 154-180).

`distance_point_to_segment` (route.rs lines 139-150) ends in `Vec2::length`,
a square root; as with `add_block_rect` the embedding takes the segment
distance function `segDist` as an explicit argument. -/
def add_polyline_penalty (segDist : Pos → Pos → Pos → ℚ) (cf : CostField)
    (positions : List Pos) (width : ℚ) : CostField :=
  if positions.length < 2 then cf
  else
    (windows2 positions).foldl (fun cf0 seg =>
      (List.range cf0.grid.rows).foldl (fun cf1 y =>
        (List.range cf1.grid.cols).foldl (fun cf2 x =>
          let coords : GridCoord := (x, y)
          let p := cf2.grid.cell_center coords
          let d := segDist p seg.1 seg.2
          if d ≤ width then
            let t := (width - d) / width
            cf2.addCost coords (5 * t)
          else cf2) cf1) cf0) cf

end CostField

/-! ### C10: the baseline cost invariant -/

/-- One mutating cost field operation (the distance functions are explicit
arguments, see `CostField.add_block_rect`). -/
inductive FieldOp where
  | blockRect (dist : Rect → Pos → ℚ) (r : Rect) (margin : ℚ)
  | polyline (segDist : Pos → Pos → Pos → ℚ) (positions : List Pos) (width : ℚ)

/-- Apply one operation to a field. -/
def FieldOp.apply (cf : CostField) : FieldOp → CostField
  | .blockRect dist r m => cf.add_block_rect dist r m
  | .polyline sd ps w => cf.add_polyline_penalty sd ps w

/-- Apply a sequence of operations. -/
def CostField.applyOps (cf : CostField) (ops : List FieldOp) : CostField :=
  ops.foldl FieldOp.apply cf

/-- Well-formedness of an operation call: a polyline penalty has positive
width (`width = 0` would divide by zero in the source). -/
def FieldOp.wf : FieldOp → Prop
  | .blockRect _ _ _ => True
  | .polyline _ _ w => 0 < w

/-- Pointwise order between cost fields sharing grid and size. -/
def CostField.fieldLe (cf cf' : CostField) : Prop :=
  cf'.grid = cf.grid ∧ cf'.cost.length = cf.cost.length ∧
    ∀ i, i < cf.cost.length →
      cf.cost.getD i Cost.blocked ≤ cf'.cost.getD i Cost.blocked

theorem CostField.fieldLe_refl (cf : CostField) : cf.fieldLe cf :=
  ⟨rfl, rfl, fun _ _ => Cost.le_refl _⟩

theorem CostField.fieldLe_trans {a b c : CostField}
    (h1 : a.fieldLe b) (h2 : b.fieldLe c) : a.fieldLe c := by
  obtain ⟨hg1, hl1, hp1⟩ := h1
  obtain ⟨hg2, hl2, hp2⟩ := h2
  exact ⟨hg2.trans hg1, hl2.trans hl1,
    fun i hi => Cost.le_trans (hp1 i hi) (hp2 i (hl1 ▸ hi))⟩

theorem getD_set (l : List Cost) (i j : ℕ) (v d : Cost) :
    (l.set i v).getD j d = if i = j ∧ j < l.length then v else l.getD j d := by
  induction l generalizing i j with
  | nil => simp [List.set]
  | cons a t ih =>
    cases i with
    | zero =>
      cases j with
      | zero => simp
      | succ j => simp [Nat.succ_lt_succ_iff]
    | succ i =>
      cases j with
      | zero => simp
      | succ j =>
        simp only [List.set, List.getD_cons_succ, List.length_cons, ih,
          Nat.succ_lt_succ_iff, Nat.succ_inj]

theorem Cost.le_add_of_nonneg {p : ℚ} (c : Cost) (hp : 0 ≤ p) : c ≤ c.add p := by
  cases c with
  | blocked => exact True.intro
  | val q => exact (show (q : ℚ) ≤ q + p by linarith)

theorem CostField.setCost_blocked_le (cf : CostField) (c : GridCoord) :
    cf.fieldLe (cf.setCost c Cost.blocked) := by
  refine ⟨rfl, by simp [setCost], fun i hi => ?_⟩
  simp only [setCost, getD_set]
  split
  · exact True.intro
  · exact Cost.le_refl _

theorem CostField.addCost_le (cf : CostField) (c : GridCoord) {p : ℚ}
    (hp : 0 ≤ p) : cf.fieldLe (cf.addCost c p) := by
  refine ⟨rfl, by simp [addCost], fun i hi => ?_⟩
  simp only [addCost, getD_set]
  split
  · rename_i h
    have : cf.cost.getD i Cost.blocked = cf.cost.getD (cf.grid.to_index c) Cost.blocked := by
      rw [h.1]
    rw [this]
    have hlt : cf.grid.to_index c < cf.cost.length := h.1 ▸ h.2
    rw [List.getD_eq_get?, List.get?_eq_get hlt]
    exact Cost.le_add_of_nonneg _ hp
  · exact Cost.le_refl _

/-- Folding a pointwise increasing step preserves the pointwise order. -/
theorem CostField.fieldLe_foldl {α : Type} {g0 : Grid}
    (f : CostField → α → CostField) :
    ∀ (l : List α) (cf : CostField), cf.grid = g0 →
      (∀ (cf' : CostField) (x : α), cf'.grid = g0 → x ∈ l → cf'.fieldLe (f cf' x)) →
      cf.fieldLe (l.foldl f cf) := by
  intro l
  induction l with
  | nil => intro cf _ _; exact CostField.fieldLe_refl cf
  | cons x xs ih =>
    intro cf hg h
    have hstep := h cf x hg (List.mem_cons_self x xs)
    have hg' : (f cf x).grid = g0 := hstep.1.trans hg
    exact CostField.fieldLe_trans hstep
      (ih (f cf x) hg' (fun cf' y hgy hy => h cf' y hgy (List.mem_cons_of_mem x hy)))

theorem CostField.add_block_rect_mono (dist : Rect → Pos → ℚ) (cf : CostField)
    (r : Rect) (m : ℚ) (hc : 0 < cf.grid.cell) :
    cf.fieldLe (cf.add_block_rect dist r m) := by
  unfold add_block_rect
  refine CostField.fieldLe_foldl _ _ cf rfl ?_
  intro cf1 y hg1 _
  refine CostField.fieldLe_foldl _ _ cf1 hg1 ?_
  intro cf2 x hg2 _
  dsimp only
  split
  · exact cf2.setCost_blocked_le _
  · refine cf2.addCost_le _ ?_
    have hc2 : 0 < cf2.grid.cell := hg2 ▸ hc
    have hnum : 0 ≤ max (cf2.grid.cell * 3 - dist (r.expand m) (cf2.grid.cell_center (x, y))) 0 :=
      le_max_right _ _
    have hden : 0 < cf2.grid.cell * 3 := by linarith
    positivity

theorem CostField.add_polyline_penalty_mono (segDist : Pos → Pos → Pos → ℚ)
    (cf : CostField) (ps : List Pos) {w : ℚ} (hw : 0 < w) :
    cf.fieldLe (cf.add_polyline_penalty segDist ps w) := by
  unfold add_polyline_penalty
  split
  · exact CostField.fieldLe_refl cf
  · refine CostField.fieldLe_foldl _ _ cf rfl ?_
    intro cf0 seg hg0 _
    refine CostField.fieldLe_foldl _ _ cf0 hg0 ?_
    intro cf1 y hg1 _
    refine CostField.fieldLe_foldl _ _ cf1 hg1 ?_
    intro cf2 x hg2 _
    dsimp only
    split
    · rename_i hd
      refine cf2.addCost_le _ ?_
      have : 0 ≤ (w - segDist (cf2.grid.cell_center (x, y)) seg.1 seg.2) / w := by
        apply div_nonneg _ (le_of_lt hw)
        linarith
      linarith
    · exact CostField.fieldLe_refl cf2

/-- C10: every cell of a fresh cost field is at the baseline 1.0, the
mutating operations only raise costs pointwise, and the baseline lower bound
is preserved by every sequence of `add_block_rect` / `add_polyline_penalty`
calls (with positive polyline widths and a positive cell size). -/
theorem C10_baseline (g : Grid) (hc : 0 < g.cell) (ops : List FieldOp)
    (hwf : ∀ op ∈ ops, op.wf) :
    (CostField.new g).fieldLe ((CostField.new g).applyOps ops) ∧
      ∀ i, i < ((CostField.new g).applyOps ops).cost.length →
        Cost.val 1 ≤ ((CostField.new g).applyOps ops).cost.getD i Cost.blocked := by
  have hmain : (CostField.new g).fieldLe ((CostField.new g).applyOps ops) := by
    unfold CostField.applyOps
    refine CostField.fieldLe_foldl _ _ _ rfl ?_
    intro cf' op hg' hmem
    cases op with
    | blockRect dist r m =>
      exact cf'.add_block_rect_mono dist r m (by rw [hg']; exact hc)
    | polyline sd ps w =>
      exact cf'.add_polyline_penalty_mono sd ps (hwf _ hmem)
  refine ⟨hmain, fun i hi => ?_⟩
  obtain ⟨_, hlen, hpt⟩ := hmain
  have hi' : i < (CostField.new g).cost.length := hlen ▸ hi
  have hbase : (CostField.new g).cost.getD i Cost.blocked = Cost.val 1 := by
    simp only [CostField.new]
    rw [List.getD_eq_get?, List.get?_eq_get (by simpa [CostField.new] using hi')]
    simp
  have := hpt i hi'
  rw [hbase] at this
  exact this

/-- Witness for C10: a concrete grid and operation sequence. -/
theorem C10_baseline_witness :
    (0 : ℚ) < 1 ∧
      (∀ op ∈ [FieldOp.blockRect (fun _ _ => 0) (Rect.mk (0, 0) (1, 1)) 0,
               FieldOp.polyline (fun _ _ _ => 1) [(0, 0), (2, 0)] 2], op.wf) ∧
      ((CostField.new (Grid.mk (0, 0) 2 2 1)).fieldLe
          ((CostField.new (Grid.mk (0, 0) 2 2 1)).applyOps
            [FieldOp.blockRect (fun _ _ => 0) (Rect.mk (0, 0) (1, 1)) 0,
             FieldOp.polyline (fun _ _ _ => 1) [(0, 0), (2, 0)] 2]) ∧
        ∀ i, i < ((CostField.new (Grid.mk (0, 0) 2 2 1)).applyOps
            [FieldOp.blockRect (fun _ _ => 0) (Rect.mk (0, 0) (1, 1)) 0,
             FieldOp.polyline (fun _ _ _ => 1) [(0, 0), (2, 0)] 2]).cost.length →
          Cost.val 1 ≤ ((CostField.new (Grid.mk (0, 0) 2 2 1)).applyOps
            [FieldOp.blockRect (fun _ _ => 0) (Rect.mk (0, 0) (1, 1)) 0,
             FieldOp.polyline (fun _ _ _ => 1) [(0, 0), (2, 0)] 2]).cost.getD i
              Cost.blocked) := by
  refine ⟨by norm_num, ?_, ?_⟩
  · intro op hop
    simp only [List.mem_cons, List.not_mem_nil, or_false] at hop
    rcases hop with rfl | rfl
    · exact True.intro
    · exact (by norm_num : (0 : ℚ) < 2)
  · refine C10_baseline (Grid.mk (0, 0) 2 2 1) (by norm_num) _ ?_
    intro op hop
    simp only [List.mem_cons, List.not_mem_nil, or_false] at hop
    rcases hop with rfl | rfl
    · exact True.intro
    · exact (by norm_num : (0 : ℚ) < 2)

/-! ### C1 part 1: cells whose center is inside the expanded rect get blocked -/

theorem get?_set (l : List Cost) (i j : ℕ) (v : Cost) :
    (l.set i v).get? j = if i = j ∧ j < l.length then some v else l.get? j := by
  induction l generalizing i j with
  | nil => simp [List.set]
  | cons a t ih =>
    cases i with
    | zero =>
      cases j with
      | zero => simp
      | succ j => simp [Nat.succ_lt_succ_iff]
    | succ i =>
      cases j with
      | zero => simp
      | succ j =>
        simp only [List.set, List.get?_cons_succ, List.length_cons, ih,
          Nat.succ_lt_succ_iff, Nat.succ_inj]

/-- The body of the `add_block_rect` double loop for one cell. -/
def CostField.blockCell (dist : Rect → Pos → ℚ) (rect : Rect) (cf2 : CostField)
    (coords : GridCoord) : CostField :=
  let cellc := cf2.grid.cell_center coords
  if rect.contains cellc then
    cf2.setCost coords Cost.blocked
  else
    let d := dist rect cellc
    let falloff := (max (cf2.grid.cell * 3 - d) 0) / (cf2.grid.cell * 3)
    cf2.addCost coords (3 * falloff)

theorem CostField.add_block_rect_eq (dist : Rect → Pos → ℚ) (cf : CostField)
    (r : Rect) (m : ℚ) :
    cf.add_block_rect dist r m =
      (List.range cf.grid.rows).foldl (fun cf1 y =>
        (List.range cf1.grid.cols).foldl
          (fun cf2 x => CostField.blockCell dist (r.expand m) cf2 (x, y)) cf1) cf := rfl

theorem CostField.blockCell_grid (dist : Rect → Pos → ℚ) (rect : Rect)
    (cf2 : CostField) (c : GridCoord) :
    (cf2.blockCell dist rect c).grid = cf2.grid := by
  unfold CostField.blockCell CostField.setCost CostField.addCost
  dsimp only
  split <;> rfl

theorem CostField.blockCell_length (dist : Rect → Pos → ℚ) (rect : Rect)
    (cf2 : CostField) (c : GridCoord) :
    (cf2.blockCell dist rect c).cost.length = cf2.cost.length := by
  unfold CostField.blockCell CostField.setCost CostField.addCost
  dsimp only
  split <;> simp

theorem CostField.blockCell_cost_at_ne (dist : Rect → Pos → ℚ) (rect : Rect)
    (cf2 : CostField) (c c' : GridCoord)
    (hne : cf2.grid.to_index c ≠ cf2.grid.to_index c') :
    (cf2.blockCell dist rect c).cost_at c' = cf2.cost_at c' := by
  have hg := cf2.blockCell_grid dist rect c
  unfold CostField.cost_at
  rw [hg]
  unfold CostField.blockCell CostField.setCost CostField.addCost
  dsimp only
  split <;> · dsimp only
              rw [get?_set, if_neg (fun h => hne h.1)]

theorem CostField.blockCell_cost_at_blocked (dist : Rect → Pos → ℚ) (rect : Rect)
    (cf2 : CostField) (c : GridCoord)
    (hcont : rect.contains (cf2.grid.cell_center c) = true)
    (hrange : cf2.grid.to_index c < cf2.cost.length) :
    (cf2.blockCell dist rect c).cost_at c = some Cost.blocked := by
  have hg := cf2.blockCell_grid dist rect c
  unfold CostField.cost_at
  rw [hg]
  unfold CostField.blockCell CostField.setCost
  dsimp only
  rw [if_pos hcont]
  dsimp only
  rw [get?_set, if_pos ⟨rfl, hrange⟩]

theorem CostField.innerFold_grid (dist : Rect → Pos → ℚ) (rect : Rect) (y : ℕ) :
    ∀ (xs : List ℕ) (cf1 : CostField),
      ((xs.foldl (fun cf2 x => CostField.blockCell dist rect cf2 (x, y)) cf1).grid
        = cf1.grid) := by
  intro xs
  induction xs with
  | nil => intro cf1; rfl
  | cons x0 rest ih =>
    intro cf1
    rw [List.foldl_cons, ih, CostField.blockCell_grid]

theorem CostField.innerFold_length (dist : Rect → Pos → ℚ) (rect : Rect) (y : ℕ) :
    ∀ (xs : List ℕ) (cf1 : CostField),
      ((xs.foldl (fun cf2 x => CostField.blockCell dist rect cf2 (x, y)) cf1).cost.length
        = cf1.cost.length) := by
  intro xs
  induction xs with
  | nil => intro cf1; rfl
  | cons x0 rest ih =>
    intro cf1
    rw [List.foldl_cons, ih, CostField.blockCell_length]

theorem CostField.innerFold_untouched (dist : Rect → Pos → ℚ) (rect : Rect) (y : ℕ) :
    ∀ (xs : List ℕ) (cf1 : CostField) (c' : GridCoord),
      (∀ x ∈ xs, cf1.grid.to_index (x, y) ≠ cf1.grid.to_index c') →
      ((xs.foldl (fun cf2 x => CostField.blockCell dist rect cf2 (x, y)) cf1).cost_at c'
        = cf1.cost_at c') := by
  intro xs
  induction xs with
  | nil => intro cf1 c' _; rfl
  | cons x0 rest ih =>
    intro cf1 c' h
    rw [List.foldl_cons]
    have hg := cf1.blockCell_grid dist rect (x0, y)
    rw [ih _ _ (fun x hx => by rw [hg]; exact h x (List.mem_cons_of_mem x0 hx)),
      CostField.blockCell_cost_at_ne _ _ _ _ _ (h x0 (List.mem_cons_self x0 rest))]

theorem CostField.innerFold_blocked (dist : Rect → Pos → ℚ) (rect : Rect) (y : ℕ) :
    ∀ (xs : List ℕ) (cf1 : CostField) (x : ℕ),
      x ∈ xs → xs.Nodup →
      (∀ x' ∈ xs, x' ≠ x → cf1.grid.to_index (x', y) ≠ cf1.grid.to_index (x, y)) →
      rect.contains (cf1.grid.cell_center (x, y)) = true →
      cf1.grid.to_index (x, y) < cf1.cost.length →
      ((xs.foldl (fun cf2 x => CostField.blockCell dist rect cf2 (x, y)) cf1).cost_at (x, y)
        = some Cost.blocked) := by
  intro xs
  induction xs with
  | nil => intro cf1 x hx; exact absurd hx (List.not_mem_nil x)
  | cons x0 rest ih =>
    intro cf1 x hx hnd hsep hcont hrange
    have hg := cf1.blockCell_grid dist rect (x0, y)
    have hlen := cf1.blockCell_length dist rect (x0, y)
    rw [List.foldl_cons]
    rcases List.mem_cons.mp hx with rfl | hxr
    · have hset := cf1.blockCell_cost_at_blocked dist rect (x, y) hcont hrange
      rw [CostField.innerFold_untouched dist rect y rest _ (x, y) ?_, hset]
      intro x' hx'
      rw [hg]
      have hx0r : x ∉ rest := (List.nodup_cons.mp hnd).1
      exact hsep x' (List.mem_cons_of_mem x hx') (fun he => hx0r (he ▸ hx'))
    · have hx0 : x0 ≠ x := by
        rintro rfl
        exact (List.nodup_cons.mp hnd).1 hxr
      refine ih _ x hxr (List.nodup_cons.mp hnd).2 ?_ ?_ ?_
      · intro x' hx' hne
        rw [hg]
        exact hsep x' (List.mem_cons_of_mem x0 hx') hne
      · rw [hg]; exact hcont
      · rw [hg, hlen]; exact hrange

theorem Grid.to_index_ne (g : Grid) {x x' y y' : ℕ} (hx : x < g.cols)
    (hx' : x' < g.cols) (hne : (x', y') ≠ (x, y)) :
    g.to_index (x', y') ≠ g.to_index (x, y) := by
  intro h
  unfold Grid.to_index at h
  dsimp only at h
  apply hne
  have hc : 0 < g.cols := by omega
  have hxx : x' = x := by
    have e1 : (y' * g.cols + x') % g.cols = x' := by
      rw [Nat.add_comm, Nat.add_mul_mod_self_right, Nat.mod_eq_of_lt hx']
    have e2 : (y * g.cols + x) % g.cols = x := by
      rw [Nat.add_comm, Nat.add_mul_mod_self_right, Nat.mod_eq_of_lt hx]
    rw [← e1, ← e2, h]
  have hyy : y' = y := by
    have : y' * g.cols = y * g.cols := by omega
    exact Nat.eq_of_mul_eq_mul_right hc this
  rw [hxx, hyy]

theorem CostField.outerFold_untouched (dist : Rect → Pos → ℚ) (rect : Rect) :
    ∀ (ys : List ℕ) (cf : CostField) (c' : GridCoord),
      (∀ y' ∈ ys, ∀ x' ∈ List.range cf.grid.cols,
        cf.grid.to_index (x', y') ≠ cf.grid.to_index c') →
      ((ys.foldl (fun cf1 yy => (List.range cf1.grid.cols).foldl
          (fun cf2 xx => CostField.blockCell dist rect cf2 (xx, yy)) cf1) cf).cost_at c'
        = cf.cost_at c') := by
  intro ys
  induction ys with
  | nil => intro cf c' _; rfl
  | cons y0 rest ih =>
    intro cf c' h
    rw [List.foldl_cons]
    have hg := CostField.innerFold_grid dist rect y0 (List.range cf.grid.cols) cf
    rw [ih _ _ (fun y' hy' x' hx' => by
        rw [hg]
        exact h y' (List.mem_cons_of_mem y0 hy') x' (hg ▸ hx')),
      CostField.innerFold_untouched dist rect y0 _ _ _
        (fun x hx => h y0 (List.mem_cons_self y0 rest) x hx)]

theorem CostField.outerFold_blocked (dist : Rect → Pos → ℚ) (rect : Rect) :
    ∀ (ys : List ℕ) (cf : CostField) (x y : ℕ),
      y ∈ ys → ys.Nodup → x < cf.grid.cols →
      rect.contains (cf.grid.cell_center (x, y)) = true →
      cf.grid.to_index (x, y) < cf.cost.length →
      (∀ y', y' ≠ y → ∀ x', x' < cf.grid.cols →
        cf.grid.to_index (x', y') ≠ cf.grid.to_index (x, y)) →
      ((ys.foldl (fun cf1 yy => (List.range cf1.grid.cols).foldl
          (fun cf2 xx => CostField.blockCell dist rect cf2 (xx, yy)) cf1) cf).cost_at (x, y)
        = some Cost.blocked) := by
  intro ys
  induction ys with
  | nil => intro cf x y hy; exact absurd hy (List.not_mem_nil y)
  | cons y0 rest ih =>
    intro cf x y hy hnd hx hcont hrange hsep
    have hg := CostField.innerFold_grid dist rect y0 (List.range cf.grid.cols) cf
    have hlen := CostField.innerFold_length dist rect y0 (List.range cf.grid.cols) cf
    rw [List.foldl_cons]
    rcases List.mem_cons.mp hy with rfl | hyr
    · have hset : ((List.range cf.grid.cols).foldl
          (fun cf2 xx => CostField.blockCell dist rect cf2 (xx, y)) cf).cost_at (x, y)
          = some Cost.blocked := by
        refine CostField.innerFold_blocked dist rect y _ cf x
          (List.mem_range.mpr hx) (List.nodup_range _) ?_ hcont hrange
        intro x' hx' hne
        exact cf.grid.to_index_ne hx (List.mem_range.mp hx') (by simp [hne])
      rw [CostField.outerFold_untouched dist rect rest _ (x, y) ?_, hset]
      intro y' hy' x' hx'
      rw [hg] at hx' ⊢
      have hy0r : y ∉ rest := (List.nodup_cons.mp hnd).1
      exact hsep y' (fun he => hy0r (he ▸ hy')) x' (List.mem_range.mp hx')
    · have hy0 : y0 ≠ y := by
        rintro rfl
        exact (List.nodup_cons.mp hnd).1 hyr
      refine ih _ x y hyr (List.nodup_cons.mp hnd).2 ?_ ?_ ?_ ?_
      · rw [hg]; exact hx
      · rw [hg]; exact hcont
      · rw [hg, hlen]; exact hrange
      · intro y' hy' x' hx'
        rw [hg] at hx' ⊢
        exact hsep y' hy' x' hx'

/-! ### C6: cell center round trip -/

theorem floor_add_half (n : ℕ) : ⌊((n : ℚ) + 1/2)⌋ = (n : ℤ) := by
  rw [Int.floor_eq_iff]
  constructor
  · push_cast; linarith
  · push_cast; linarith

/-- C6: for a grid with positive cell size and an in-range coordinate,
converting the center of a cell back to a cell is the identity:
`to_cell (cell_center c) = c`. -/
theorem C6_round_trip (g : Grid) (hc : 0 < g.cell) (x y : ℕ)
    (hx : x < g.cols) (hy : y < g.rows) :
    g.to_cell (g.cell_center (x, y)) = some (x, y) := by
  have hcell : g.cell ≠ 0 := ne_of_gt hc
  have hdeg : ¬(g.cols = 0 ∨ g.rows = 0) := by omega
  unfold Grid.to_cell Grid.cell_center
  have hrel : ∀ n : ℕ, ∀ o : ℚ, (o + ((n : ℚ) + 1/2) * g.cell - o) / g.cell
      = (n : ℚ) + 1/2 := by
    intro n o
    rw [show o + ((n : ℚ) + 1/2) * g.cell - o = ((n : ℚ) + 1/2) * g.cell by ring]
    exact mul_div_cancel_right₀ _ hcell
  simp only [hrel, floor_add_half, if_neg hdeg, Option.some.injEq]
  have hx' : min (max (x : ℤ) 0) ((g.cols : ℤ) - 1) = (x : ℤ) := by
    rw [max_eq_left (by positivity), min_eq_left (by omega)]
  have hy' : min (max (y : ℤ) 0) ((g.rows : ℤ) - 1) = (y : ℤ) := by
    rw [max_eq_left (by positivity), min_eq_left (by omega)]
  rw [hx', hy']
  simp

/-- Witness for C6 at a concrete grid and coordinate. -/
theorem C6_round_trip_witness :
    (0 : ℚ) < 3 ∧ 1 < 4 ∧ 2 < 3 ∧
      (Grid.mk (5, 7) 4 3 3).to_cell ((Grid.mk (5, 7) 4 3 3).cell_center (1, 2))
        = some (1, 2) :=
  ⟨by norm_num, by norm_num, by norm_num,
    C6_round_trip (Grid.mk (5, 7) 4 3 3) (by norm_num) 1 2 (by norm_num) (by norm_num)⟩

/-! ### The A* search (route.rs lines 183-354) -/

/-- A g or f value: a finite rational or `f32::INFINITY`. -/
inductive GVal where
  | inf : GVal
  | fin : ℚ → GVal
deriving DecidableEq

namespace GVal

/-- Addition of a finite value, with infinity absorbing (IEEE semantics). -/
def add (a : GVal) (b : ℚ) : GVal :=
  match a with
  | inf => inf
  | fin q => fin (q + b)

/-- The strict order used by `pop_best` and the relaxation test: every
finite value is below `INFINITY`, and `INFINITY < INFINITY` is false. -/
def lt (a b : GVal) : Prop :=
  match a with
  | inf => False
  | fin p =>
    match b with
    | inf => True
    | fin q => p < q

instance : LT GVal := ⟨GVal.lt⟩

instance decLt : ∀ a b : GVal, Decidable (a < b)
  | inf, _ => isFalse id
  | fin _, inf => isTrue True.intro
  | fin p, fin q => inferInstanceAs (Decidable (p < q))

@[simp] theorem fin_lt_fin (p q : ℚ) : (fin p < fin q) ↔ p < q := Iff.rfl

@[simp] theorem fin_lt_inf (p : ℚ) : fin p < inf := True.intro

@[simp] theorem not_inf_lt (b : GVal) : ¬(inf < b) := id

@[simp] theorem fin_add (p q : ℚ) : (fin p).add q = fin (p + q) := rfl

@[simp] theorem inf_add (q : ℚ) : inf.add q = inf := rfl

end GVal

/-- `CellBase` (route.rs lines 184-189). -/
structure CellBase where
  g : GVal
  h : ℚ
  parent : Option GridCoord
  is_pending : Bool
deriving DecidableEq

/-- `CellBase::new` (route.rs lines 192-199). -/
def CellBase.new : CellBase :=
  { g := .inf, h := 0, parent := none, is_pending := false }

/-- `CellBase::f` (route.rs lines 201-203). -/
def CellBase.f (c : CellBase) : GVal := c.g.add c.h

/-- The A* loop state: `cells` is the `HashMap<GridCoord, CellBase>`,
`pending` the frontier vector, `seen` the `HashSet`; `popped` is a ghost
trace recording each cell the loop pops, in order (it does not influence
the computation). -/
structure AState where
  cells : GridCoord → Option CellBase
  pending : List GridCoord
  seen : GridCoord → Bool
  popped : List GridCoord

/-- Point update of the cell map (`HashMap::insert` / `get_mut` write). -/
def updateCell (cells : GridCoord → Option CellBase) (c : GridCoord)
    (cb : CellBase) : GridCoord → Option CellBase :=
  fun x => if x = c then some cb else cells x

namespace AStar

/-- `AStar::manhattan` (route.rs lines 217-219): `abs_diff` is `Nat.dist`. -/
def manhattan (a b : GridCoord) : ℕ := Nat.dist a.1 b.1 + Nat.dist a.2 b.2

/-- `cells.get(coords).map(|c| c.f()).unwrap_or(f32::INFINITY)`. -/
def fOf (cells : GridCoord → Option CellBase) (c : GridCoord) : GVal :=
  match cells c with
  | none => .inf
  | some cb => cb.f

/-- The index scan of `AStar::pop_best` (route.rs lines 226-238): the first
index whose f value is strictly below every earlier one. -/
def bestIndex (cells : GridCoord → Option CellBase) (pending : List GridCoord) : ℕ :=
  (pending.enum.foldl
    (fun (best : ℕ × GVal) (ic : ℕ × GridCoord) =>
      if fOf cells ic.2 < best.2 then (ic.1, fOf cells ic.2) else best)
    (0, .inf)).1

/-- `Vec::swap_remove(i)`: remove index `i`, moving the last element into the
hole.  Only called with `i` in range. -/
def swapRemove (l : List GridCoord) (i : ℕ) : GridCoord × List GridCoord :=
  (l.getD i (0, 0), (l.set i (l.getD (l.length - 1) (0, 0))).dropLast)

/-- `AStar::pop_best` (route.rs lines 221-242). -/
def pop_best (cells : GridCoord → Option CellBase) (pending : List GridCoord) :
    GridCoord × List GridCoord :=
  swapRemove pending (bestIndex cells pending)

/-- The body of the neighbor loop (route.rs lines 304-349) for one neighbor.
`pen` is the turn penalty; the source fixes it to `1.0` (route.rs line 329),
and the embedding takes it as an argument so that the configuration the spec
describes (including a zero penalty) is expressible; `pen = 1` is the source
function. -/
def expandNeighbor (pen : ℚ) (cf : CostField) (endCell cur : GridCoord)
    (st : AState) (nbr : GridCoord) : AState :=
  match cf.cost_at nbr with
  | none => st
  | some ncost =>
    if ncost = Cost.blocked then st
    else
      let ncostq : ℚ := match ncost with | .blocked => 0 | .val q => q
      let st1 : AState :=
        if st.seen nbr then st
        else { st with cells := updateCell st.cells nbr CellBase.new,
                       seen := fun x => if x = nbr then true else st.seen x }
      let incoming_dir : Option (ℤ × ℤ) :=
        ((st1.cells cur).bind (fun c => c.parent)).map (fun p => Grid.get_direction p cur)
      let step_dir := Grid.get_direction cur nbr
      let turn_pen : ℚ := if some step_dir ≠ incoming_dir then pen else 0
      -- `cells[&current_cell]` panics when absent; the loop keeps every
      -- popped cell in `cells`, and with g = INFINITY the comparison below
      -- is false, so the fallback is unreachable on loop states.
      let gcur : GVal := match st1.cells cur with | none => .inf | some cb => cb.g
      let candidate := gcur.add (ncostq + turn_pen)
      let gnbr : GVal := match st1.cells nbr with | none => .inf | some cb => cb.g
      if candidate < gnbr then
        let old := (st1.cells nbr).getD CellBase.new
        let upd : CellBase :=
          { old with
            parent := some cur
            g := candidate
            h := (manhattan nbr endCell : ℚ) }
        if old.is_pending then
          { st1 with cells := updateCell st1.cells nbr upd }
        else
          { st1 with cells := updateCell st1.cells nbr { upd with is_pending := true },
                     pending := st1.pending ++ [nbr] }
      else st1

/-- Path reconstruction (route.rs lines 284-301): follow parent links from
the goal, which directly builds the reversed list.  The fuel bounds the walk;
parent chains produced by the loop are acyclic and shorter than the cell
count, so the callers pass `cols * rows + 1`. -/
def reconstruct (cells : GridCoord → Option CellBase) :
    ℕ → GridCoord → List GridCoord → List GridCoord
  | 0, cur, acc => cur :: acc
  | fuel + 1, cur, acc =>
    match (cells cur).bind (fun c => c.parent) with
    | none => cur :: acc
    | some p => reconstruct cells fuel p (cur :: acc)

/-- Result of the search loop. -/
inductive LoopRes where
  | fuelOut
  | exhausted
  | found (cells : List GridCoord)
deriving DecidableEq

/-- The `while !pending.is_empty()` loop (route.rs lines 275-350), with
explicit fuel; `fuelOut` marks a run cut short by the fuel, `exhausted` a
frontier that emptied without reaching the goal.  The second component is
the ghost pop trace. -/
def aStarLoop (pen : ℚ) (cf : CostField) (endCell : GridCoord) :
    ℕ → AState → LoopRes × List GridCoord
  | 0, st => (.fuelOut, st.popped)
  | fuel + 1, st =>
    if st.pending.isEmpty then (.exhausted, st.popped)
    else
      let pb := pop_best st.cells st.pending
      let cur := pb.1
      let st1 : AState :=
        { st with
          pending := pb.2,
          cells :=
            match st.cells cur with
            | some cb => updateCell st.cells cur { cb with is_pending := false }
            | none => st.cells,
          popped := st.popped ++ [cur] }
      if cur = endCell then
        (.found (reconstruct st1.cells (cf.grid.cols * cf.grid.rows + 1) cur []),
          st1.popped)
      else
        aStarLoop pen cf endCell fuel
          ((cf.grid.cardinal_neighbors cur).foldl (expandNeighbor pen cf endCell cur) st1)

/-- Outcome of `AStar::find_path`. -/
inductive SearchOutcome where
  | panic
  | fuelOut
  | noPath
  | path (ps : List Pos)
deriving DecidableEq

/-- The immediate destination check of `find_path` (route.rs lines 252-255):
`self.field.cost_at(end)? == f32::MAX` returns `None` both when the index is
out of range (the `?`) and when the destination cell is impassable.  It reads
nothing but the destination cell. -/
def endRejected (cf : CostField) (endC : GridCoord) : Bool :=
  match cf.cost_at endC with
  | none => true
  | some c => decide (c = Cost.blocked)

/-- `AStar::find_path` (route.rs lines 244-353) together with the ghost pop
trace.  `panic` models the `isize::clamp` panic inside `Grid::to_cell` on a
degenerate grid, `noPath` the `None` result, `fuelOut` is a model artifact
of the loop fuel. -/
def find_path_aux (pen : ℚ) (fuel : ℕ) (cf : CostField) (startP endP : Pos) :
    SearchOutcome × List GridCoord :=
  match cf.grid.to_cell startP with
  | none => (.panic, [])
  | some startC =>
    match cf.grid.to_cell endP with
    | none => (.panic, [])
    | some endC =>
      if endRejected cf endC then (.noPath, [])
      else
          let st0 : AState :=
            { cells := updateCell (fun _ => none) startC
                { g := .fin 0, h := (manhattan startC endC : ℚ),
                  parent := none, is_pending := true },
              pending := [startC],
              seen := fun x => decide (x = startC),
              popped := [] }
          match aStarLoop pen cf endC fuel st0 with
          | (.fuelOut, tr) => (.fuelOut, tr)
          | (.exhausted, tr) => (.noPath, tr)
          | (.found cellsPath, tr) => (.path (cellsPath.map cf.grid.cell_center), tr)

/-- `AStar::find_path` proper: the outcome. -/
def find_path (pen : ℚ) (fuel : ℕ) (cf : CostField) (startP endP : Pos) :
    SearchOutcome :=
  (find_path_aux pen fuel cf startP endP).1

/-- The ghost trace of popped (expanded) cells of a `find_path` run. -/
def searchTrace (pen : ℚ) (fuel : ℕ) (cf : CostField) (startP endP : Pos) :
    List GridCoord :=
  (find_path_aux pen fuel cf startP endP).2

end AStar

/-! ### C1 part 2: returned paths keep off impassable cells after the start -/

theorem updateCell_eq_some (cells : GridCoord → Option CellBase) (c : GridCoord)
    (cb : CellBase) (x : GridCoord) (cbx : CellBase) :
    updateCell cells c cb x = some cbx ↔
      (x = c ∧ cbx = cb) ∨ (x ≠ c ∧ cells x = some cbx) := by
  unfold updateCell
  split
  · rename_i h
    simp [h, eq_comm]
  · rename_i h
    simp [h]

/-- Every cell whose record carries a parent link is a cell the relaxation
accepted, hence its field cost is a finite value, not the sentinel. -/
def ParentsUnblocked (cf : CostField) (st : AState) : Prop :=
  ∀ c cb, st.cells c = some cb → cb.parent ≠ none →
    ∃ q, cf.cost_at c = some (Cost.val q)

theorem expandNeighbor_parents (pen : ℚ) (cf : CostField) (endC cur : GridCoord)
    (st : AState) (nbr : GridCoord) (h : ParentsUnblocked cf st) :
    ParentsUnblocked cf (AStar.expandNeighbor pen cf endC cur st nbr) := by
  unfold AStar.expandNeighbor
  cases hc : cf.cost_at nbr with
  | none => exact h
  | some ncost =>
    dsimp only
    by_cases hb : ncost = Cost.blocked
    · rw [if_pos hb]; exact h
    · rw [if_neg hb]
      obtain ⟨q, hq⟩ : ∃ q, ncost = Cost.val q := by
        cases ncost with
        | blocked => exact absurd rfl hb
        | val q => exact ⟨q, rfl⟩
      set st1 : AState :=
        if st.seen nbr then st
        else { st with cells := updateCell st.cells nbr CellBase.new,
                       seen := fun x => if x = nbr then true else st.seen x } with hst1
      have h1 : ParentsUnblocked cf st1 := by
        rw [hst1]
        split
        · exact h
        · intro c cb hcb hp
          rcases (updateCell_eq_some _ _ _ _ _).mp hcb with ⟨rfl, rfl⟩ | ⟨_, hold⟩
          · exact absurd rfl hp
          · exact h c cb hold hp
      split
      all_goals split
      all_goals first
        | exact h1
        | · intro c cb hcb hp
            split at hcb
            all_goals
              rcases (updateCell_eq_some _ _ _ _ _).mp hcb with ⟨rfl, rfl⟩ | ⟨_, hold⟩
              · exact ⟨q, hq ▸ hc⟩
              · exact h1 c cb hold hp

theorem expandFold_parents (pen : ℚ) (cf : CostField) (endC cur : GridCoord) :
    ∀ (l : List GridCoord) (st : AState), ParentsUnblocked cf st →
      ParentsUnblocked cf (l.foldl (AStar.expandNeighbor pen cf endC cur) st) := by
  intro l
  induction l with
  | nil => intro st h; exact h
  | cons a t ih =>
    intro st h
    exact ih _ (expandNeighbor_parents pen cf endC cur st a h)

theorem reconstruct_tail_parents (cells : GridCoord → Option CellBase) :
    ∀ (fuel : ℕ) (cur : GridCoord) (acc : List GridCoord),
      (∀ x ∈ acc, ∃ cb, cells x = some cb ∧ cb.parent ≠ none) →
      ∀ x ∈ (AStar.reconstruct cells fuel cur acc).tail,
        ∃ cb, cells x = some cb ∧ cb.parent ≠ none := by
  intro fuel
  induction fuel with
  | zero => intro cur acc hacc x hx; exact hacc x hx
  | succ fuel ih =>
    intro cur acc hacc x hx
    unfold AStar.reconstruct at hx
    revert hx
    cases hp : (cells cur).bind (fun c => c.parent) with
    | none => exact fun hx => hacc x hx
    | some p =>
      intro hx
      refine ih p (cur :: acc) ?_ x hx
      intro z hz
      rcases List.mem_cons.mp hz with rfl | hz2
      · cases hcur : cells z with
        | none => rw [hcur] at hp; exact Option.noConfusion hp
        | some cb =>
          refine ⟨cb, rfl, ?_⟩
          rw [hcur] at hp
          simp only [Option.some_bind] at hp
          simp [hp]
      · exact hacc z hz2

theorem popState_parents (cf : CostField) (st : AState) (cur : GridCoord)
    (pend : List GridCoord) (h : ParentsUnblocked cf st) :
    ParentsUnblocked cf
      { st with
        pending := pend,
        cells :=
          match st.cells cur with
          | some cb => updateCell st.cells cur { cb with is_pending := false }
          | none => st.cells,
        popped := st.popped ++ [cur] } := by
  intro c cb hcb hp
  revert hcb
  dsimp only
  cases hcur : st.cells cur with
  | none => exact fun hcb => h c cb hcb hp
  | some cb0 =>
    intro hcb
    rcases (updateCell_eq_some _ _ _ _ _).mp hcb with ⟨rfl, rfl⟩ | ⟨_, hold⟩
    · exact h c cb0 hcur (by simpa using hp)
    · exact h c cb hold hp

theorem loop_found_tail (pen : ℚ) (cf : CostField) (endC : GridCoord) :
    ∀ (fuel : ℕ) (st : AState) (l : List GridCoord),
      ParentsUnblocked cf st →
      (AStar.aStarLoop pen cf endC fuel st).1 = .found l →
      ∀ x ∈ l.tail, ∃ q, cf.cost_at x = some (Cost.val q) := by
  intro fuel
  induction fuel with
  | zero => intro st l _ hfound; exact absurd hfound (by unfold AStar.aStarLoop; simp)
  | succ fuel ih =>
    intro st l hinv hfound
    unfold AStar.aStarLoop at hfound
    by_cases hemp : st.pending.isEmpty
    · rw [if_pos hemp] at hfound
      exact absurd hfound (by simp)
    · rw [if_neg hemp] at hfound
      dsimp only at hfound
      set cur := (AStar.pop_best st.cells st.pending).1 with hcur
      set st1 : AState :=
        { st with
          pending := (AStar.pop_best st.cells st.pending).2,
          cells :=
            match st.cells cur with
            | some cb => updateCell st.cells cur { cb with is_pending := false }
            | none => st.cells,
          popped := st.popped ++ [cur] } with hst1
      have hinv1 : ParentsUnblocked cf st1 :=
        popState_parents cf st cur _ hinv
      by_cases hend : cur = endC
      · rw [if_pos hend] at hfound
        simp only [Prod.fst] at hfound
        have hl : l = AStar.reconstruct st1.cells (cf.grid.cols * cf.grid.rows + 1) cur [] := by
          cases hfound; rfl
        intro x hx
        subst hl
        obtain ⟨cb, hcb, hpar⟩ :=
          reconstruct_tail_parents st1.cells (cf.grid.cols * cf.grid.rows + 1) cur []
            (by intro z hz; exact absurd hz (List.not_mem_nil z)) x hx
        exact hinv1 x cb hcb hpar
      · rw [if_neg hend] at hfound
        exact ih _ l (expandFold_parents pen cf endC cur _ _ hinv1) hfound

theorem Grid.cell_center_inj (g : Grid) (hc : 0 < g.cell) {a b : GridCoord}
    (h : g.cell_center a = g.cell_center b) : a = b := by
  unfold Grid.cell_center at h
  have h1 := congrArg Prod.fst h
  have h2 := congrArg Prod.snd h
  dsimp only at h1 h2
  have hcne : g.cell ≠ 0 := ne_of_gt hc
  have e1 : ((a.1 : ℚ) + 1/2) * g.cell = ((b.1 : ℚ) + 1/2) * g.cell := by linarith
  have e2 : ((a.2 : ℚ) + 1/2) * g.cell = ((b.2 : ℚ) + 1/2) * g.cell := by linarith
  have f1 : (a.1 : ℚ) = (b.1 : ℚ) := by
    have := mul_right_cancel₀ hcne e1
    linarith
  have f2 : (a.2 : ℚ) = (b.2 : ℚ) := by
    have := mul_right_cancel₀ hcne e2
    linarith
  have : a.1 = b.1 := Nat.cast_injective f1
  have : a.2 = b.2 := Nat.cast_injective f2
  cases a; cases b
  simp_all

/-- C1 (amended): after `add_block_rect`, every in range cell whose center
lies inside the expanded rectangle carries the impassable sentinel; and a
successful `find_path` polyline never passes through the center of an
impassable cell, except possibly at its first point (the cell the start
position snaps to, whose cost the search never checks). -/
theorem C1_blocking :
    (∀ (dist : Rect → Pos → ℚ) (cf : CostField) (r : Rect) (m : ℚ) (x y : ℕ),
      x < cf.grid.cols → y < cf.grid.rows →
      cf.cost.length = cf.grid.cols * cf.grid.rows →
      (r.expand m).contains (cf.grid.cell_center (x, y)) = true →
      (cf.add_block_rect dist r m).cost_at (x, y) = some Cost.blocked) ∧
    (∀ (pen : ℚ) (fuel : ℕ) (cf : CostField) (s e : Pos) (ps : List Pos),
      0 < cf.grid.cell →
      AStar.find_path pen fuel cf s e = .path ps →
      ∀ c : GridCoord, cf.cost_at c = some Cost.blocked →
        cf.grid.cell_center c ∉ ps.tail) := by
  constructor
  · intro dist cf r m x y hx hy hlen hcont
    rw [CostField.add_block_rect_eq]
    refine CostField.outerFold_blocked dist (r.expand m) _ cf x y
      (List.mem_range.mpr hy) (List.nodup_range _) hx hcont ?_ ?_
    · rw [hlen]
      unfold Grid.to_index
      dsimp only
      calc y * cf.grid.cols + x < y * cf.grid.cols + cf.grid.cols := by omega
        _ = (y + 1) * cf.grid.cols := by ring
        _ ≤ cf.grid.rows * cf.grid.cols := Nat.mul_le_mul_right _ (by omega)
        _ = cf.grid.cols * cf.grid.rows := Nat.mul_comm _ _
    · intro y' hy' x' hx'
      exact cf.grid.to_index_ne hx hx' (by simp [hy'])
  · intro pen fuel cf s e ps hcell hpath c hblocked hmem
    unfold AStar.find_path AStar.find_path_aux at hpath
    revert hpath
    cases h1 : cf.grid.to_cell s with
    | none => intro hpath; exact absurd hpath (by simp)
    | some sc =>
      cases h2 : cf.grid.to_cell e with
      | none => intro hpath; exact absurd hpath (by simp)
      | some ec =>
        dsimp only
        by_cases hrej : AStar.endRejected cf ec
        · rw [if_pos hrej]; intro hpath; exact absurd hpath (by simp)
        · rw [if_neg hrej]
          cases h3 : AStar.aStarLoop pen cf ec fuel
            { cells := updateCell (fun _ => none) sc
                { g := .fin 0, h := (AStar.manhattan sc ec : ℚ),
                  parent := none, is_pending := true },
              pending := [sc],
              seen := fun x => decide (x = sc),
              popped := [] } with
          | mk res tr =>
            cases res with
            | fuelOut => intro hpath; exact absurd hpath (by simp)
            | exhausted => intro hpath; exact absurd hpath (by simp)
            | found cellsPath =>
              intro hpath
              simp only [AStar.SearchOutcome.path.injEq] at hpath
              have hps : ps = cellsPath.map cf.grid.cell_center := by
                cases hpath; rfl
              have htail := loop_found_tail pen cf ec fuel
                { cells := updateCell (fun _ => none) sc
                    { g := .fin 0, h := (AStar.manhattan sc ec : ℚ),
                      parent := none, is_pending := true },
                  pending := [sc],
                  seen := fun x => decide (x = sc),
                  popped := [] } cellsPath
                (by
                  intro c0 cb hcb hp
                  have hcb' : updateCell (fun _ => none) sc
                      { g := .fin 0, h := (AStar.manhattan sc ec : ℚ),
                        parent := none, is_pending := true } c0 = some cb := hcb
                  rcases (updateCell_eq_some _ _ _ _ _).mp hcb' with ⟨rfl, rfl⟩ | ⟨_, hold⟩
                  · exact absurd rfl hp
                  · exact Option.noConfusion hold)
                (by rw [h3])
              subst hps
              rcases cellsPath with _ | ⟨hd, tl⟩
              · simp at hmem
              · simp only [List.map_cons, List.tail_cons] at hmem
                obtain ⟨x, hxmem, hxeq⟩ := List.mem_map.mp hmem
                obtain ⟨q, hq⟩ := htail x (by simpa using hxmem)
                have hxc : x = c := cf.grid.cell_center_inj hcell hxeq
                rw [hxc, hblocked] at hq
                exact Cost.noConfusion (Option.some.inj hq)

/-- C1 counterexample to the claim as stated: a field built by
`add_block_rect` whose blocked region contains the cell the start position
snaps to; `find_path` succeeds and the polyline passes through the center of
that impassable cell.  The distance function passed agrees with the Euclidean
rectangle to point distance at both cell centers of this grid (each center is
horizontally aligned with the rectangle). -/
theorem C1_blocking_counterexample :
    ((CostField.new (Grid.mk (0, 0) 2 1 1)).add_block_rect
        (fun r p => max (max (r.min.1 - p.1) (p.1 - r.max.1)) 0 +
          max (max (r.min.2 - p.2) (p.2 - r.max.2)) 0)
        (Rect.mk (2/5, 2/5) (3/5, 3/5)) 0).cost_at (0, 0) = some Cost.blocked ∧
    (Grid.mk (0, 0) 2 1 1).cell_center (0, 0) = (1/2, 1/2) ∧
    AStar.find_path 1 10
      ((CostField.new (Grid.mk (0, 0) 2 1 1)).add_block_rect
        (fun r p => max (max (r.min.1 - p.1) (p.1 - r.max.1)) 0 +
          max (max (r.min.2 - p.2) (p.2 - r.max.2)) 0)
        (Rect.mk (2/5, 2/5) (3/5, 3/5)) 0)
      (1/2, 1/2) (3/2, 1/2) = .path [(1/2, 1/2), (3/2, 1/2)] ∧
    ((1/2, 1/2) : Pos) ∈ [((1/2, 1/2) : Pos), (3/2, 1/2)] := by
  refine ⟨?_, ?_, ?_, List.mem_cons_self _ _⟩
  · with_unfolding_all rfl
  · with_unfolding_all rfl
  · with_unfolding_all rfl

/-- Witness for C1 at concrete inputs. -/
theorem C1_blocking_witness :
    ((0:ℚ) < 1 ∧ (Rect.expand (Rect.mk (2/5, 2/5) (3/5, 3/5)) 0).contains
        ((Grid.mk (0, 0) 2 1 1).cell_center (0, 0)) = true) ∧
    ((CostField.new (Grid.mk (0, 0) 2 1 1)).add_block_rect (fun _ _ => 0)
        (Rect.mk (2/5, 2/5) (3/5, 3/5)) 0).cost_at (0, 0) = some Cost.blocked ∧
    (∀ c : GridCoord,
      (CostField.mk [Cost.blocked, Cost.val 1, Cost.val 1] (Grid.mk (0, 0) 3 1 1)).cost_at c
          = some Cost.blocked →
      (Grid.mk (0, 0) 3 1 1).cell_center c ∉
        [((3/2, 1/2) : Pos), (5/2, 1/2)]) := by
  have hcont : (Rect.expand (Rect.mk (2/5, 2/5) (3/5, 3/5)) 0).contains
      ((Grid.mk (0, 0) 2 1 1).cell_center (0, 0)) = true := by
    with_unfolding_all rfl
  refine ⟨⟨by norm_num, hcont⟩, ?_, ?_⟩
  · exact C1_blocking.1 (fun _ _ => 0) (CostField.new (Grid.mk (0, 0) 2 1 1))
      (Rect.mk (2/5, 2/5) (3/5, 3/5)) 0 0 0 (by norm_num [CostField.new]) (by norm_num [CostField.new]) (by rfl) hcont
  · intro c hb
    have := C1_blocking.2 1 100
      (CostField.mk [Cost.blocked, Cost.val 1, Cost.val 1] (Grid.mk (0, 0) 3 1 1))
      (1/2, 1/2) (5/2, 1/2) [(1/2, 1/2), (3/2, 1/2), (5/2, 1/2)]
      (by norm_num) (by with_unfolding_all rfl) c hb
    simpa using this

/-! ### C3: degenerate grids -/

theorem Grid.to_cell_eq_none_iff (g : Grid) (p : Pos) :
    g.to_cell p = none ↔ (g.cols = 0 ∨ g.rows = 0) := by
  unfold Grid.to_cell
  by_cases h : g.cols = 0 ∨ g.rows = 0
  · simp [h]
  · simp [h]

/-- C3 (recording the code bug): on a grid with zero columns or zero rows,
`find_path` does not return the no-path result; it panics, because
`Grid::to_cell` calls `isize::clamp(0, cols - 1)` with inverted bounds. -/
theorem C3_degenerate_grid_panics (pen : ℚ) (fuel : ℕ) (cf : CostField)
    (hdeg : cf.grid.cols = 0 ∨ cf.grid.rows = 0) (s e : Pos) :
    AStar.find_path pen fuel cf s e = .panic := by
  have hs : cf.grid.to_cell s = none := (Grid.to_cell_eq_none_iff _ _).mpr hdeg
  unfold AStar.find_path AStar.find_path_aux
  rw [hs]

/-- Witness for C3: the 1 by 1 scene with cell size 3 from the claim. -/
theorem C3_degenerate_grid_panics_witness :
    ((Grid.from_scene (Rect.mk (0, 0) (1, 1)) 3).cols = 0 ∨
      (Grid.from_scene (Rect.mk (0, 0) (1, 1)) 3).rows = 0) ∧
    AStar.find_path 1 100 (CostField.new (Grid.from_scene (Rect.mk (0, 0) (1, 1)) 3))
      (0, 0) (1, 1) = .panic := by
  have hdeg : (Grid.from_scene (Rect.mk (0, 0) (1, 1)) 3).cols = 0 ∨
      (Grid.from_scene (Rect.mk (0, 0) (1, 1)) 3).rows = 0 := by
    left; with_unfolding_all rfl
  exact ⟨hdeg, C3_degenerate_grid_panics 1 100 _ hdeg (0, 0) (1, 1)⟩

/-! ### C2: blocked destinations are rejected, blocked starts are not -/

/-- C2: (i) whenever the cell the destination snaps to is impassable,
`find_path` returns the no-path result (not a panic); (ii) the immediate
rejection test reads only the destination cell, so two fields agreeing
there are rejected identically regardless of every other cell, including
the start cell; (iii) a concrete run whose start cell is impassable is not
rejected: it returns a path. -/
theorem C2_blocked_destination :
    (∀ (pen : ℚ) (fuel : ℕ) (cf : CostField) (s e : Pos) (ec : GridCoord),
      cf.grid.to_cell e = some ec → cf.cost_at ec = some Cost.blocked →
      AStar.find_path pen fuel cf s e = .noPath) ∧
    (∀ (cf cf' : CostField) (ec : GridCoord), cf.cost_at ec = cf'.cost_at ec →
      AStar.endRejected cf ec = AStar.endRejected cf' ec) ∧
    ((CostField.mk [Cost.blocked, Cost.val 1, Cost.val 1] (Grid.mk (0, 0) 3 1 1)).cost_at
        (0, 0) = some Cost.blocked ∧
      (Grid.mk (0, 0) 3 1 1).to_cell (1/2, 1/2) = some (0, 0) ∧
      AStar.find_path 1 100
        (CostField.mk [Cost.blocked, Cost.val 1, Cost.val 1] (Grid.mk (0, 0) 3 1 1))
        (1/2, 1/2) (5/2, 1/2)
        = .path [(1/2, 1/2), (3/2, 1/2), (5/2, 1/2)]) := by
  refine ⟨?_, ?_, ?_, ?_, ?_⟩
  · intro pen fuel cf s e ec hec hblocked
    have hnd : ¬(cf.grid.cols = 0 ∨ cf.grid.rows = 0) := by
      intro h
      rw [(Grid.to_cell_eq_none_iff cf.grid e).mpr h] at hec
      exact Option.noConfusion hec
    obtain ⟨sc, hsc⟩ : ∃ sc, cf.grid.to_cell s = some sc := by
      cases h : cf.grid.to_cell s with
      | none => exact absurd ((Grid.to_cell_eq_none_iff cf.grid s).mp h) hnd
      | some sc => exact ⟨sc, rfl⟩
    have hrej : AStar.endRejected cf ec = true := by
      unfold AStar.endRejected
      rw [hblocked]
      simp
    unfold AStar.find_path AStar.find_path_aux
    simp [hsc, hec, hrej]
  · intro cf cf' ec hsame
    unfold AStar.endRejected
    rw [hsame]
  · with_unfolding_all rfl
  · with_unfolding_all rfl
  · with_unfolding_all rfl

/-! ### The view layer: ports and port lines (view.rs) -/

/-- `PortKind` (view.rs lines 24-27). -/
inductive PortKind where
  | Input : PortKind
  | Output : PortKind
deriving DecidableEq

/-- `PortSlot` (view.rs lines 30-34); `NodeIndex` is a natural number. -/
structure PortSlot where
  node : ℕ
  slot : ℕ
  kind : PortKind
deriving DecidableEq

/-- `PortLine` (view.rs lines 43-46); the Rust fields are `from` and `to`,
which are reserved words here. -/
structure PortLine where
  fromPort : PortSlot
  toPort : PortSlot
deriving DecidableEq

/-- An edge of the `StableGraph`, with its stable `EdgeIndex`. -/
structure VEdge where
  id : ℕ
  src : ℕ
  tgt : ℕ
deriving DecidableEq

/-- The graph snapshot: node indices plus directed edges.  The list orders
stand for petgraph's iteration orders; every property proved below is
independent of them. -/
structure VGraph where
  nodes : List ℕ
  edges : List VEdge

/-- `graph.neighbors_directed(node, Incoming).count()`: one per incoming
edge, multi-edges and self-loops included. -/
def VGraph.inDeg (g : VGraph) (n : ℕ) : ℕ :=
  (g.edges.filter (fun e => decide (e.tgt = n))).length

/-- `graph.neighbors_directed(node, Outgoing).count()`. -/
def VGraph.outDeg (g : VGraph) (n : ℕ) : ℕ :=
  (g.edges.filter (fun e => decide (e.src = n))).length

/-- `PORT_OFFSET` (view.rs line 21). -/
def PORT_OFFSET : ℚ := 4

/-- `emath::lerp` on positions (`Pos2::lerp`). -/
def lerp (a b : Pos) (t : ℚ) : Pos :=
  ((1 - t) * a.1 + t * b.1, (1 - t) * a.2 + t * b.2)

/-- `CfgView::layout_ports_on_rect` (view.rs lines 198-210). -/
def layout_ports_on_rect (rect : Rect) (kind : PortKind) (count : ℕ) : List Pos :=
  let left : Pos := match kind with
    | .Input => (rect.min.1, rect.min.2)
    | .Output => (rect.min.1, rect.max.2)
  let right : Pos := match kind with
    | .Input => (rect.max.1, rect.min.2)
    | .Output => (rect.max.1, rect.max.2)
  (List.range count).map (fun (i : ℕ) =>
    let t : ℚ := ((i : ℚ) + 1) / ((count : ℚ) + 1)
    lerp left right t)

/-- `CfgView::assign_port_positions` (view.rs lines 212-243).  The
`HashMap<PortSlot, Pos2>` becomes an association list; with distinct node
indices the inserted keys are distinct, so insertion and append agree. -/
def assign_port_positions (g : VGraph) (block_rects : ℕ → Option Rect) :
    List (PortSlot × Pos) :=
  g.nodes.foldl (fun m node =>
    let inputs := g.inDeg node
    let outputs := g.outDeg node
    match block_rects node with
    | none => m
    | some rect =>
      let ins := ((layout_ports_on_rect rect .Input inputs).enum).map
        (fun ip => (PortSlot.mk node ip.1 .Input, (ip.2.1, ip.2.2 + -PORT_OFFSET)))
      let outs := ((layout_ports_on_rect rect .Output outputs).enum).map
        (fun ip => (PortSlot.mk node ip.1 .Output, (ip.2.1, ip.2.2 + PORT_OFFSET)))
      m ++ ins ++ outs) []

/-- `Rect::center().x`, with the `unwrap_or(0.0)` of view.rs line 316. -/
def center_x (block_rects : ℕ → Option Rect) (n : ℕ) : ℚ :=
  match block_rects n with
  | some r => (r.min.1 + r.max.1) / 2
  | none => 0

/-- The `sorted_ports` closure (view.rs lines 319-333): collect this node's
ports of one kind with their x positions, stably sort by x.  `mergeSort` and
Rust's `sort_by` are both stable, so they agree. -/
def sorted_ports (port_positions : List (PortSlot × Pos)) (node : ℕ)
    (kind : PortKind) : List PortSlot :=
  let target_ports : List (PortSlot × ℚ) :=
    port_positions.filterMap (fun sp =>
      if sp.1.node = node ∧ sp.1.kind = kind then some (sp.1, sp.2.1) else none)
  (target_ports.mergeSort (fun a b => decide (a.2 ≤ b.2))).map Prod.fst

/-- `CfgView::assign_port_lines` (view.rs lines 311-390). -/
def assign_port_lines (g : VGraph) (block_rects : ℕ → Option Rect)
    (port_positions : List (PortSlot × Pos)) : List PortLine :=
  g.nodes.foldl (fun acc node =>
    let ports := sorted_ports port_positions node .Output
    if ports.isEmpty then acc
    else
      let sorted_out_edges :=
        (g.edges.filter (fun e => decide (e.src = node))).mergeSort
          (fun a b => decide (center_x block_rects a.tgt ≤ center_x block_rects b.tgt))
      if sorted_out_edges.isEmpty then acc
      else
        sorted_out_edges.enum.foldl (fun acc2 ne =>
          match ports.get? ne.1 with
          | none => acc2
          | some from_port =>
            let target_ports := sorted_ports port_positions ne.2.tgt .Input
            if target_ports.isEmpty then acc2
            else
              let incoming :=
                (g.edges.filter (fun e => decide (e.tgt = ne.2.tgt))).mergeSort
                  (fun a b => decide (center_x block_rects a.src ≤ center_x block_rects b.src))
              let target_idx := (incoming.findIdx? (fun e2 => decide (e2.id = ne.2.id))).getD 0
              match target_ports.get? target_idx with
              | none => acc2
              | some to_port => acc2 ++ [PortLine.mk from_port to_port]) acc) []

/-! ### C7: port allocation -/

/-- The entries `assign_port_positions` produces for one node. -/
def portEntries (g : VGraph) (block_rects : ℕ → Option Rect) (node : ℕ) :
    List (PortSlot × Pos) :=
  match block_rects node with
  | none => []
  | some rect =>
    ((layout_ports_on_rect rect .Input (g.inDeg node)).enum).map
      (fun ip => (PortSlot.mk node ip.1 .Input, (ip.2.1, ip.2.2 + -PORT_OFFSET))) ++
    ((layout_ports_on_rect rect .Output (g.outDeg node)).enum).map
      (fun ip => (PortSlot.mk node ip.1 .Output, (ip.2.1, ip.2.2 + PORT_OFFSET)))

theorem assign_port_positions_eq_join (g : VGraph) (br : ℕ → Option Rect) :
    assign_port_positions g br = (g.nodes.map (portEntries g br)).join := by
  unfold assign_port_positions
  suffices h : ∀ (ns : List ℕ) (m : List (PortSlot × Pos)),
      (ns.foldl (fun m node =>
        match br node with
        | none => m
        | some rect =>
          m ++ ((layout_ports_on_rect rect .Input (g.inDeg node)).enum).map
            (fun ip => (PortSlot.mk node ip.1 .Input, (ip.2.1, ip.2.2 + -PORT_OFFSET))) ++
          ((layout_ports_on_rect rect .Output (g.outDeg node)).enum).map
            (fun ip => (PortSlot.mk node ip.1 .Output, (ip.2.1, ip.2.2 + PORT_OFFSET)))) m)
        = m ++ (ns.map (portEntries g br)).join by
    exact (h g.nodes []).trans (by simp)
  intro ns
  induction ns with
  | nil => intro m; simp
  | cons n rest ih =>
    intro m
    rw [List.foldl_cons, ih]
    unfold portEntries
    cases hbrn : br n with
    | none => simp [hbrn]
    | some rect => simp [hbrn]

/-- The position C7 predicts for slot `i` of `count` ports of a direction. -/
def expectedPortPos (rect : Rect) (kind : PortKind) (count i : ℕ) : Pos :=
  let t : ℚ := ((i : ℚ) + 1) / ((count : ℚ) + 1)
  match kind with
  | .Input => ((1 - t) * rect.min.1 + t * rect.max.1, rect.min.2 - PORT_OFFSET)
  | .Output => ((1 - t) * rect.min.1 + t * rect.max.1, rect.max.2 + PORT_OFFSET)

theorem enum_map_range {β : Type} (c : ℕ) (f : ℕ → β) :
    ((List.range c).map f).enum = (List.range c).map (fun i => (i, f i)) := by
  rw [List.enum_eq_zip_range, List.length_map, List.length_range]
  nth_rewrite 1 [show List.range c = (List.range c).map id from (List.map_id _).symm]
  rw [List.zip_map']
  simp [id]

theorem portEntries_char (g : VGraph) (br : ℕ → Option Rect) (node : ℕ)
    (rect : Rect) (h : br node = some rect) :
    portEntries g br node =
      (List.range (g.inDeg node)).map
        (fun i => (PortSlot.mk node i .Input,
          expectedPortPos rect .Input (g.inDeg node) i)) ++
      (List.range (g.outDeg node)).map
        (fun i => (PortSlot.mk node i .Output,
          expectedPortPos rect .Output (g.outDeg node) i)) := by
  unfold portEntries
  rw [h]
  simp only [layout_ports_on_rect]
  rw [enum_map_range, enum_map_range, List.map_map, List.map_map]
  congr 1
  · refine List.map_congr_left ?_
    intro i _
    simp only [Function.comp]
    unfold lerp expectedPortPos PORT_OFFSET
    dsimp only
    refine Prod.ext rfl (Prod.ext rfl ?_)
    dsimp only
    ring
  · refine List.map_congr_left ?_
    intro i _
    simp only [Function.comp]
    unfold lerp expectedPortPos PORT_OFFSET
    dsimp only
    refine Prod.ext rfl (Prod.ext rfl ?_)
    dsimp only
    ring

theorem portEntries_node (g : VGraph) (br : ℕ → Option Rect) (node : ℕ)
    (s : PortSlot) (p : Pos) (h : (s, p) ∈ portEntries g br node) :
    s.node = node := by
  unfold portEntries at h
  revert h
  cases br node with
  | none => intro h; exact absurd h (List.not_mem_nil _)
  | some rect =>
    intro h
    rcases List.mem_append.mp h with h1 | h1 <;>
    · obtain ⟨ip, _, heq⟩ := List.mem_map.mp h1
      cases heq
      rfl

/-- Membership characterization of the port position map for a placed node. -/
theorem mem_assign_port_positions (g : VGraph) (br : ℕ → Option Rect)
    (hnd : g.nodes.Nodup) (n : ℕ) (hn : n ∈ g.nodes) (rect : Rect)
    (h : br n = some rect) (s : PortSlot) (p : Pos) (hsn : s.node = n) :
    ((s, p) ∈ assign_port_positions g br) ↔
      ((s.kind = .Input ∧ s.slot < g.inDeg n ∧
          p = expectedPortPos rect .Input (g.inDeg n) s.slot) ∨
        (s.kind = .Output ∧ s.slot < g.outDeg n ∧
          p = expectedPortPos rect .Output (g.outDeg n) s.slot)) := by
  rw [assign_port_positions_eq_join]
  rw [List.mem_join]
  constructor
  · rintro ⟨l, hl, hmem⟩
    obtain ⟨n', hn', rfl⟩ := List.mem_map.mp hl
    have : s.node = n' := portEntries_node g br n' s p hmem
    have hnn : n' = n := by rw [← this, hsn]
    subst hnn
    rw [portEntries_char g br n' rect (hsn ▸ h)] at hmem
    rcases List.mem_append.mp hmem with h1 | h1
    · obtain ⟨i, hi, heq⟩ := List.mem_map.mp h1
      obtain ⟨hs, hp⟩ := Prod.mk.injEq .. ▸ heq
      refine Or.inl ?_
      cases hs
      exact ⟨rfl, hsn ▸ List.mem_range.mp hi, hp.symm ▸ rfl⟩
    · obtain ⟨i, hi, heq⟩ := List.mem_map.mp h1
      obtain ⟨hs, hp⟩ := Prod.mk.injEq .. ▸ heq
      refine Or.inr ?_
      cases hs
      exact ⟨rfl, hsn ▸ List.mem_range.mp hi, hp.symm ▸ rfl⟩
  · intro hcase
    refine ⟨portEntries g br n, List.mem_map_of_mem _ hn, ?_⟩
    rw [portEntries_char g br n rect h]
    rcases hcase with ⟨hk, hlt, hp⟩ | ⟨hk, hlt, hp⟩
    · refine List.mem_append.mpr (Or.inl ?_)
      refine List.mem_map.mpr ⟨s.slot, List.mem_range.mpr hlt, ?_⟩
      rw [hp]
      congr 1
      rw [← hsn, ← hk]
    · refine List.mem_append.mpr (Or.inr ?_)
      refine List.mem_map.mpr ⟨s.slot, List.mem_range.mpr hlt, ?_⟩
      rw [hp]
      congr 1
      rw [← hsn, ← hk]

theorem filter_join {α : Type} (p : α → Bool) :
    ∀ (ls : List (List α)), (ls.join.filter p) = (ls.map (List.filter p)).join := by
  intro ls
  induction ls with
  | nil => rfl
  | cons l rest ih => simp [List.filter_append, ih]

theorem sum_zero_of_all_zero (f : ℕ → ℕ) :
    ∀ (l : List ℕ), (∀ m ∈ l, f m = 0) → (l.map f).sum = 0 := by
  intro l
  induction l with
  | nil => intro _; rfl
  | cons b t iht =>
    intro hall
    rw [List.map_cons, List.sum_cons, hall b (List.mem_cons_self b t),
      iht (fun m hm => hall m (List.mem_cons_of_mem b hm))]

theorem sum_support (f : ℕ → ℕ) :
    ∀ (ns : List ℕ), ns.Nodup → ∀ n ∈ ns, (∀ m ∈ ns, m ≠ n → f m = 0) →
      (ns.map f).sum = f n := by
  intro ns
  induction ns with
  | nil => intro _ n hn; exact absurd hn (List.not_mem_nil n)
  | cons a rest ih =>
    intro hnd n hn hz
    rw [List.map_cons, List.sum_cons]
    rcases List.mem_cons.mp hn with rfl | hn2
    · have hz2 : ∀ m ∈ rest, f m = 0 := by
        intro m hm
        refine hz m (List.mem_cons_of_mem n hm) ?_
        rintro rfl
        exact (List.nodup_cons.mp hnd).1 hm
      rw [sum_zero_of_all_zero f rest hz2]
      omega
    · have ha : f a = 0 := hz a (List.mem_cons_self a rest) (by
        rintro rfl
        exact (List.nodup_cons.mp hnd).1 hn2)
      rw [ha, ih (List.nodup_cons.mp hnd).2 n hn2
        (fun m hm hne => hz m (List.mem_cons_of_mem a hm) hne)]
      omega

theorem count_ports (g : VGraph) (br : ℕ → Option Rect) (hnd : g.nodes.Nodup)
    (n : ℕ) (hn : n ∈ g.nodes) (rect : Rect) (h : br n = some rect)
    (kind : PortKind) :
    ((assign_port_positions g br).filter
        (fun pr => decide (pr.1.node = n ∧ pr.1.kind = kind))).length =
      match kind with
      | .Input => g.inDeg n
      | .Output => g.outDeg n := by
  rw [assign_port_positions_eq_join, filter_join, List.length_join,
    List.map_map, List.map_map]
  simp only [Function.comp_def]
  have hval : ∀ m ∈ g.nodes, m ≠ n →
      (fun m => ((portEntries g br m).filter
        (fun pr => decide (pr.1.node = n ∧ pr.1.kind = kind))).length) m = 0 := by
    intro m _ hmn
    dsimp only
    rw [List.length_eq_zero, List.filter_eq_nil_iff]
    intro pr hpr
    have := portEntries_node g br m pr.1 pr.2 hpr
    simp only [decide_eq_true_eq, not_and]
    intro hnode
    exact absurd (this ▸ hnode) hmn
  rw [sum_support _ g.nodes hnd n hn hval]
  rw [portEntries_char g br n rect h, List.filter_append]
  cases kind with
  | Input =>
    have h1 : ((List.range (g.inDeg n)).map
        (fun i => (PortSlot.mk n i .Input,
          expectedPortPos rect .Input (g.inDeg n) i))).filter
        (fun pr => decide (pr.1.node = n ∧ pr.1.kind = .Input)) =
        (List.range (g.inDeg n)).map
        (fun i => (PortSlot.mk n i .Input,
          expectedPortPos rect .Input (g.inDeg n) i)) := by
      rw [List.filter_eq_self]
      intro pr hpr
      obtain ⟨i, _, rfl⟩ := List.mem_map.mp hpr
      simp
    have h2 : ((List.range (g.outDeg n)).map
        (fun i => (PortSlot.mk n i .Output,
          expectedPortPos rect .Output (g.outDeg n) i))).filter
        (fun pr => decide (pr.1.node = n ∧ pr.1.kind = .Input)) = [] := by
      rw [List.filter_eq_nil_iff]
      intro pr hpr
      obtain ⟨i, _, rfl⟩ := List.mem_map.mp hpr
      simp
    rw [h1, h2]
    simp
  | Output =>
    have h1 : ((List.range (g.inDeg n)).map
        (fun i => (PortSlot.mk n i .Input,
          expectedPortPos rect .Input (g.inDeg n) i))).filter
        (fun pr => decide (pr.1.node = n ∧ pr.1.kind = .Output)) = [] := by
      rw [List.filter_eq_nil_iff]
      intro pr hpr
      obtain ⟨i, _, rfl⟩ := List.mem_map.mp hpr
      simp
    have h2 : ((List.range (g.outDeg n)).map
        (fun i => (PortSlot.mk n i .Output,
          expectedPortPos rect .Output (g.outDeg n) i))).filter
        (fun pr => decide (pr.1.node = n ∧ pr.1.kind = .Output)) =
        (List.range (g.outDeg n)).map
        (fun i => (PortSlot.mk n i .Output,
          expectedPortPos rect .Output (g.outDeg n) i)) := by
      rw [List.filter_eq_self]
      intro pr hpr
      obtain ⟨i, _, rfl⟩ := List.mem_map.mp hpr
      simp
    rw [h1, h2]
    simp

/-- C7: a placed node with positive width gets exactly `inDeg` Input ports
along the top edge and `outDeg` Output ports along the bottom edge, at the
fractional positions `t = (k+1)/(count+1)`, offset `PORT_OFFSET` outward,
and within each direction the x position is strictly increasing in the slot
index. -/
theorem C7_port_allocation (g : VGraph) (br : ℕ → Option Rect) (n : ℕ)
    (rect : Rect) (hnd : g.nodes.Nodup) (hn : n ∈ g.nodes)
    (h : br n = some rect) (hw : 0 < rect.width) :
    ((assign_port_positions g br).filter
        (fun pr => decide (pr.1.node = n ∧ pr.1.kind = .Input))).length = g.inDeg n ∧
    ((assign_port_positions g br).filter
        (fun pr => decide (pr.1.node = n ∧ pr.1.kind = .Output))).length = g.outDeg n ∧
    (∀ k, k < g.inDeg n →
      (PortSlot.mk n k .Input, expectedPortPos rect .Input (g.inDeg n) k)
        ∈ assign_port_positions g br) ∧
    (∀ k, k < g.outDeg n →
      (PortSlot.mk n k .Output, expectedPortPos rect .Output (g.outDeg n) k)
        ∈ assign_port_positions g br) ∧
    (∀ (kind : PortKind) (j k : ℕ) (pj pk : Pos),
      (PortSlot.mk n j kind, pj) ∈ assign_port_positions g br →
      (PortSlot.mk n k kind, pk) ∈ assign_port_positions g br →
      j < k → pj.1 < pk.1) := by
  have hmono : ∀ (cnt j k : ℕ), j < k →
      ((1 - ((j : ℚ) + 1) / ((cnt : ℚ) + 1)) * rect.min.1 +
        (((j : ℚ) + 1) / ((cnt : ℚ) + 1)) * rect.max.1) <
      ((1 - ((k : ℚ) + 1) / ((cnt : ℚ) + 1)) * rect.min.1 +
        (((k : ℚ) + 1) / ((cnt : ℚ) + 1)) * rect.max.1) := by
    intro cnt j k hjk
    have hcnt : (0 : ℚ) < (cnt : ℚ) + 1 := by positivity
    have htlt : ((j : ℚ) + 1) / ((cnt : ℚ) + 1) < ((k : ℚ) + 1) / ((cnt : ℚ) + 1) := by
      apply div_lt_div_of_pos_right ?_ hcnt
      have : (j : ℚ) < (k : ℚ) := by exact_mod_cast hjk
      linarith
    have hwq : rect.min.1 < rect.max.1 := by
      unfold Rect.width at hw
      linarith
    nlinarith [htlt, hwq]
  refine ⟨count_ports g br hnd n hn rect h .Input,
    count_ports g br hnd n hn rect h .Output, ?_, ?_, ?_⟩
  · intro k hk
    exact (mem_assign_port_positions g br hnd n hn rect h _ _ rfl).mpr
      (Or.inl ⟨rfl, hk, rfl⟩)
  · intro k hk
    exact (mem_assign_port_positions g br hnd n hn rect h _ _ rfl).mpr
      (Or.inr ⟨rfl, hk, rfl⟩)
  · intro kind j k pj pk hj hk hjk
    have cj := (mem_assign_port_positions g br hnd n hn rect h _ _ rfl).mp hj
    have ck := (mem_assign_port_positions g br hnd n hn rect h _ _ rfl).mp hk
    cases kind with
    | Input =>
      rcases cj with ⟨_, hltj, hpj⟩ | ⟨hkj, _, _⟩
      · rcases ck with ⟨_, hltk, hpk⟩ | ⟨hkk, _, _⟩
        · subst hpj
          subst hpk
          unfold expectedPortPos
          exact hmono _ j k hjk
        · exact absurd hkk (by simp)
      · exact absurd hkj (by simp)
    | Output =>
      rcases cj with ⟨hkj, _, _⟩ | ⟨_, hltj, hpj⟩
      · exact absurd hkj (by simp)
      · rcases ck with ⟨hkk, _, _⟩ | ⟨_, hltk, hpk⟩
        · exact absurd hkk (by simp)
        · subst hpj
          subst hpk
          unfold expectedPortPos
          exact hmono _ j k hjk

/-- Witness for C7: one edge from node 0 to node 1. -/
theorem C7_port_allocation_witness :
    ([0, 1].Nodup ∧ (0 : ℕ) ∈ [0, 1] ∧ (0 : ℚ) < (Rect.mk (0, 0) (10, 5)).width) ∧
    (((assign_port_positions (VGraph.mk [0, 1] [VEdge.mk 0 0 1])
        (fun _ => some (Rect.mk (0, 0) (10, 5)))).filter
        (fun pr => decide (pr.1.node = 0 ∧ pr.1.kind = .Output))).length
      = (VGraph.mk [0, 1] [VEdge.mk 0 0 1]).outDeg 0) := by
  refine ⟨⟨by decide, by decide, by norm_num [Rect.width]⟩, ?_⟩
  exact (C7_port_allocation (VGraph.mk [0, 1] [VEdge.mk 0 0 1])
    (fun _ => some (Rect.mk (0, 0) (10, 5))) 0 (Rect.mk (0, 0) (10, 5))
    (by decide) (by decide) rfl (by norm_num [Rect.width])).2.1

/-! ### C8: matching totality -/

theorem findIdx?_lt_length_aux {α : Type} (p : α → Bool) :
    ∀ (l : List α) (i j : ℕ), List.findIdx? p l i = some j → i ≤ j ∧ j < i + l.length := by
  intro l
  induction l with
  | nil => intro i j h; exact absurd h (by simp)
  | cons x xs ih =>
    intro i j h
    rw [List.findIdx?_cons] at h
    by_cases hp : p x = true
    · rw [if_pos hp] at h
      cases h
      simp
    · rw [if_neg hp] at h
      obtain ⟨h1, h2⟩ := ih (i + 1) j h
      constructor
      · omega
      · simp only [List.length_cons]
        omega

theorem findIdx?_lt_length {α : Type} (p : α → Bool) (l : List α) (j : ℕ)
    (h : List.findIdx? p l = some j) : j < l.length := by
  have := findIdx?_lt_length_aux p l 0 j h
  omega

theorem sorted_ports_length (pp : List (PortSlot × Pos)) (n : ℕ) (kind : PortKind) :
    (sorted_ports pp n kind).length =
      (pp.filter (fun pr => decide (pr.1.node = n ∧ pr.1.kind = kind))).length := by
  unfold sorted_ports
  rw [List.length_map, List.length_mergeSort]
  induction pp with
  | nil => rfl
  | cons a t ih =>
    rw [List.filterMap_cons, List.filter_cons]
    by_cases hP : a.1.node = n ∧ a.1.kind = kind
    · rw [if_pos hP, if_pos (by simpa using hP)]
      simp [ih]
    · rw [if_neg hP, if_neg (by simpa using hP)]
      exact ih

theorem mem_sorted_ports (pp : List (PortSlot × Pos)) (n : ℕ) (kind : PortKind)
    (s : PortSlot) (hs : s ∈ sorted_ports pp n kind) :
    ∃ p, (s, p) ∈ pp := by
  unfold sorted_ports at hs
  obtain ⟨⟨s', x⟩, hmem, rfl⟩ := List.mem_map.mp hs
  rw [List.mem_mergeSort, List.mem_filterMap] at hmem
  obtain ⟨sp, hsp, heq⟩ := hmem
  revert heq
  split
  · intro heq
    cases heq
    exact ⟨sp.2, hsp⟩
  · intro heq
    exact absurd heq (by simp)

/-- The lines `assign_port_lines` appends for one out edge of a node, given
the sorted output port list of that node. -/
def lineForEdge (g : VGraph) (block_rects : ℕ → Option Rect)
    (pp : List (PortSlot × Pos)) (ports : List PortSlot) (ie : ℕ × VEdge) :
    List PortLine :=
  match ports.get? ie.1 with
  | none => []
  | some from_port =>
    let target_ports := sorted_ports pp ie.2.tgt .Input
    if target_ports.isEmpty then []
    else
      let incoming :=
        (g.edges.filter (fun e => decide (e.tgt = ie.2.tgt))).mergeSort
          (fun a b => decide (center_x block_rects a.src ≤ center_x block_rects b.src))
      let target_idx := (incoming.findIdx? (fun e2 => decide (e2.id = ie.2.id))).getD 0
      match target_ports.get? target_idx with
      | none => []
      | some to_port => [PortLine.mk from_port to_port]

/-- The lines `assign_port_lines` appends for one node. -/
def linesForNode (g : VGraph) (block_rects : ℕ → Option Rect)
    (pp : List (PortSlot × Pos)) (node : ℕ) : List PortLine :=
  let ports := sorted_ports pp node .Output
  if ports.isEmpty then []
  else
    let sorted_out_edges :=
      (g.edges.filter (fun e => decide (e.src = node))).mergeSort
        (fun a b => decide (center_x block_rects a.tgt ≤ center_x block_rects b.tgt))
    if sorted_out_edges.isEmpty then []
    else (sorted_out_edges.enum.map (lineForEdge g block_rects pp ports)).join

theorem foldl_append_of_step {α β : Type} (step : List α → β → List α)
    (delta : β → List α) (h : ∀ acc x, step acc x = acc ++ delta x) :
    ∀ (l : List β) (acc : List α), l.foldl step acc = acc ++ (l.map delta).join := by
  intro l
  induction l with
  | nil => intro acc; simp
  | cons x xs ih =>
    intro acc
    rw [List.foldl_cons, h, ih]
    simp

theorem assign_port_lines_eq_join (g : VGraph) (br : ℕ → Option Rect)
    (pp : List (PortSlot × Pos)) :
    assign_port_lines g br pp = (g.nodes.map (linesForNode g br pp)).join := by
  unfold assign_port_lines
  rw [foldl_append_of_step _ (linesForNode g br pp) ?_ g.nodes []]
  · simp
  · intro acc node
    unfold linesForNode
    dsimp only
    by_cases hP : (sorted_ports pp node .Output).isEmpty
    · rw [if_pos hP, if_pos hP]
      simp
    · rw [if_neg hP, if_neg hP]
      by_cases hS : ((g.edges.filter (fun e => decide (e.src = node))).mergeSort
          (fun a b => decide (center_x br a.tgt ≤ center_x br b.tgt))).isEmpty
      · rw [if_pos hS, if_pos hS]
        simp
      · rw [if_neg hS, if_neg hS]
        rw [foldl_append_of_step _
          (lineForEdge g br pp (sorted_ports pp node .Output)) ?_ _ acc]
        intro acc2 ie
        unfold lineForEdge
        cases hg : (sorted_ports pp node .Output).get? ie.1 with
        | none => simp
        | some fp =>
          dsimp only
          by_cases hT : (sorted_ports pp ie.2.tgt .Input).isEmpty
          · rw [if_pos hT, if_pos hT]
            simp
          · rw [if_neg hT, if_neg hT]
            split <;> simp

theorem sum_map_add (f g : ℕ → ℕ) :
    ∀ (ns : List ℕ), (ns.map (fun n => f n + g n)).sum = (ns.map f).sum + (ns.map g).sum := by
  intro ns
  induction ns with
  | nil => rfl
  | cons a t ih =>
    simp only [List.map_cons, List.sum_cons, ih]
    omega

theorem sum_outDeg_aux :
    ∀ (es : List VEdge) (ns : List ℕ), ns.Nodup → (∀ e ∈ es, e.src ∈ ns) →
      (ns.map (fun n => (es.filter (fun e => decide (e.src = n))).length)).sum
        = es.length := by
  intro es
  induction es with
  | nil =>
    intro ns _ _
    simp [sum_zero_of_all_zero]
  | cons e rest ih =>
    intro ns hnd hcov
    have hsplit : ∀ n, ((e :: rest).filter (fun e2 => decide (e2.src = n))).length
        = (if e.src = n then 1 else 0) + (rest.filter (fun e2 => decide (e2.src = n))).length := by
      intro n
      rw [List.filter_cons]
      by_cases h : e.src = n
      · rw [if_pos (by simpa using h), if_pos h]
        simp [Nat.add_comm]
      · rw [if_neg (by simpa using h), if_neg h]
        simp
    calc (ns.map (fun n => ((e :: rest).filter (fun e2 => decide (e2.src = n))).length)).sum
        = (ns.map (fun n => (if e.src = n then 1 else 0)
            + (rest.filter (fun e2 => decide (e2.src = n))).length)).sum := by
          congr 1
          exact List.map_congr_left (fun n _ => hsplit n)
      _ = (ns.map (fun n => if e.src = n then 1 else 0)).sum
            + (ns.map (fun n => (rest.filter (fun e2 => decide (e2.src = n))).length)).sum :=
          sum_map_add _ _ ns
      _ = 1 + rest.length := by
          rw [ih ns hnd (fun e2 he2 => hcov e2 (List.mem_cons_of_mem e he2))]
          congr 1
          rw [sum_support _ ns hnd e.src (hcov e (List.mem_cons_self e rest))
            (fun m _ hne => if_neg (fun h => hne h.symm))]
          rw [if_pos rfl]
      _ = (e :: rest).length := by simp [Nat.add_comm]

theorem sum_map_one {α : Type} : ∀ (l : List α), (l.map (fun _ => 1)).sum = l.length := by
  intro l
  induction l with
  | nil => rfl
  | cons a t ih => simp [ih, Nat.add_comm]

theorem linesForNode_length (g : VGraph) (br : ℕ → Option Rect)
    (pp : List (PortSlot × Pos)) (n : ℕ)
    (hout : (pp.filter (fun pr => decide (pr.1.node = n ∧ pr.1.kind = .Output))).length
      = g.outDeg n)
    (hin : ∀ e ∈ g.edges,
      (pp.filter (fun pr => decide (pr.1.node = e.tgt ∧ pr.1.kind = .Input))).length
        = g.inDeg e.tgt) :
    (linesForNode g br pp n).length = g.outDeg n := by
  unfold linesForNode
  dsimp only
  have hports : (sorted_ports pp n .Output).length = g.outDeg n :=
    (sorted_ports_length pp n .Output).trans hout
  by_cases hz : g.outDeg n = 0
  · rw [if_pos (by rw [List.isEmpty_iff, ← List.length_eq_zero, hports]; exact hz), hz]
    rfl
  · have hne : ¬(sorted_ports pp n .Output).isEmpty = true := by
      rw [List.isEmpty_iff, ← List.length_eq_zero, hports]
      exact hz
    rw [if_neg hne]
    set souts := (g.edges.filter (fun e => decide (e.src = n))).mergeSort
      (fun a b => decide (center_x br a.tgt ≤ center_x br b.tgt)) with hsouts
    have hslen : souts.length = g.outDeg n := by
      rw [hsouts, List.length_mergeSort]
      rfl
    have hsne : ¬souts.isEmpty = true := by
      rw [List.isEmpty_iff, ← List.length_eq_zero, hslen]
      exact hz
    rw [if_neg hsne, List.length_join, List.map_map]
    have hone : ∀ ie ∈ souts.enum,
        ((List.length ∘ lineForEdge g br pp (sorted_ports pp n .Output)) ie) = 1 := by
      intro ie hie
      rw [List.enum_eq_zip_range] at hie
      obtain ⟨hi, he⟩ := List.of_mem_zip hie
      rw [List.mem_range] at hi
      have hemem : ie.2 ∈ g.edges ∧ ie.2.src = n := by
        rw [hsouts, List.mem_mergeSort, List.mem_filter] at he
        exact ⟨he.1, by simpa using he.2⟩
      simp only [Function.comp]
      unfold lineForEdge
      have hget : ∃ fp, (sorted_ports pp n .Output).get? ie.1 = some fp := by
        rw [List.get?_eq_get (by rw [hports, ← hslen]; exact hi)]
        exact ⟨_, rfl⟩
      obtain ⟨fp, hfp⟩ := hget
      rw [hfp]
      dsimp only
      have htlen : (sorted_ports pp ie.2.tgt .Input).length = g.inDeg ie.2.tgt :=
        (sorted_ports_length pp ie.2.tgt .Input).trans (hin ie.2 hemem.1)
      have hdeg : 0 < g.inDeg ie.2.tgt := by
        unfold VGraph.inDeg
        rw [List.length_pos]
        intro hnil
        have : ie.2 ∈ g.edges.filter (fun e => decide (e.tgt = ie.2.tgt)) :=
          List.mem_filter.mpr ⟨hemem.1, by simp⟩
        rw [hnil] at this
        exact List.not_mem_nil _ this
      have htne : ¬(sorted_ports pp ie.2.tgt .Input).isEmpty = true := by
        rw [List.isEmpty_iff, ← List.length_eq_zero, htlen]
        omega
      rw [if_neg htne]
      set incoming := (g.edges.filter (fun e => decide (e.tgt = ie.2.tgt))).mergeSort
        (fun a b => decide (center_x br a.src ≤ center_x br b.src)) with hinc
      have hilen : incoming.length = g.inDeg ie.2.tgt := by
        rw [hinc, List.length_mergeSort]
        rfl
      have hfind : ∃ j, incoming.findIdx? (fun e2 => decide (e2.id = ie.2.id)) = some j := by
        cases hf : incoming.findIdx? (fun e2 => decide (e2.id = ie.2.id)) with
        | some j => exact ⟨j, rfl⟩
        | none =>
          exfalso
          have hmm : ie.2 ∈ incoming := by
            rw [hinc, List.mem_mergeSort, List.mem_filter]
            exact ⟨hemem.1, by simp⟩
          have := (List.findIdx?_eq_none_iff.mp hf) ie.2 hmm
          simp at this
      obtain ⟨j, hj⟩ := hfind
      rw [hj]
      have hjlt : j < g.inDeg ie.2.tgt := by
        rw [← hilen]
        exact findIdx?_lt_length _ incoming j hj
      have : ∃ tp, (sorted_ports pp ie.2.tgt .Input).get? ((some j).getD 0) = some tp := by
        rw [List.get?_eq_get (by rw [htlen]; exact hjlt)]
        exact ⟨_, rfl⟩
      obtain ⟨tp, htp⟩ := this
      rw [htp]
      rfl
    rw [List.map_congr_left hone, sum_map_one, List.enum_length, hslen]

theorem mem_linesForNode (g : VGraph) (br : ℕ → Option Rect)
    (pp : List (PortSlot × Pos)) (n : ℕ) (pl : PortLine)
    (h : pl ∈ linesForNode g br pp n) :
    (∃ p, (pl.fromPort, p) ∈ pp) ∧ ∃ p, (pl.toPort, p) ∈ pp := by
  unfold linesForNode at h
  revert h
  dsimp only
  split
  · intro h; exact absurd h (List.not_mem_nil pl)
  · split
    · intro h; exact absurd h (List.not_mem_nil pl)
    · intro h
      rw [List.mem_join] at h
      obtain ⟨l, hl, hpl⟩ := h
      obtain ⟨ie, _, rfl⟩ := List.mem_map.mp hl
      revert hpl
      unfold lineForEdge
      cases hfp : (sorted_ports pp n .Output).get? ie.1 with
      | none => intro hpl; exact absurd hpl (List.not_mem_nil pl)
      | some fp =>
        dsimp only
        split
        · intro hpl; exact absurd hpl (List.not_mem_nil pl)
        · cases htp : (sorted_ports pp ie.2.tgt .Input).get?
              ((((g.edges.filter (fun e => decide (e.tgt = ie.2.tgt))).mergeSort
                (fun a b => decide (center_x br a.src ≤ center_x br b.src))).findIdx?
                  (fun e2 => decide (e2.id = ie.2.id))).getD 0) with
          | none => intro hpl; exact absurd hpl (List.not_mem_nil pl)
          | some tp =>
            intro hpl
            rcases List.mem_singleton.mp hpl with rfl
            constructor
            · exact mem_sorted_ports pp n .Output fp (List.get?_mem hfp)
            · exact mem_sorted_ports pp ie.2.tgt .Input tp (List.get?_mem htp)

/-- C8: when every node's allocated port count of each direction equals its
incident edge count of that direction, `assign_port_lines` produces exactly
one `PortLine` per edge, and every produced line references only ports
present in the port position map. -/
theorem C8_matching_totality (g : VGraph) (br : ℕ → Option Rect)
    (pp : List (PortSlot × Pos))
    (hnd : g.nodes.Nodup)
    (hcov : ∀ e ∈ g.edges, e.src ∈ g.nodes)
    (hout : ∀ n ∈ g.nodes,
      (pp.filter (fun pr => decide (pr.1.node = n ∧ pr.1.kind = .Output))).length
        = g.outDeg n)
    (hin : ∀ e ∈ g.edges,
      (pp.filter (fun pr => decide (pr.1.node = e.tgt ∧ pr.1.kind = .Input))).length
        = g.inDeg e.tgt) :
    (assign_port_lines g br pp).length = g.edges.length ∧
    ∀ pl ∈ assign_port_lines g br pp,
      (∃ p, (pl.fromPort, p) ∈ pp) ∧ ∃ p, (pl.toPort, p) ∈ pp := by
  rw [assign_port_lines_eq_join]
  constructor
  · rw [List.length_join, List.map_map]
    have hcong : ∀ n ∈ g.nodes,
        ((List.length ∘ linesForNode g br pp) n) = g.outDeg n := by
      intro n hn
      simp only [Function.comp]
      exact linesForNode_length g br pp n (hout n hn) hin
    rw [List.map_congr_left hcong]
    exact sum_outDeg_aux g.edges g.nodes hnd hcov
  · intro pl hpl
    rw [List.mem_join] at hpl
    obtain ⟨l, hl, hpl2⟩ := hpl
    obtain ⟨n, _, rfl⟩ := List.mem_map.mp hl
    exact mem_linesForNode g br pp n pl hpl2

/-- Witness for C8: two nodes, one edge, consistent port maps. -/
theorem C8_matching_totality_witness :
    ([0, 1].Nodup ∧
      (assign_port_lines (VGraph.mk [0, 1] [VEdge.mk 0 0 1]) (fun _ => none)
        [(PortSlot.mk 0 0 .Output, (1, 0)), (PortSlot.mk 1 0 .Input, (1, 9))]).length
      = [VEdge.mk 0 0 1].length) := by
  refine ⟨by decide, ?_⟩
  refine (C8_matching_totality (VGraph.mk [0, 1] [VEdge.mk 0 0 1]) (fun _ => none)
    [(PortSlot.mk 0 0 .Output, (1, 0)), (PortSlot.mk 1 0 .Input, (1, 9))]
    (by decide) ?_ ?_ ?_).1
  · intro e he
    rcases List.mem_singleton.mp he with rfl
    decide
  · intro n hn
    rcases List.mem_cons.mp hn with rfl | hn2
    · decide
    · rcases List.mem_singleton.mp hn2 with rfl
      decide
  · intro e he
    rcases List.mem_singleton.mp he with rfl
    decide

/-! ### C4 and C5: the search loop.  Shared invariant machinery. -/

namespace GVal

/-- The non-strict order matching `lt` (IEEE: everything is ≤ INFINITY). -/
def le (a b : GVal) : Prop :=
  match b with
  | inf => True
  | fin q =>
    match a with
    | inf => False
    | fin p => p ≤ q

theorem le_refl_g (a : GVal) : le a a := by
  cases a with
  | inf => exact True.intro
  | fin q => exact (show (q : ℚ) ≤ q from le_rfl)

theorem le_trans_g {a b c : GVal} (h1 : le a b) (h2 : le b c) : le a c := by
  cases c with
  | inf => exact True.intro
  | fin r =>
    cases b with
    | inf => exact absurd h2 id
    | fin q =>
      cases a with
      | inf => exact absurd h1 id
      | fin p => exact le_trans (h1 : p ≤ q) (h2 : q ≤ r)

theorem not_lt_iff_le {a b : GVal} : ¬(a < b) ↔ le b a := by
  cases a with
  | inf =>
    cases b with
    | inf => exact ⟨fun _ => True.intro, fun _ h => h⟩
    | fin q => exact ⟨fun _ => True.intro, fun _ h => h⟩
  | fin p =>
    cases b with
    | inf => exact ⟨fun h => h True.intro, fun h => h.elim⟩
    | fin q => exact (show (¬ p < q ↔ q ≤ p) from not_lt)

theorem le_of_lt_g {a b : GVal} (h : a < b) : le a b := by
  cases a with
  | inf => exact absurd h (not_inf_lt b)
  | fin p =>
    cases b with
    | inf => exact True.intro
    | fin q => exact le_of_lt (h : p < q)

@[simp] theorem fin_le_fin (p q : ℚ) : le (fin p) (fin q) ↔ p ≤ q := Iff.rfl

@[simp] theorem le_inf (a : GVal) : le a inf := True.intro

@[simp] theorem not_inf_le_fin (q : ℚ) : ¬ le inf (fin q) := id

end GVal

namespace AStar

/-- A coordinate inside the grid. -/
def inGrid (g : Grid) (c : GridCoord) : Prop := c.1 < g.cols ∧ c.2 < g.rows

/-- The documented cost field invariant: every finite cell cost is at least
the 1.0 baseline. -/
def baseline (cf : CostField) : Prop :=
  ∀ c q, cf.cost_at c = some (Cost.val q) → 1 ≤ q

theorem manhattan_self (a : GridCoord) : manhattan a a = 0 := by
  unfold manhattan
  simp [Nat.dist_self]

theorem manhattan_comm (a b : GridCoord) : manhattan a b = manhattan b a := by
  unfold manhattan
  rw [Nat.dist_comm a.1 b.1, Nat.dist_comm a.2 b.2]

theorem manhattan_triangle (a b c : GridCoord) :
    manhattan a c ≤ manhattan a b + manhattan b c := by
  unfold manhattan
  have h1 := Nat.dist.triangle_inequality a.1 b.1 c.1
  have h2 := Nat.dist.triangle_inequality a.2 b.2 c.2
  omega

theorem manhattan_eq_zero {a b : GridCoord} (h : manhattan a b = 0) : a = b := by
  unfold manhattan at h
  have h1 : a.1 = b.1 := Nat.eq_of_dist_eq_zero (by omega)
  have h2 : a.2 = b.2 := Nat.eq_of_dist_eq_zero (by omega)
  cases a; cases b; simp_all

theorem mem_cardinal_neighbors {g : Grid} {c nbr : GridCoord}
    (h : nbr ∈ g.cardinal_neighbors c) :
    (nbr = (c.1 + 1, c.2) ∧ c.1 + 1 < g.cols) ∨
    (nbr = (c.1 - 1, c.2) ∧ 1 ≤ c.1) ∨
    (nbr = (c.1, c.2 + 1) ∧ c.2 + 1 < g.rows) ∨
    (nbr = (c.1, c.2 - 1) ∧ 1 ≤ c.2) := by
  unfold Grid.cardinal_neighbors at h
  rcases c with ⟨x, y⟩
  dsimp only at h
  rcases List.mem_append.mp h with h1 | h1
  · rcases List.mem_append.mp h1 with h2 | h2
    · rcases List.mem_append.mp h2 with h3 | h3
      · by_cases hb : x + 1 < g.cols
        · rw [if_pos hb] at h3
          exact Or.inl ⟨List.mem_singleton.mp h3, hb⟩
        · rw [if_neg hb] at h3
          exact absurd h3 (List.not_mem_nil nbr)
      · by_cases hb : 1 ≤ x
        · rw [if_pos hb] at h3
          exact Or.inr (Or.inl ⟨List.mem_singleton.mp h3, hb⟩)
        · rw [if_neg hb] at h3
          exact absurd h3 (List.not_mem_nil nbr)
    · by_cases hb : y + 1 < g.rows
      · rw [if_pos hb] at h2
        exact Or.inr (Or.inr (Or.inl ⟨List.mem_singleton.mp h2, hb⟩))
      · rw [if_neg hb] at h2
        exact absurd h2 (List.not_mem_nil nbr)
  · by_cases hb : 1 ≤ y
    · rw [if_pos hb] at h1
      exact Or.inr (Or.inr (Or.inr ⟨List.mem_singleton.mp h1, hb⟩))
    · rw [if_neg hb] at h1
      exact absurd h1 (List.not_mem_nil nbr)

theorem neighbor_inGrid {g : Grid} {c nbr : GridCoord} (hc : inGrid g c)
    (h : nbr ∈ g.cardinal_neighbors c) : inGrid g nbr := by
  obtain ⟨hx, hy⟩ := hc
  rcases mem_cardinal_neighbors h with ⟨rfl, hb⟩ | ⟨rfl, hb⟩ | ⟨rfl, hb⟩ | ⟨rfl, hb⟩ <;>
    exact ⟨by omega, by omega⟩

theorem neighbor_ne {g : Grid} {c nbr : GridCoord}
    (h : nbr ∈ g.cardinal_neighbors c) : nbr ≠ c := by
  rcases mem_cardinal_neighbors h with ⟨rfl, hb⟩ | ⟨rfl, hb⟩ | ⟨rfl, hb⟩ | ⟨rfl, hb⟩ <;>
  · intro he
    rcases c with ⟨x, y⟩
    simp only [Prod.mk.injEq] at he
    omega

theorem manhattan_neighbor {g : Grid} {c nbr : GridCoord}
    (h : nbr ∈ g.cardinal_neighbors c) : manhattan c nbr = 1 := by
  rcases mem_cardinal_neighbors h with ⟨rfl, hb⟩ | ⟨rfl, hb⟩ | ⟨rfl, hb⟩ | ⟨rfl, hb⟩ <;>
  · rcases c with ⟨x, y⟩
    unfold manhattan Nat.dist
    dsimp only
    omega

theorem manhattan_step {g : Grid} {c nbr : GridCoord} (e : GridCoord)
    (h : nbr ∈ g.cardinal_neighbors c) :
    manhattan c e ≤ manhattan nbr e + 1 := by
  have := manhattan_triangle c nbr e
  rw [manhattan_neighbor h] at this
  omega

/-- `Grid::to_cell` always yields an in grid coordinate. -/
theorem to_cell_inGrid (g : Grid) (p : Pos) (c : GridCoord)
    (h : g.to_cell p = some c) : inGrid g c := by
  unfold Grid.to_cell at h
  by_cases hdeg : g.cols = 0 ∨ g.rows = 0
  · rw [if_pos hdeg] at h
    exact Option.noConfusion h
  · rw [if_neg hdeg] at h
    push_neg at hdeg
    cases h
    constructor
    · have : min (max ⌊(p.1 - g.origin.1) / g.cell⌋ 0) ((g.cols : ℤ) - 1)
          ≤ (g.cols : ℤ) - 1 := min_le_right _ _
      omega
    · have : min (max ⌊(p.2 - g.origin.2) / g.cell⌋ 0) ((g.rows : ℤ) - 1)
          ≤ (g.rows : ℤ) - 1 := min_le_right _ _
      omega

/-- The cost of every in grid cell of a fresh field is the baseline. -/
theorem new_cost_at (g : Grid) (c : GridCoord) (h : inGrid g c) :
    (CostField.new g).cost_at c = some (Cost.val 1) := by
  unfold CostField.new CostField.cost_at
  dsimp only
  have hidx : g.to_index c < g.cols * g.rows := by
    obtain ⟨hx, hy⟩ := h
    unfold Grid.to_index
    calc c.2 * g.cols + c.1 < c.2 * g.cols + g.cols := by omega
      _ = (c.2 + 1) * g.cols := by ring
      _ ≤ g.rows * g.cols := Nat.mul_le_mul_right _ (by omega)
      _ = g.cols * g.rows := Nat.mul_comm _ _
  rw [List.get?_eq_get (by simpa using hidx)]
  simp

theorem baseline_new (g : Grid) : baseline (CostField.new g) := by
  intro c q h
  unfold CostField.new CostField.cost_at at h
  dsimp only at h
  have hv : Cost.val q ∈ List.replicate (g.cols * g.rows) (Cost.val (1 : ℚ)) :=
    List.get?_mem h
  have := List.eq_of_mem_replicate hv
  injection this with h1
  rw [h1]

/-- The map `coords ↦ g` read off the cell map (`INFINITY` when absent). -/
def gOf (cells : GridCoord → Option CellBase) (c : GridCoord) : GVal :=
  match cells c with
  | none => .inf
  | some cb => cb.g

theorem gOf_eq_fin_iff {cells : GridCoord → Option CellBase} {c : GridCoord} {q : ℚ} :
    gOf cells c = .fin q ↔ ∃ cb, cells c = some cb ∧ cb.g = .fin q := by
  unfold gOf
  cases hc : cells c with
  | none => simp
  | some cb => simp

theorem eq_inf_of_inf_le {b : GVal} (h : GVal.le .inf b) : b = .inf := by
  cases b with
  | inf => exact rfl
  | fin q => exact absurd h id

theorem le_fin_elim {a : GVal} {q : ℚ} (h : GVal.le a (.fin q)) :
    ∃ p, a = .fin p ∧ p ≤ q := by
  cases a with
  | inf => exact absurd h id
  | fin p => exact ⟨p, rfl, h⟩

/-- The scan step of `pop_best` (route.rs lines 230-236). -/
def bestStep (cells : GridCoord → Option CellBase) (best : ℕ × GVal)
    (ic : ℕ × GridCoord) : ℕ × GVal :=
  if fOf cells ic.2 < best.2 then (ic.1, fOf cells ic.2) else best

theorem bestIndex_eq (cells : GridCoord → Option CellBase) (pending : List GridCoord) :
    bestIndex cells pending = (pending.enum.foldl (bestStep cells) (0, .inf)).1 := rfl

theorem bestFold (cells : GridCoord → Option CellBase) :
    ∀ (l : List (ℕ × GridCoord)) (b : ℕ × GVal),
      (l.foldl (bestStep cells) b = b ∨
        ∃ ic ∈ l, l.foldl (bestStep cells) b = (ic.1, fOf cells ic.2)) ∧
      GVal.le (l.foldl (bestStep cells) b).2 b.2 ∧
      ∀ ic ∈ l, GVal.le (l.foldl (bestStep cells) b).2 (fOf cells ic.2) := by
  intro l
  induction l with
  | nil =>
    intro b
    exact ⟨Or.inl rfl, GVal.le_refl_g _, fun ic h => absurd h (List.not_mem_nil ic)⟩
  | cons ic0 l ih =>
    intro b
    rw [List.foldl_cons]
    by_cases hlt : fOf cells ic0.2 < b.2
    · have hstep : bestStep cells b ic0 = (ic0.1, fOf cells ic0.2) := by
        unfold bestStep; rw [if_pos hlt]
      rw [hstep]
      obtain ⟨hc, hle, hmin⟩ := ih (ic0.1, fOf cells ic0.2)
      refine ⟨?_, ?_, ?_⟩
      · rcases hc with hc | ⟨ic, hic, hic2⟩
        · exact Or.inr ⟨ic0, List.mem_cons_self _ _, hc⟩
        · exact Or.inr ⟨ic, List.mem_cons_of_mem _ hic, hic2⟩
      · exact GVal.le_trans_g hle (GVal.le_of_lt_g hlt)
      · intro ic hic
        rcases List.mem_cons.mp hic with rfl | hic
        · exact hle
        · exact hmin ic hic
    · have hstep : bestStep cells b ic0 = b := by
        unfold bestStep; rw [if_neg hlt]
      rw [hstep]
      obtain ⟨hc, hle, hmin⟩ := ih b
      refine ⟨?_, hle, ?_⟩
      · rcases hc with hc | ⟨ic, hic, hic2⟩
        · exact Or.inl hc
        · exact Or.inr ⟨ic, List.mem_cons_of_mem _ hic, hic2⟩
      · intro ic hic
        rcases List.mem_cons.mp hic with rfl | hic
        · exact GVal.le_trans_g hle (GVal.not_lt_iff_le.mp hlt)
        · exact hmin ic hic

theorem enumFrom_spec :
    ∀ (l : List GridCoord) (n : ℕ) (ic : ℕ × GridCoord), ic ∈ l.enumFrom n →
      n ≤ ic.1 ∧ ic.1 - n < l.length ∧ l.get? (ic.1 - n) = some ic.2 := by
  intro l
  induction l with
  | nil => intro n ic h; exact absurd h (List.not_mem_nil ic)
  | cons a l ih =>
    intro n ic h
    rw [List.enumFrom_cons] at h
    rcases List.mem_cons.mp h with rfl | h
    · exact ⟨Nat.le_refl n, by simp, by simp⟩
    · obtain ⟨h1, h2, h3⟩ := ih (n + 1) ic h
      refine ⟨by omega, by simp; omega, ?_⟩
      have : ic.1 - n = (ic.1 - (n + 1)) + 1 := by omega
      rw [this]
      simpa using h3

theorem mem_enumFrom_of_get? :
    ∀ (l : List GridCoord) (n i : ℕ) (c : GridCoord), l.get? i = some c →
      (n + i, c) ∈ l.enumFrom n := by
  intro l
  induction l with
  | nil => intro n i c h; exact Option.noConfusion h
  | cons a l ih =>
    intro n i c h
    rw [List.enumFrom_cons]
    cases i with
    | zero =>
      simp only [List.get?] at h
      cases h
      exact List.mem_cons_self _ _
    | succ i =>
      simp only [List.get?] at h
      have := ih (n + 1) i c h
      have harith : n + (i + 1) = (n + 1) + i := by omega
      rw [harith]
      exact List.mem_cons_of_mem _ this

theorem mem_enum_spec {l : List GridCoord} {ic : ℕ × GridCoord} (h : ic ∈ l.enum) :
    ic.1 < l.length ∧ l.get? ic.1 = some ic.2 := by
  have := enumFrom_spec l 0 ic h
  simpa using this

theorem mem_enum_of_get? {l : List GridCoord} {i : ℕ} {c : GridCoord}
    (h : l.get? i = some c) : (i, c) ∈ l.enum := by
  have := mem_enumFrom_of_get? l 0 i c h
  simpa using this

theorem swapRemove_perm (l : List GridCoord) (i : ℕ) (hi : i < l.length) :
    l.Perm ((swapRemove l i).1 :: (swapRemove l i).2) := by
  obtain ⟨A, cur, rest, hl, hA⟩ : ∃ A cur rest, l = A ++ cur :: rest ∧ A.length = i :=
    ⟨l.take i, l[i], l.drop (i + 1),
      by rw [← List.drop_eq_getElem_cons hi, List.take_append_drop],
      by rw [List.length_take]; omega⟩
  subst hl
  subst hA
  have hcur : (swapRemove (A ++ cur :: rest) A.length).1 = cur := by
    show (A ++ cur :: rest).getD A.length (0, 0) = cur
    rw [List.getD_eq_getElem?_getD, List.getElem?_append_right (Nat.le_refl _),
      Nat.sub_self]
    simp
  rcases List.eq_nil_or_concat' rest with rfl | ⟨B, b, rfl⟩
  · -- the popped index is the last one
    have hlen : (A ++ [cur]).length - 1 = A.length := by simp
    have hlast : (A ++ [cur]).getD ((A ++ [cur]).length - 1) (0, 0) = cur := by
      rw [hlen, List.getD_eq_getElem?_getD, List.getElem?_concat_length]
      rfl
    have hrest : (swapRemove (A ++ [cur]) A.length).2 = A := by
      show ((A ++ [cur]).set A.length
        ((A ++ [cur]).getD ((A ++ [cur]).length - 1) (0, 0))).dropLast = A
      rw [hlast, List.set_append, if_neg (by omega), Nat.sub_self]
      simp only [List.set]
      exact List.dropLast_concat
    rw [hcur, hrest]
    exact (List.perm_append_comm).trans (by simp)
  · -- the last element b moves into the hole
    have hlen : (A ++ cur :: (B ++ [b])).length - 1 = (A ++ cur :: B).length := by
      simp
    have hsplit : A ++ cur :: (B ++ [b]) = (A ++ cur :: B) ++ [b] := by simp
    have hlast : (A ++ cur :: (B ++ [b])).getD
        ((A ++ cur :: (B ++ [b])).length - 1) (0, 0) = b := by
      rw [hlen, hsplit, List.getD_eq_getElem?_getD, List.getElem?_concat_length]
      rfl
    have hrest : (swapRemove (A ++ cur :: (B ++ [b])) A.length).2 = A ++ b :: B := by
      show ((A ++ cur :: (B ++ [b])).set A.length
        ((A ++ cur :: (B ++ [b])).getD ((A ++ cur :: (B ++ [b])).length - 1) (0, 0))).dropLast
        = A ++ b :: B
      rw [hlast, List.set_append, if_neg (by omega), Nat.sub_self]
      simp only [List.set]
      rw [show A ++ b :: (B ++ [b]) = (A ++ b :: B) ++ [b] by simp]
      exact List.dropLast_concat
    rw [hcur, hrest]
    refine List.Perm.trans (List.perm_middle) ?_
    refine List.Perm.cons _ (List.Perm.append_left _ ?_)
    exact List.perm_append_comm

theorem pop_best_spec (cells : GridCoord → Option CellBase) (pending : List GridCoord)
    (h : pending ≠ []) :
    (pop_best cells pending).1 ∈ pending ∧
    pending.Perm ((pop_best cells pending).1 :: (pop_best cells pending).2) ∧
    ∀ c ∈ pending, GVal.le (fOf cells (pop_best cells pending).1) (fOf cells c) := by
  obtain ⟨hc, -, hmin⟩ := bestFold cells pending.enum (0, .inf)
  have hlen0 : 0 < pending.length := List.length_pos.mpr h
  have hidx : bestIndex cells pending < pending.length := by
    rw [bestIndex_eq]
    rcases hc with hc | ⟨ic, hic, hic2⟩
    · rw [hc]; exact hlen0
    · rw [hic2]; exact (mem_enum_spec hic).1
  have hcur : (pop_best cells pending).1 = pending[bestIndex cells pending] := by
    show pending.getD (bestIndex cells pending) (0, 0) = _
    rw [List.getD_eq_getElem?_getD, List.getElem?_eq_getElem hidx]
    rfl
  have hget : pending.get? (bestIndex cells pending) =
      some ((pop_best cells pending).1) := by
    rw [hcur, List.get?_eq_getElem?, List.getElem?_eq_getElem hidx]
  have hmem : (pop_best cells pending).1 ∈ pending := List.get?_mem hget
  have hval : fOf cells ((pop_best cells pending).1) =
      (pending.enum.foldl (bestStep cells) (0, .inf)).2 := by
    rcases hc with hc | ⟨ic, hic, hic2⟩
    · -- no update: every f is INFINITY, and so is the head's.
      rw [hc]
      have := hmin (bestIndex cells pending, (pop_best cells pending).1)
        (mem_enum_of_get? hget)
      rw [hc] at this
      exact eq_inf_of_inf_le this
    · obtain ⟨-, hg⟩ := mem_enum_spec hic
      rw [bestIndex_eq, hic2] at hget
      rw [hic2]
      dsimp only at hget ⊢
      rw [hg] at hget
      rw [Option.some.inj hget]
  refine ⟨hmem, ?_, ?_⟩
  · exact swapRemove_perm pending _ hidx
  · intro c hcp
    obtain ⟨i, hgi⟩ := List.mem_iff_get?.mp hcp
    have := hmin (i, c) (mem_enum_of_get? hgi)
    rw [hval]
    exact this

theorem updateCell_apply (cells : GridCoord → Option CellBase) (c : GridCoord)
    (cb : CellBase) (x : GridCoord) :
    updateCell cells c cb x = if x = c then some cb else cells x := rfl

/-- The effect of one `expandNeighbor` call that relaxed `nbr`: the new record
(parent `cur`, g = g(cur) + cost + turn penalty, recomputed h, pending flag),
the seen mark, and the frontier push (exactly when the old record was not
pending). -/
def RelaxedAt (pen : ℚ) (cf : CostField) (endC cur nbr : GridCoord) (curG : GVal)
    (st st2 : AState) : Prop :=
  ∃ q tp, cf.cost_at nbr = some (Cost.val q) ∧ (tp = 0 ∨ tp = pen) ∧
    (∀ ncb, st.cells nbr = some ncb → curG.add (q + tp) < ncb.g) ∧
    (∀ x, st2.cells x = if x = nbr
      then some { g := curG.add (q + tp), h := (manhattan nbr endC : ℚ),
                  parent := some cur, is_pending := true }
      else st.cells x) ∧
    (∀ x, st2.seen x = (st.seen x || decide (x = nbr))) ∧
    st2.popped = st.popped ∧
    ((∃ ncb, st.cells nbr = some ncb ∧ ncb.is_pending = true) ∧ st2.pending = st.pending ∨
      (st.cells nbr = none ∨ ∃ ncb, st.cells nbr = some ncb ∧ ncb.is_pending = false) ∧
        st2.pending = st.pending ++ [nbr])

theorem expand_cases {pen : ℚ} {cf : CostField} {endC cur nbr : GridCoord}
    {st st2 : AState} {curCb : CellBase}
    (hst2 : st2 = expandNeighbor pen cf endC cur st nbr)
    (hcur : st.cells cur = some curCb) (hfin : curCb.g ≠ .inf) (hne : nbr ≠ cur)
    (hseen : (st.cells nbr).isSome ↔ st.seen nbr = true) :
    (st2 = st ∧ (cf.cost_at nbr = none ∨ cf.cost_at nbr = some Cost.blocked ∨
      ∃ q ncb tp, cf.cost_at nbr = some (Cost.val q) ∧ st.cells nbr = some ncb ∧
        (tp = 0 ∨ tp = pen) ∧ ¬ curCb.g.add (q + tp) < ncb.g)) ∨
    RelaxedAt pen cf endC cur nbr curCb.g st st2 := by
  unfold expandNeighbor at hst2
  cases hcost : cf.cost_at nbr with
  | none =>
    rw [hcost] at hst2
    exact Or.inl ⟨hst2, Or.inl rfl⟩
  | some ncost =>
    rw [hcost] at hst2
    dsimp only at hst2
    by_cases hb : ncost = Cost.blocked
    · rw [if_pos hb] at hst2
      exact Or.inl ⟨hst2, Or.inr (Or.inl (by rw [← hb] <;> exact hcost))⟩
    · rw [if_neg hb] at hst2
      obtain ⟨q, rfl⟩ : ∃ q, ncost = Cost.val q := by
        cases ncost with
        | blocked => exact absurd rfl hb
        | val q => exact ⟨q, rfl⟩
      cases hsn : st.seen nbr with
      | true =>
        obtain ⟨ncb, hncb⟩ : ∃ ncb, st.cells nbr = some ncb :=
          Option.isSome_iff_exists.mp (hseen.mpr hsn)
        rw [hsn] at hst2
        rw [if_pos rfl] at hst2
        dsimp only at hst2
        rw [hcur, hncb] at hst2
        simp only [Option.some_bind, Option.getD_some] at hst2
        set tp : ℚ :=
          if some (Grid.get_direction cur nbr) ≠
              curCb.parent.map (fun p => Grid.get_direction p cur) then pen else 0
          with htp_def
        have htp : tp = 0 ∨ tp = pen := by
          rw [htp_def]
          split
          · exact Or.inr rfl
          · exact Or.inl rfl
        by_cases hrel : curCb.g.add (q + tp) < ncb.g
        · rw [if_pos hrel] at hst2
          refine Or.inr ⟨q, tp, hcost, htp, ?_, ?_, ?_, ?_, ?_⟩
          · intro ncb2 hncb2
            rw [hncb] at hncb2
            cases hncb2
            exact hrel
          · -- the written record
            intro x
            cases hpend : ncb.is_pending with
            | true =>
              rw [if_pos hpend] at hst2
              rw [hst2]
              show updateCell st.cells nbr _ x = _
              rw [updateCell_apply]
              by_cases hx : x = nbr
              · simp only [if_pos hx]
                obtain ⟨ng, nh, np, npend⟩ := ncb
                dsimp only at hpend
                rw [hpend]
              · simp only [if_neg hx]
            | false =>
              rw [if_neg (by rw [hpend]; exact Bool.false_ne_true)] at hst2
              rw [hst2]
              show updateCell st.cells nbr _ x = _
              rw [updateCell_apply]
          · -- seen unchanged (already marked)
            intro x
            cases hpend : ncb.is_pending with
            | true =>
              rw [if_pos hpend] at hst2
              rw [hst2]
              by_cases hx : x = nbr
              · subst hx; rw [hsn]; simp
              · simp [hx]
            | false =>
              rw [if_neg (by rw [hpend]; exact Bool.false_ne_true)] at hst2
              rw [hst2]
              by_cases hx : x = nbr
              · subst hx; rw [hsn]; simp
              · simp [hx]
          · -- popped unchanged
            cases hpend : ncb.is_pending with
            | true => rw [if_pos hpend] at hst2; rw [hst2]
            | false =>
              rw [if_neg (by rw [hpend]; exact Bool.false_ne_true)] at hst2
              rw [hst2]
          · -- pending
            cases hpend : ncb.is_pending with
            | true =>
              rw [if_pos hpend] at hst2
              exact Or.inl ⟨⟨ncb, hncb, hpend⟩, by rw [hst2]⟩
            | false =>
              rw [if_neg (by rw [hpend]; exact Bool.false_ne_true)] at hst2
              exact Or.inr ⟨Or.inr ⟨ncb, hncb, hpend⟩, by rw [hst2]⟩
        · rw [if_neg hrel] at hst2
          exact Or.inl ⟨hst2, Or.inr (Or.inr ⟨q, ncb, tp, rfl, hncb, htp, hrel⟩)⟩
      | false =>
        have hnone : st.cells nbr = none := by
          rcases hc : st.cells nbr with _ | ncb
          · rfl
          · have := hseen.mp (by rw [hc]; exact rfl)
            rw [hsn] at this
            exact absurd this Bool.false_ne_true
        rw [hsn] at hst2
        rw [if_neg Bool.false_ne_true] at hst2
        dsimp only at hst2
        have hc1 : updateCell st.cells nbr CellBase.new cur = some curCb := by
          unfold updateCell
          rw [if_neg (fun h => hne h.symm)]
          exact hcur
        have hc2 : updateCell st.cells nbr CellBase.new nbr = some CellBase.new := by
          unfold updateCell
          rw [if_pos rfl]
        rw [hc1, hc2] at hst2
        simp only [Option.some_bind, Option.getD_some] at hst2
        set tp : ℚ :=
          if some (Grid.get_direction cur nbr) ≠
              curCb.parent.map (fun p => Grid.get_direction p cur) then pen else 0
          with htp_def
        have htp : tp = 0 ∨ tp = pen := by
          rw [htp_def]
          split
          · exact Or.inr rfl
          · exact Or.inl rfl
        have hrel : curCb.g.add (q + tp) < CellBase.new.g := by
          cases hg : curCb.g with
          | inf => exact absurd hg hfin
          | fin gc => exact GVal.fin_lt_inf _
        rw [if_pos hrel] at hst2
        rw [if_neg (show ¬ CellBase.new.is_pending = true from Bool.false_ne_true)] at hst2
        refine Or.inr ⟨q, tp, hcost, htp, ?_, ?_, ?_, ?_, ?_⟩
        · intro ncb2 hncb2
          rw [hnone] at hncb2
          exact Option.noConfusion hncb2
        · intro x
          rw [hst2]
          show updateCell (updateCell st.cells nbr CellBase.new) nbr _ x = _
          rw [updateCell_apply, updateCell_apply]
          by_cases hx : x = nbr
          · simp only [if_pos hx]
          · simp only [if_neg hx]
        · intro x
          rw [hst2]
          by_cases hx : x = nbr
          · subst hx; simp
          · simp [hx]
        · rw [hst2]
        · exact Or.inr ⟨Or.inl hnone, by rw [hst2]⟩

/-- The A* loop invariant over the mutable search state: the seen set mirrors
the cell map, records are in grid with finite g and the Manhattan h, the
pending list is duplicate free and flag synchronised, every recorded cell is
pending or popped (never both), and pops happen in nondecreasing f order, below
every pending f. -/
structure Inv (cf : CostField) (endC : GridCoord) (st : AState) : Prop where
  seen_iff : ∀ c, (st.cells c).isSome ↔ st.seen c = true
  in_grid : ∀ c, (st.cells c).isSome → inGrid cf.grid c
  fin_g : ∀ c cb, st.cells c = some cb → cb.g ≠ .inf
  h_eq : ∀ c cb, st.cells c = some cb → cb.h = (manhattan c endC : ℚ)
  pend_nodup : st.pending.Nodup
  pend_cells : ∀ c ∈ st.pending, (st.cells c).isSome
  flag_iff : ∀ c cb, st.cells c = some cb → (cb.is_pending = true ↔ c ∈ st.pending)
  pop_nodup : st.popped.Nodup
  pop_cells : ∀ c ∈ st.popped, (st.cells c).isSome
  pop_pend : ∀ c ∈ st.popped, c ∉ st.pending
  cells_part : ∀ c, (st.cells c).isSome → c ∈ st.pending ∨ c ∈ st.popped
  mono_sorted : st.popped.Pairwise (fun a b => GVal.le (fOf st.cells a) (fOf st.cells b))
  mono_pend : ∀ p ∈ st.popped, ∀ c ∈ st.pending,
    GVal.le (fOf st.cells p) (fOf st.cells c)

theorem fOf_some {cells : GridCoord → Option CellBase} {c : GridCoord} {cb : CellBase}
    (h : cells c = some cb) : fOf cells c = cb.f := by
  unfold fOf; rw [h]

theorem fOf_none {cells : GridCoord → Option CellBase} {c : GridCoord}
    (h : cells c = none) : fOf cells c = .inf := by
  unfold fOf; rw [h]

theorem gOf_some {cells : GridCoord → Option CellBase} {c : GridCoord} {cb : CellBase}
    (h : cells c = some cb) : gOf cells c = cb.g := by
  unfold gOf; rw [h]

theorem gOf_none {cells : GridCoord → Option CellBase} {c : GridCoord}
    (h : cells c = none) : gOf cells c = .inf := by
  unfold gOf; rw [h]

theorem fOf_congr {cells cells2 : GridCoord → Option CellBase} {c : GridCoord}
    (h : cells2 c = cells c) : fOf cells2 c = fOf cells c := by
  unfold fOf; rw [h]

theorem gOf_congr {cells cells2 : GridCoord → Option CellBase} {c : GridCoord}
    (h : cells2 c = cells c) : gOf cells2 c = gOf cells c := by
  unfold gOf; rw [h]

/-- One `expandNeighbor` call from the most recently popped cell `cur`
preserves the loop invariant, never touches (in particular never re-relaxes or
re-pushes) an already popped cell, only lowers g values, and leaves the
neighbor's g bounded by g(cur) + cost + pen.  The heart of the closed-set
discipline: the baseline cost (≥ 1), the nonnegative turn penalty and the
Manhattan h (which drops by at most 1 per step) make every candidate value at
least f(cur) − h(nbr) ≥ g(p) for every popped p, so the relaxation test fails
on popped cells. -/
theorem expand_inv {pen : ℚ} {cf : CostField} {endC cur nbr : GridCoord} {st : AState}
    {curCb : CellBase} {gc : ℚ}
    (hbase : baseline cf) (hpen : 0 ≤ pen)
    (hinv : Inv cf endC st)
    (hcurmem : cur ∈ st.popped)
    (hcurCb : st.cells cur = some curCb) (hgc : curCb.g = .fin gc)
    (hmax : ∀ p ∈ st.popped, GVal.le (fOf st.cells p) (fOf st.cells cur))
    (hnbr : nbr ∈ cf.grid.cardinal_neighbors cur) :
    Inv cf endC (expandNeighbor pen cf endC cur st nbr) ∧
    (expandNeighbor pen cf endC cur st nbr).popped = st.popped ∧
    (∀ p ∈ st.popped, (expandNeighbor pen cf endC cur st nbr).cells p = st.cells p) ∧
    (∀ c, GVal.le (gOf (expandNeighbor pen cf endC cur st nbr).cells c) (gOf st.cells c)) ∧
    (∀ r, cf.cost_at nbr = some (Cost.val r) →
      ∃ cb2 g2, (expandNeighbor pen cf endC cur st nbr).cells nbr = some cb2 ∧
        cb2.g = .fin g2 ∧ g2 ≤ gc + r + pen) ∧
    (expandNeighbor pen cf endC cur st nbr = st ∨
      nbr ∉ st.popped ∧
        RelaxedAt pen cf endC cur nbr curCb.g st (expandNeighbor pen cf endC cur st nbr)) := by
  have hne : nbr ≠ cur := neighbor_ne hnbr
  have hcurgrid : inGrid cf.grid cur :=
    hinv.in_grid cur (by rw [hcurCb]; exact rfl)
  have hnbrgrid : inGrid cf.grid nbr := neighbor_inGrid hcurgrid hnbr
  have hstep : (manhattan cur endC : ℚ) ≤ (manhattan nbr endC : ℚ) + 1 := by
    exact_mod_cast manhattan_step endC hnbr
  have hcurh : curCb.h = (manhattan cur endC : ℚ) := hinv.h_eq cur curCb hcurCb
  rcases expand_cases rfl hcurCb (by rw [hgc]; exact fun hh => GVal.noConfusion hh)
      hne (hinv.seen_iff nbr) with ⟨heq, hreason⟩ | hrel
  · -- nothing changed
    refine ⟨by rw [heq]; exact hinv, by rw [heq], fun p _ => by rw [heq], fun c => by
      rw [heq]; exact GVal.le_refl_g _, ?_, Or.inl heq⟩
    intro r hr
    rcases hreason with hnone | hblocked | ⟨q, ncb, tp, hq, hncb, htp, hnlt⟩
    · rw [hr] at hnone; exact Option.noConfusion hnone
    · rw [hr] at hblocked
      exact Cost.noConfusion (Option.some.inj hblocked)
    · rw [hr] at hq
      obtain rfl : r = q := Cost.val.inj (Option.some.inj hq)
      have hle := GVal.not_lt_iff_le.mp hnlt
      rw [hgc] at hle
      simp only [GVal.fin_add] at hle
      obtain ⟨g2, hg2, hg2le⟩ := le_fin_elim (a := ncb.g) hle
      have htple : tp ≤ pen := by
        rcases htp with rfl | rfl
        · exact hpen
        · exact le_rfl
      clear hnlt hle
      refine ⟨ncb, g2, by rw [heq]; exact hncb, hg2, by linarith⟩
  · -- the neighbor was relaxed
    have hrelKeep := hrel
    obtain ⟨q, tp, hq, htp, hrelax, hcells, hseen2, hpop, hpend⟩ := hrel
    have htp0 : 0 ≤ tp := by
      rcases htp with rfl | rfl
      · exact le_rfl
      · exact hpen
    have htple : tp ≤ pen := by
      rcases htp with rfl | rfl
      · exact hpen
      · exact le_rfl
    have hq1 : 1 ≤ q := hbase nbr q hq
    -- keystone: a popped cell is never relaxed again
    have hnbrpop : nbr ∉ st.popped := by
      intro hmem
      obtain ⟨ncbO, hncb⟩ := Option.isSome_iff_exists.mp (hinv.pop_cells nbr hmem)
      have hlt := hrelax ncbO hncb
      obtain ⟨gn, hgn⟩ : ∃ gn, ncbO.g = .fin gn := by
        cases hg2 : ncbO.g with
        | inf => exact absurd hg2 (hinv.fin_g nbr ncbO hncb)
        | fin gn => exact ⟨gn, rfl⟩
      have hf := hmax nbr hmem
      rw [fOf_some hncb, fOf_some hcurCb] at hf
      unfold CellBase.f at hf
      rw [hgn, hgc] at hf
      simp only [GVal.fin_add, GVal.fin_le_fin] at hf
      have hhn : ncbO.h = (manhattan nbr endC : ℚ) := hinv.h_eq nbr ncbO hncb
      rw [hgc, hgn] at hlt
      simp only [GVal.fin_add, GVal.fin_lt_fin] at hlt
      rw [hhn, hcurh] at hf
      linarith
    set REC : CellBase :=
      { g := curCb.g.add (q + tp), h := (manhattan nbr endC : ℚ),
        parent := some cur, is_pending := true } with hREC
    have hnewrec : (expandNeighbor pen cf endC cur st nbr).cells nbr = some REC := by
      rw [hcells nbr, if_pos rfl]
    have hold : ∀ x, x ≠ nbr → (expandNeighbor pen cf endC cur st nbr).cells x = st.cells x :=
      fun x hx => by rw [hcells x, if_neg hx]
    have hpopcells : ∀ p ∈ st.popped,
        (expandNeighbor pen cf endC cur st nbr).cells p = st.cells p :=
      fun p hp => hold p (fun he => hnbrpop (he ▸ hp))
    have hRECg : REC.g = .fin (gc + (q + tp)) := by
      rw [hREC]; show curCb.g.add (q + tp) = _; rw [hgc]; exact GVal.fin_add gc (q + tp)
    have hRECf : REC.f = .fin (gc + (q + tp) + (manhattan nbr endC : ℚ)) := by
      unfold CellBase.f
      rw [hRECg]
      exact GVal.fin_add _ _
    have hfle : ∀ p ∈ st.popped,
        GVal.le (fOf st.cells p) (fOf (expandNeighbor pen cf endC cur st nbr).cells nbr) := by
      intro p hp
      refine GVal.le_trans_g (hmax p hp) ?_
      rw [fOf_some hcurCb, fOf_some hnewrec, hRECf]
      unfold CellBase.f
      rw [hgc]
      simp only [GVal.fin_add, GVal.fin_le_fin]
      rw [hcurh]
      linarith
    have hnbrnotpend : (st.cells nbr = none ∨
        (∃ ncb, st.cells nbr = some ncb ∧ ncb.is_pending = false)) → nbr ∉ st.pending := by
      rintro (hnone | ⟨ncb, hncb, hflag⟩) hmem
      · have := hinv.pend_cells nbr hmem
        rw [hnone] at this
        exact Bool.false_ne_true this
      · have := (hinv.flag_iff nbr ncb hncb).mpr hmem
        rw [hflag] at this
        exact Bool.false_ne_true this
    have hpendmem : ∀ c, c ∈ (expandNeighbor pen cf endC cur st nbr).pending ↔
        c ∈ st.pending ∨ ((expandNeighbor pen cf endC cur st nbr).pending
          = st.pending ++ [nbr] ∧ c = nbr) := by
      intro c
      rcases hpend with ⟨hflag, hpeq⟩ | ⟨hcase, hpeq⟩
      · rw [hpeq]
        constructor
        · exact fun h => Or.inl h
        · rintro (h | ⟨habs, -⟩)
          · exact h
          · have hlen := congrArg List.length habs
            rw [List.length_append, List.length_singleton] at hlen
            omega
      · rw [hpeq]
        constructor
        · intro h
          rcases List.mem_append.mp h with h | h
          · exact Or.inl h
          · exact Or.inr ⟨rfl, List.mem_singleton.mp h⟩
        · rintro (h | ⟨-, rfl⟩)
          · exact List.mem_append.mpr (Or.inl h)
          · exact List.mem_append.mpr (Or.inr (List.mem_singleton.mpr rfl))
    have hInv : Inv cf endC (expandNeighbor pen cf endC cur st nbr) := by
      constructor
      · -- seen_iff
        intro c
        rw [hseen2 c]
        by_cases hc : c = nbr
        · subst hc
          rw [hnewrec]
          simp
        · rw [hold c hc, Bool.or_eq_true]
          rw [hinv.seen_iff c]
          simp [hc]
      · -- in_grid
        intro c hc
        by_cases hcn : c = nbr
        · subst hcn; exact hnbrgrid
        · rw [hold c hcn] at hc
          exact hinv.in_grid c hc
      · -- fin_g
        intro c cb hcb
        by_cases hcn : c = nbr
        · subst hcn
          rw [hnewrec] at hcb
          obtain rfl := Option.some.inj hcb
          rw [hRECg]
          exact fun hh => GVal.noConfusion hh
        · rw [hold c hcn] at hcb
          exact hinv.fin_g c cb hcb
      · -- h_eq
        intro c cb hcb
        by_cases hcn : c = nbr
        · subst hcn
          rw [hnewrec] at hcb
          obtain rfl := Option.some.inj hcb
          rfl
        · rw [hold c hcn] at hcb
          exact hinv.h_eq c cb hcb
      · -- pend_nodup
        rcases hpend with ⟨-, hpeq⟩ | ⟨hcase, hpeq⟩
        · rw [hpeq]; exact hinv.pend_nodup
        · rw [hpeq]
          rw [List.nodup_append]
          refine ⟨hinv.pend_nodup, List.nodup_singleton nbr, ?_⟩
          intro a ha hb
          rw [List.mem_singleton] at hb
          subst hb
          exact hnbrnotpend hcase ha
      · -- pend_cells
        intro c hc
        rcases (hpendmem c).mp hc with h | ⟨-, rfl⟩
        · by_cases hcn : c = nbr
          · subst hcn; rw [hnewrec]; exact rfl
          · rw [hold c hcn]; exact hinv.pend_cells c h
        · rw [hnewrec]; exact rfl
      · -- flag_iff
        intro c cb hcb
        by_cases hcn : c = nbr
        · rw [hcn] at hcb ⊢
          rw [hnewrec] at hcb
          obtain rfl := Option.some.inj hcb
          constructor
          · intro _
            rcases hpend with ⟨⟨ncb, hncb, hflag⟩, hpeq⟩ | ⟨hcase, hpeq⟩
            · rw [hpeq]
              exact (hinv.flag_iff nbr ncb hncb).mp hflag
            · rw [hpeq]
              exact List.mem_append.mpr (Or.inr (List.mem_singleton.mpr rfl))
          · intro _
            rfl
        · rw [hold c hcn] at hcb
          rw [hinv.flag_iff c cb hcb]
          constructor
          · intro h
            exact (hpendmem c).mpr (Or.inl h)
          · intro h
            rcases (hpendmem c).mp h with h | ⟨-, habs⟩
            · exact h
            · exact absurd habs hcn
      · -- pop_nodup
        rw [hpop]; exact hinv.pop_nodup
      · -- pop_cells
        intro c hc
        rw [hpop] at hc
        rw [hpopcells c hc]
        exact hinv.pop_cells c hc
      · -- pop_pend
        intro c hc
        rw [hpop] at hc
        intro hmem
        rcases (hpendmem c).mp hmem with h | ⟨-, rfl⟩
        · exact hinv.pop_pend c hc h
        · exact hnbrpop hc
      · -- cells_part
        intro c hc
        by_cases hcn : c = nbr
        · refine Or.inl ?_
          rcases hpend with ⟨⟨ncb, hncb, hflag⟩, hpeq⟩ | ⟨hcase, hpeq⟩
          · rw [hpeq, hcn]
            exact (hinv.flag_iff nbr ncb hncb).mp hflag
          · rw [hpeq, hcn]
            exact List.mem_append.mpr (Or.inr (List.mem_singleton.mpr rfl))
        · rw [hold c hcn] at hc
          rcases hinv.cells_part c hc with h | h
          · exact Or.inl ((hpendmem c).mpr (Or.inl h))
          · exact Or.inr (by rw [hpop]; exact h)
      · -- mono_sorted
        rw [hpop]
        refine List.Pairwise.imp_of_mem ?_ hinv.mono_sorted
        intro a b ha hb hab
        rw [fOf_congr (hpopcells a ha), fOf_congr (hpopcells b hb)]
        exact hab
      · -- mono_pend
        intro p hp c hc
        rw [hpop] at hp
        rw [fOf_congr (hpopcells p hp)]
        rcases (hpendmem c).mp hc with h | ⟨-, hceq⟩
        · by_cases hcn : c = nbr
          · rw [hcn]
            exact hfle p hp
          · rw [fOf_congr (hold c hcn)]
            exact hinv.mono_pend p hp c h
        · rw [hceq]
          exact hfle p hp
    refine ⟨hInv, hpop, hpopcells, ?_, ?_, Or.inr ⟨hnbrpop, hrelKeep⟩⟩
    · intro c
      by_cases hcn : c = nbr
      · rw [hcn]
        rw [gOf_some hnewrec, hRECg]
        cases hgn : st.cells nbr with
        | none => rw [gOf_none hgn]; exact GVal.le_inf _
        | some ncb =>
          rw [gOf_some hgn]
          have := hrelax ncb hgn
          rw [hgc] at this
          rw [GVal.fin_add] at this
          exact GVal.le_of_lt_g this
      · unfold gOf
        rw [hold c hcn]
        exact GVal.le_refl_g _
    · intro r hr
      rw [hq] at hr
      obtain rfl : q = r := Cost.val.inj (Option.some.inj hr)
      exact ⟨REC, gc + (q + tp), hnewrec, hRECg, by linarith⟩

/-- Folding `expandNeighbor` over any list of neighbors of the last popped
cell preserves the invariant, leaves the pop trace and every popped record
untouched, only lowers g values, and bounds each processed neighbor's g by
g(cur) + cost + pen. -/
theorem expandFold_inv {pen : ℚ} {cf : CostField} {endC cur : GridCoord}
    (hbase : baseline cf) (hpen : 0 ≤ pen) :
    ∀ (l : List GridCoord) (st : AState), Inv cf endC st → cur ∈ st.popped →
      (∀ p ∈ st.popped, GVal.le (fOf st.cells p) (fOf st.cells cur)) →
      (∀ n ∈ l, n ∈ cf.grid.cardinal_neighbors cur) →
      Inv cf endC (l.foldl (expandNeighbor pen cf endC cur) st) ∧
      (l.foldl (expandNeighbor pen cf endC cur) st).popped = st.popped ∧
      (∀ p ∈ st.popped,
        (l.foldl (expandNeighbor pen cf endC cur) st).cells p = st.cells p) ∧
      (∀ c, GVal.le (gOf (l.foldl (expandNeighbor pen cf endC cur) st).cells c)
        (gOf st.cells c)) ∧
      (∀ n ∈ l, ∀ r, cf.cost_at n = some (Cost.val r) →
        ∀ gcv, gOf st.cells cur = .fin gcv →
          ∃ cb2 g2, (l.foldl (expandNeighbor pen cf endC cur) st).cells n = some cb2 ∧
            cb2.g = .fin g2 ∧ g2 ≤ gcv + r + pen) := by
  intro l
  induction l with
  | nil =>
    intro st hinv _ _ _
    exact ⟨hinv, rfl, fun p _ => rfl, fun c => GVal.le_refl_g _,
      fun n hn => absurd hn (List.not_mem_nil n)⟩
  | cons n l ih =>
    intro st hinv hcur hmax hnb
    obtain ⟨curCb, hcurCb⟩ := Option.isSome_iff_exists.mp (hinv.pop_cells cur hcur)
    obtain ⟨gc, hgc⟩ : ∃ gc, curCb.g = .fin gc := by
      cases hg : curCb.g with
      | inf => exact absurd hg (hinv.fin_g cur curCb hcurCb)
      | fin gc => exact ⟨gc, rfl⟩
    obtain ⟨hInv2, hpop2, hpopc2, hgle2, hbound2, -⟩ :=
      expand_inv hbase hpen hinv hcur hcurCb hgc hmax (hnb n (List.mem_cons_self n l))
    have hcur2 : cur ∈ (expandNeighbor pen cf endC cur st n).popped := by
      rw [hpop2]; exact hcur
    have hmax2 : ∀ p ∈ (expandNeighbor pen cf endC cur st n).popped,
        GVal.le (fOf (expandNeighbor pen cf endC cur st n).cells p)
          (fOf (expandNeighbor pen cf endC cur st n).cells cur) := by
      intro p hp
      rw [hpop2] at hp
      rw [fOf_congr (hpopc2 p hp), fOf_congr (hpopc2 cur hcur)]
      exact hmax p hp
    obtain ⟨ihInv, ihpop, ihpopc, ihgle, ihbound⟩ :=
      ih (expandNeighbor pen cf endC cur st n) hInv2 hcur2 hmax2
        (fun m hm => hnb m (List.mem_cons_of_mem n hm))
    rw [List.foldl_cons]
    refine ⟨ihInv, ihpop.trans hpop2, ?_, ?_, ?_⟩
    · intro p hp
      have hp2 : p ∈ (expandNeighbor pen cf endC cur st n).popped := by
        rw [hpop2]; exact hp
      rw [ihpopc p hp2]
      exact hpopc2 p hp
    · intro c
      exact GVal.le_trans_g (ihgle c) (hgle2 c)
    · intro m hm r hr gcv hgcv
      have hgcv2 : gc = gcv := by
        rw [gOf_some hcurCb, hgc] at hgcv
        exact GVal.fin.inj hgcv
      rcases List.mem_cons.mp hm with rfl | hm
      · obtain ⟨cb2, g2, hcb2, hg2, hle2⟩ := hbound2 r hr
        have := ihgle m
        rw [gOf_some hcb2, hg2] at this
        obtain ⟨g3, hg3, hg3le⟩ := le_fin_elim this
        obtain ⟨cb3, hcb3, hcb3g⟩ := gOf_eq_fin_iff.mp hg3
        exact ⟨cb3, g3, hcb3, hcb3g, by rw [← hgcv2]; linarith⟩
      · refine ihbound m hm r hr gcv ?_
        rw [gOf_congr (hpopc2 cur hcur), gOf_some hcurCb, hgc, hgcv2]

/-- Popping the best pending cell preserves the invariant; the popped cell
joins the trace as its maximum, only the pending flag of any record changes,
and f values are untouched. -/
theorem pop_inv {cf : CostField} {endC : GridCoord} {st : AState}
    (hinv : Inv cf endC st) (hne : st.pending ≠ [])
    {cur : GridCoord} {pend2 : List GridCoord}
    (hpb : pop_best st.cells st.pending = (cur, pend2)) {st1 : AState}
    (hst1 : st1 =
      { st with
        pending := pend2
        cells := (match st.cells cur with
          | some cb => updateCell st.cells cur { cb with is_pending := false }
          | none => st.cells)
        popped := st.popped ++ [cur] }) :
    Inv cf endC st1 ∧ cur ∈ st.pending ∧
    (∀ p ∈ st1.popped, GVal.le (fOf st1.cells p) (fOf st1.cells cur)) ∧
    (∀ c, fOf st1.cells c = fOf st.cells c) ∧
    (∀ c, gOf st1.cells c = gOf st.cells c) ∧
    (∀ c cb2, st1.cells c = some cb2 → ∃ cb, st.cells c = some cb ∧
      cb2.g = cb.g ∧ cb2.h = cb.h ∧ cb2.parent = cb.parent) ∧
    (∀ c cb, st.cells c = some cb → ∃ cb2, st1.cells c = some cb2 ∧
      cb2.g = cb.g ∧ cb2.h = cb.h ∧ cb2.parent = cb.parent) := by
  obtain ⟨hmem, hperm, hmin⟩ := pop_best_spec st.cells st.pending hne
  rw [hpb] at hmem hperm hmin
  dsimp only at hmem hperm hmin
  obtain ⟨curCb, hcurCb⟩ := Option.isSome_iff_exists.mp (hinv.pend_cells cur hmem)
  rw [hcurCb] at hst1
  dsimp only at hst1
  have hcells : ∀ x, st1.cells x =
      if x = cur then some { curCb with is_pending := false } else st.cells x := by
    intro x
    rw [hst1]
    exact updateCell_apply _ _ _ x
  have hcellcur : st1.cells cur = some { curCb with is_pending := false } := by
    rw [hcells cur, if_pos rfl]
  have hcellold : ∀ x, x ≠ cur → st1.cells x = st.cells x := by
    intro x hx
    rw [hcells x, if_neg hx]
  have hfOf : ∀ c, fOf st1.cells c = fOf st.cells c := by
    intro c
    by_cases hc : c = cur
    · subst hc
      rw [fOf_some hcellcur, fOf_some hcurCb]
      rfl
    · rw [fOf_congr (hcellold c hc)]
  have hgOf : ∀ c, gOf st1.cells c = gOf st.cells c := by
    intro c
    by_cases hc : c = cur
    · subst hc
      rw [gOf_some hcellcur, gOf_some hcurCb]
    · unfold gOf
      rw [hcellold c hc]
  have hsome : ∀ c, (st1.cells c).isSome ↔ (st.cells c).isSome := by
    intro c
    by_cases hc : c = cur
    · subst hc
      rw [hcellcur, hcurCb]
      exact Iff.rfl
    · rw [hcellold c hc]
  have hnodup_cons : (cur :: pend2).Nodup := hperm.nodup hinv.pend_nodup
  have hcurnot2 : cur ∉ pend2 := (List.nodup_cons.mp hnodup_cons).1
  have hpend2nodup : pend2.Nodup := (List.nodup_cons.mp hnodup_cons).2
  have hmem2 : ∀ c ∈ pend2, c ∈ st.pending := by
    intro c hc
    exact hperm.mem_iff.mpr (List.mem_cons_of_mem cur hc)
  have hmemiff : ∀ c, c ∈ st.pending ↔ c = cur ∨ c ∈ pend2 := by
    intro c
    rw [hperm.mem_iff]
    exact List.mem_cons
  have hpend1 : st1.pending = pend2 := by rw [hst1]
  have hpop1 : st1.popped = st.popped ++ [cur] := by rw [hst1]
  have hcurpop : cur ∉ st.popped := by
    intro hc
    exact hinv.pop_pend cur hc hmem
  have hInv : Inv cf endC st1 := by
    constructor
    · -- seen_iff
      intro c
      rw [hsome c]
      rw [hst1]
      exact hinv.seen_iff c
    · -- in_grid
      intro c hc
      exact hinv.in_grid c ((hsome c).mp hc)
    · -- fin_g
      intro c cb hcb
      by_cases hc : c = cur
      · subst hc
        rw [hcellcur] at hcb
        obtain rfl := Option.some.inj hcb
        exact hinv.fin_g c curCb hcurCb
      · rw [hcellold c hc] at hcb
        exact hinv.fin_g c cb hcb
    · -- h_eq
      intro c cb hcb
      by_cases hc : c = cur
      · subst hc
        rw [hcellcur] at hcb
        obtain rfl := Option.some.inj hcb
        exact hinv.h_eq c curCb hcurCb
      · rw [hcellold c hc] at hcb
        exact hinv.h_eq c cb hcb
    · -- pend_nodup
      rw [hpend1]
      exact hpend2nodup
    · -- pend_cells
      intro c hc
      rw [hpend1] at hc
      rw [hsome c]
      exact hinv.pend_cells c (hmem2 c hc)
    · -- flag_iff
      intro c cb hcb
      rw [hpend1]
      by_cases hc : c = cur
      · subst hc
        rw [hcellcur] at hcb
        obtain rfl := Option.some.inj hcb
        constructor
        · intro habs
          exact absurd habs Bool.false_ne_true
        · intro habs
          exact absurd habs hcurnot2
      · rw [hcellold c hc] at hcb
        rw [hinv.flag_iff c cb hcb, hmemiff c]
        constructor
        · rintro (rfl | h)
          · exact absurd rfl hc
          · exact h
        · exact fun h => Or.inr h
    · -- pop_nodup
      rw [hpop1, List.nodup_append]
      refine ⟨hinv.pop_nodup, List.nodup_singleton cur, ?_⟩
      intro a ha hb
      rw [List.mem_singleton] at hb
      subst hb
      exact hcurpop ha
    · -- pop_cells
      intro c hc
      rw [hpop1] at hc
      rw [hsome c]
      rcases List.mem_append.mp hc with hc | hc
      · exact hinv.pop_cells c hc
      · rw [List.mem_singleton] at hc
        subst hc
        rw [hcurCb]
        exact rfl
    · -- pop_pend
      intro c hc
      rw [hpop1] at hc
      rw [hpend1]
      rcases List.mem_append.mp hc with hc | hc
      · intro hmem3
        exact hinv.pop_pend c hc (hmem2 c hmem3)
      · rw [List.mem_singleton] at hc
        subst hc
        exact hcurnot2
    · -- cells_part
      intro c hc
      rw [hpend1, hpop1]
      rcases hinv.cells_part c ((hsome c).mp hc) with h | h
      · rcases (hmemiff c).mp h with rfl | h2
        · exact Or.inr (List.mem_append.mpr (Or.inr (List.mem_singleton.mpr rfl)))
        · exact Or.inl h2
      · exact Or.inr (List.mem_append.mpr (Or.inl h))
    · -- mono_sorted
      rw [hpop1]
      rw [List.pairwise_append]
      refine ⟨?_, List.pairwise_singleton _ _, ?_⟩
      · refine List.Pairwise.imp ?_ hinv.mono_sorted
        intro a b hab
        rw [hfOf a, hfOf b]
        exact hab
      · intro p hp c hc
        rw [List.mem_singleton] at hc
        subst hc
        rw [hfOf p, hfOf c]
        exact hinv.mono_pend p hp c hmem
    · -- mono_pend
      intro p hp c hc
      rw [hpop1] at hp
      rw [hpend1] at hc
      rw [hfOf p, hfOf c]
      rcases List.mem_append.mp hp with hp | hp
      · exact hinv.mono_pend p hp c (hmem2 c hc)
      · rw [List.mem_singleton] at hp
        subst hp
        exact hmin c (hmem2 c hc)
  refine ⟨hInv, hmem, ?_, hfOf, hgOf, ?_, ?_⟩
  · intro p hp
    rw [hpop1] at hp
    rw [hfOf p, hfOf cur]
    rcases List.mem_append.mp hp with hp | hp
    · exact hinv.mono_pend p hp cur hmem
    · rw [List.mem_singleton] at hp
      subst hp
      exact GVal.le_refl_g _
  · intro c cb2 hcb2
    by_cases hc : c = cur
    · subst hc
      rw [hcellcur] at hcb2
      obtain rfl := Option.some.inj hcb2
      exact ⟨curCb, hcurCb, rfl, rfl, rfl⟩
    · rw [hcellold c hc] at hcb2
      exact ⟨cb2, hcb2, rfl, rfl, rfl⟩
  · intro c cb hcb
    by_cases hc : c = cur
    · subst hc
      rw [hcurCb] at hcb
      obtain rfl := Option.some.inj hcb
      exact ⟨{ curCb with is_pending := false }, hcellcur, rfl, rfl, rfl⟩
    · rw [← hcellold c hc] at hcb
      exact ⟨cb, hcb, rfl, rfl, rfl⟩

theorem to_index_lt (g : Grid) {c : GridCoord} (h : inGrid g c) :
    g.to_index c < g.cols * g.rows := by
  obtain ⟨hx, hy⟩ := h
  unfold Grid.to_index
  calc c.2 * g.cols + c.1 < c.2 * g.cols + g.cols := by omega
    _ = (c.2 + 1) * g.cols := by ring
    _ ≤ g.rows * g.cols := Nat.mul_le_mul_right _ (by omega)
    _ = g.cols * g.rows := Nat.mul_comm _ _

/-- A duplicate free list of in grid coordinates has at most cols * rows
entries: `to_index` injects it into `range (cols * rows)`. -/
theorem nodup_inGrid_length_le (g : Grid) (l : List GridCoord) (hnd : l.Nodup)
    (hg : ∀ c ∈ l, inGrid g c) : l.length ≤ g.cols * g.rows := by
  have hmapnd : (l.map g.to_index).Nodup := by
    refine hnd.map_on ?_
    intro x hx y hy hxy
    by_contra hne
    refine @Grid.to_index_ne g y.1 x.1 y.2 x.2 (hg y hy).1 (hg x hx).1 ?_ ?_
    · intro hp
      apply hne
      rw [← Prod.mk.eta (p := x), ← Prod.mk.eta (p := y), hp]
    · rw [Prod.mk.eta, Prod.mk.eta]
      exact hxy
  have hsub : l.map g.to_index ⊆ List.range (g.cols * g.rows) := by
    intro i hi
    obtain ⟨c, hc, rfl⟩ := List.mem_map.mp hi
    rw [List.mem_range]
    exact to_index_lt g (hg c hc)
  have := (List.subperm_of_subset hmapnd hsub).length_le
  rw [List.length_map, List.length_range] at this
  exact this

/-- The search loop from any state satisfying the invariant: the pop trace
stays duplicate free and in grid, and with fuel exceeding the cell count the
loop never runs out of fuel (each iteration pops a distinct in grid cell). -/
theorem loop_inv_trace {pen : ℚ} {cf : CostField} {endC : GridCoord}
    (hbase : baseline cf) (hpen : 0 ≤ pen) :
    ∀ (fuel : ℕ) (st : AState), Inv cf endC st →
      (aStarLoop pen cf endC fuel st).2.Nodup ∧
      (∀ c ∈ (aStarLoop pen cf endC fuel st).2, inGrid cf.grid c) ∧
      (cf.grid.cols * cf.grid.rows < fuel + st.popped.length →
        (aStarLoop pen cf endC fuel st).1 ≠ LoopRes.fuelOut) := by
  intro fuel
  induction fuel with
  | zero =>
    intro st hinv
    refine ⟨hinv.pop_nodup, ?_, ?_⟩
    · intro c hc
      exact hinv.in_grid c (hinv.pop_cells c hc)
    · intro hlt
      have := nodup_inGrid_length_le cf.grid st.popped hinv.pop_nodup
        (fun c hc => hinv.in_grid c (hinv.pop_cells c hc))
      omega
  | succ fuel ih =>
    intro st hinv
    by_cases hemp : st.pending.isEmpty
    · have hstep : aStarLoop pen cf endC (fuel + 1) st = (.exhausted, st.popped) := by
        rw [aStarLoop]
        rw [if_pos hemp]
      rw [hstep]
      refine ⟨hinv.pop_nodup, ?_, ?_⟩
      · intro c hc
        exact hinv.in_grid c (hinv.pop_cells c hc)
      · intro _
        exact fun hh => LoopRes.noConfusion hh
    · have hne : st.pending ≠ [] := by
        intro h
        rw [h] at hemp
        exact hemp rfl
      set pb := pop_best st.cells st.pending with hpbdef
      set st1 : AState :=
        { st with
          pending := pb.2
          cells := (match st.cells pb.1 with
            | some cb => updateCell st.cells pb.1 { cb with is_pending := false }
            | none => st.cells)
          popped := st.popped ++ [pb.1] } with hst1def
      have hstep : aStarLoop pen cf endC (fuel + 1) st =
          if pb.1 = endC then
            (.found (reconstruct st1.cells (cf.grid.cols * cf.grid.rows + 1) pb.1 []),
              st1.popped)
          else
            aStarLoop pen cf endC fuel
              ((cf.grid.cardinal_neighbors pb.1).foldl (expandNeighbor pen cf endC pb.1) st1) := by
        rw [aStarLoop]
        rw [if_neg hemp]
      obtain ⟨hInv1, hcurmem, hmax1, hfOf1, hgOf1, -, -⟩ :=
        pop_inv hinv hne (Prod.mk.eta.symm.trans hpbdef.symm) hst1def
      have hpop1 : st1.popped = st.popped ++ [pb.1] := by rw [hst1def]
      by_cases hend : pb.1 = endC
      · rw [hstep, if_pos hend]
        refine ⟨hInv1.pop_nodup, ?_, ?_⟩
        · intro c hc
          exact hInv1.in_grid c (hInv1.pop_cells c hc)
        · intro _
          exact fun hh => LoopRes.noConfusion hh
      · rw [hstep, if_neg hend]
        have hcur1 : pb.1 ∈ st1.popped := by
          rw [hpop1]
          exact List.mem_append.mpr (Or.inr (List.mem_singleton.mpr rfl))
        obtain ⟨hInv2, hpop2, -, -, -⟩ :=
          expandFold_inv hbase hpen (cf.grid.cardinal_neighbors pb.1) st1 hInv1 hcur1
            hmax1 (fun n hn => hn)
        obtain ⟨ihnd, ihg, ihterm⟩ := ih
          ((cf.grid.cardinal_neighbors pb.1).foldl (expandNeighbor pen cf endC pb.1) st1)
          hInv2
        refine ⟨ihnd, ihg, ?_⟩
        intro hlt
        refine ihterm ?_
        rw [hpop2, hpop1, List.length_append, List.length_singleton]
        omega

/-! #### C5: uniform field, zero turn penalty — Dijkstra optimality -/

/-- The uniform-field optimality bookkeeping: every recorded g is at least
the Manhattan distance from the start, every popped cell's g is exactly that
distance, parent links point one exact step back into the popped set, and the
start record (g = 0, no parent) is the only parentless one. -/
structure UFields (gr : Grid) (startC : GridCoord) (st : AState) : Prop where
  g_lower : ∀ c cb q, st.cells c = some cb → cb.g = .fin q →
    ((manhattan startC c : ℕ) : ℚ) ≤ q
  pop_opt : ∀ p ∈ st.popped, ∀ cb, st.cells p = some cb →
    cb.g = .fin ((manhattan startC p : ℕ) : ℚ)
  parent_link : ∀ c cb p, st.cells c = some cb → cb.parent = some p →
    p ∈ st.popped ∧ cb.g = .fin (((manhattan startC p : ℕ) : ℚ) + 1)
  start_rec : ∃ cb, st.cells startC = some cb ∧ cb.g = .fin 0 ∧ cb.parent = none
  parent_none : ∀ c cb, st.cells c = some cb → cb.parent = none → c = startC

/-- Every neighbor of each cell of `l` carries a record with g at most one
step beyond the cell's distance: those cells' expansions are complete. -/
def Frontier (gr : Grid) (startC : GridCoord) (st : AState)
    (l : List GridCoord) : Prop :=
  ∀ p ∈ l, ∀ nbr ∈ gr.cardinal_neighbors p,
    ∃ cb q, st.cells nbr = some cb ∧ cb.g = .fin q ∧
      q ≤ ((manhattan startC p : ℕ) : ℚ) + 1

theorem mem_nb_e (gr : Grid) (x y : ℕ) (h : x + 1 < gr.cols) :
    ((x + 1, y) : GridCoord) ∈ gr.cardinal_neighbors (x, y) := by
  unfold Grid.cardinal_neighbors
  dsimp only
  refine List.mem_append.mpr (Or.inl (List.mem_append.mpr (Or.inl
    (List.mem_append.mpr (Or.inl ?_)))))
  rw [if_pos h]
  exact List.mem_singleton.mpr rfl

theorem mem_nb_w (gr : Grid) (x y : ℕ) (h : 1 ≤ x) :
    ((x - 1, y) : GridCoord) ∈ gr.cardinal_neighbors (x, y) := by
  unfold Grid.cardinal_neighbors
  dsimp only
  refine List.mem_append.mpr (Or.inl (List.mem_append.mpr (Or.inl
    (List.mem_append.mpr (Or.inr ?_)))))
  rw [if_pos h]
  exact List.mem_singleton.mpr rfl

theorem mem_nb_s (gr : Grid) (x y : ℕ) (h : y + 1 < gr.rows) :
    ((x, y + 1) : GridCoord) ∈ gr.cardinal_neighbors (x, y) := by
  unfold Grid.cardinal_neighbors
  dsimp only
  refine List.mem_append.mpr (Or.inl (List.mem_append.mpr (Or.inr ?_)))
  rw [if_pos h]
  exact List.mem_singleton.mpr rfl

theorem mem_nb_n (gr : Grid) (x y : ℕ) (h : 1 ≤ y) :
    ((x, y - 1) : GridCoord) ∈ gr.cardinal_neighbors (x, y) := by
  unfold Grid.cardinal_neighbors
  dsimp only
  refine List.mem_append.mpr (Or.inr ?_)
  rw [if_pos h]
  exact List.mem_singleton.mpr rfl

/-- One monotone step from `c` toward `a`: a predecessor cell adjacent to `c`,
inside the grid, one unit closer to `a`. -/
theorem step_toward {gr : Grid} {a c : GridCoord} (hag : inGrid gr a)
    (hcg : inGrid gr c) (hne : manhattan a c ≠ 0) :
    ∃ c2, inGrid gr c2 ∧ c ∈ gr.cardinal_neighbors c2 ∧
      manhattan a c2 + 1 = manhattan a c := by
  obtain ⟨hax, hay⟩ := hag
  obtain ⟨hcx, hcy⟩ := hcg
  by_cases hx : c.1 = a.1
  · -- move in y
    have hyne : c.2 ≠ a.2 := by
      intro hy
      apply hne
      unfold manhattan Nat.dist
      omega
    by_cases hlt : c.2 < a.2
    · refine ⟨(c.1, c.2 + 1), ⟨hcx, by omega⟩, ?_, ?_⟩
      · have := mem_nb_n gr c.1 (c.2 + 1) (by omega)
        simpa using this
      · unfold manhattan Nat.dist
        dsimp only
        omega
    · refine ⟨(c.1, c.2 - 1), ⟨hcx, by omega⟩, ?_, ?_⟩
      · have := mem_nb_s gr c.1 (c.2 - 1) (by omega)
        have h2 : c.2 - 1 + 1 = c.2 := by omega
        rw [h2] at this
        simpa using this
      · unfold manhattan Nat.dist
        dsimp only
        omega
  · -- move in x
    by_cases hlt : c.1 < a.1
    · refine ⟨(c.1 + 1, c.2), ⟨by omega, hcy⟩, ?_, ?_⟩
      · have := mem_nb_w gr (c.1 + 1) c.2 (by omega)
        simpa using this
      · unfold manhattan Nat.dist
        dsimp only
        omega
    · refine ⟨(c.1 - 1, c.2), ⟨by omega, hcy⟩, ?_, ?_⟩
      · have := mem_nb_e gr (c.1 - 1) c.2 (by omega)
        have h2 : c.1 - 1 + 1 = c.1 := by omega
        rw [h2] at this
        simpa using this
      · unfold manhattan Nat.dist
        dsimp only
        omega

/-- One expansion step from the optimally popped `cur` (uniform costs, zero
penalty) preserves the optimality bookkeeping and any established frontier. -/
theorem uexp_step {gr : Grid} {startC endC cur nbr : GridCoord} {st : AState}
    {curCb : CellBase}
    (hinv : Inv (CostField.new gr) endC st)
    (hcurmem : cur ∈ st.popped)
    (hcurCb : st.cells cur = some curCb)
    (hcuropt : curCb.g = .fin ((manhattan startC cur : ℕ) : ℚ))
    (hmax : ∀ p ∈ st.popped, GVal.le (fOf st.cells p) (fOf st.cells cur))
    (hnbr : nbr ∈ gr.cardinal_neighbors cur)
    (huf : UFields gr startC st)
    {fl : List GridCoord} (hfr : Frontier gr startC st fl) :
    UFields gr startC (expandNeighbor 0 (CostField.new gr) endC cur st nbr) ∧
    Frontier gr startC (expandNeighbor 0 (CostField.new gr) endC cur st nbr) fl := by
  obtain ⟨-, hpop, -, -, -, hpass⟩ :=
    expand_inv (baseline_new gr) (le_refl 0) hinv hcurmem hcurCb hcuropt hmax hnbr
  rcases hpass with heq | ⟨hnbrpop, hrel⟩
  · rw [heq]
    exact ⟨huf, hfr⟩
  · obtain ⟨q, tp, hq, htp, hrelax, hcells, -, -, -⟩ := hrel
    have hnbrg : inGrid gr nbr :=
      neighbor_inGrid (hinv.in_grid cur (by rw [hcurCb]; exact rfl)) hnbr
    have hq1 : q = 1 := by
      have := new_cost_at gr nbr hnbrg
      rw [hq] at this
      exact Cost.val.inj (Option.some.inj this)
    obtain rfl : tp = 0 := by
      rcases htp with rfl | rfl
      · rfl
      · rfl
    subst hq1
    have hgval : curCb.g.add (1 + 0) = .fin (((manhattan startC cur : ℕ) : ℚ) + 1) := by
      rw [hcuropt]
      rw [GVal.fin_add]
      norm_num
    have hnewrec : (expandNeighbor 0 (CostField.new gr) endC cur st nbr).cells nbr =
        some { g := curCb.g.add (1 + 0), h := ((manhattan nbr endC : ℕ) : ℚ),
               parent := some cur, is_pending := true } := by
      rw [hcells nbr, if_pos rfl]
    have hold : ∀ x, x ≠ nbr →
        (expandNeighbor 0 (CostField.new gr) endC cur st nbr).cells x = st.cells x :=
      fun x hx => by rw [hcells x, if_neg hx]
    have hstartne : startC ≠ nbr := by
      obtain ⟨cb0, hcb0, hg0, -⟩ := huf.start_rec
      intro hsn
      have := hrelax cb0 (by rw [← hsn]; exact hcb0)
      rw [hgval, hg0] at this
      rw [GVal.fin_lt_fin] at this
      have hc0 : (0 : ℚ) ≤ ((manhattan startC cur : ℕ) : ℚ) := Nat.cast_nonneg _
      linarith
    constructor
    · constructor
      · -- g_lower
        intro c cb qv hcb hg
        by_cases hcn : c = nbr
        · rw [hcn] at hcb ⊢
          rw [hnewrec] at hcb
          obtain rfl := Option.some.inj hcb
          rw [hgval] at hg
          obtain rfl := GVal.fin.inj hg.symm
          have hN : manhattan startC nbr ≤ manhattan startC cur + 1 := by
            have := manhattan_triangle startC cur nbr
            rw [manhattan_neighbor hnbr] at this
            omega
          exact_mod_cast hN
        · rw [hold c hcn] at hcb
          exact huf.g_lower c cb qv hcb hg
      · -- pop_opt
        intro p hp cb hcb
        rw [hpop] at hp
        have hpn : p ≠ nbr := fun he => hnbrpop (he ▸ hp)
        rw [hold p hpn] at hcb
        exact huf.pop_opt p hp cb hcb
      · -- parent_link
        intro c cb p hcb hpar
        rw [hpop]
        by_cases hcn : c = nbr
        · rw [hcn] at hcb
          rw [hnewrec] at hcb
          obtain rfl := Option.some.inj hcb
          obtain rfl : cur = p := Option.some.inj hpar
          exact ⟨hcurmem, hgval⟩
        · rw [hold c hcn] at hcb
          exact huf.parent_link c cb p hcb hpar
      · -- start_rec
        obtain ⟨cb0, hcb0, hg0, hp0⟩ := huf.start_rec
        exact ⟨cb0, by rw [hold startC hstartne]; exact hcb0, hg0, hp0⟩
      · -- parent_none
        intro c cb hcb hpar
        by_cases hcn : c = nbr
        · rw [hcn] at hcb
          rw [hnewrec] at hcb
          obtain rfl := Option.some.inj hcb
          exact Option.noConfusion hpar
        · rw [hold c hcn] at hcb
          exact huf.parent_none c cb hcb hpar
    · -- frontier preserved: relaxation only lowers the recorded g
      intro p hp m hm
      obtain ⟨cb, qv, hcb, hg, hb⟩ := hfr p hp m hm
      by_cases hmn : m = nbr
      · rw [hmn] at hcb
        have hlt := hrelax cb hcb
        rw [hgval, hg, GVal.fin_lt_fin] at hlt
        refine ⟨_, ((manhattan startC cur : ℕ) : ℚ) + 1, by rw [hmn]; exact hnewrec,
          hgval, ?_⟩
        linarith
      · exact ⟨cb, qv, by rw [hold m hmn]; exact hcb, hg, hb⟩

/-- Folding the uniform zero-penalty expansion over neighbors of the popped
optimum preserves the bookkeeping and any established frontier. -/
theorem uexp_fold {gr : Grid} {startC endC cur : GridCoord} :
    ∀ (l : List GridCoord) (st : AState) (fl : List GridCoord),
      Inv (CostField.new gr) endC st → cur ∈ st.popped →
      (∀ p ∈ st.popped, GVal.le (fOf st.cells p) (fOf st.cells cur)) →
      (∀ n ∈ l, n ∈ gr.cardinal_neighbors cur) →
      UFields gr startC st → Frontier gr startC st fl →
      UFields gr startC (l.foldl (expandNeighbor 0 (CostField.new gr) endC cur) st) ∧
      Frontier gr startC (l.foldl (expandNeighbor 0 (CostField.new gr) endC cur) st) fl := by
  intro l
  induction l with
  | nil =>
    intro st fl _ _ _ _ huf hfr
    exact ⟨huf, hfr⟩
  | cons n l ih =>
    intro st fl hinv hcur hmax hnb huf hfr
    obtain ⟨curCb, hcurCb⟩ := Option.isSome_iff_exists.mp (hinv.pop_cells cur hcur)
    have hcuropt := huf.pop_opt cur hcur curCb hcurCb
    obtain ⟨hInv2, hpop2, hpopc2, -, -, -⟩ :=
      expand_inv (baseline_new gr) (le_refl 0) hinv hcur hcurCb hcuropt hmax
        (hnb n (List.mem_cons_self n l))
    obtain ⟨huf2, hfr2⟩ := uexp_step hinv hcur hcurCb hcuropt hmax
      (hnb n (List.mem_cons_self n l)) huf hfr
    have hcur2 : cur ∈ (expandNeighbor 0 (CostField.new gr) endC cur st n).popped := by
      rw [hpop2]; exact hcur
    have hmax2 : ∀ p ∈ (expandNeighbor 0 (CostField.new gr) endC cur st n).popped,
        GVal.le (fOf (expandNeighbor 0 (CostField.new gr) endC cur st n).cells p)
          (fOf (expandNeighbor 0 (CostField.new gr) endC cur st n).cells cur) := by
      intro p hp
      rw [hpop2] at hp
      rw [fOf_congr (hpopc2 p hp), fOf_congr (hpopc2 cur hcur)]
      exact hmax p hp
    rw [List.foldl_cons]
    exact ih (expandNeighbor 0 (CostField.new gr) endC cur st n) fl hInv2 hcur2 hmax2
      (fun m hm => hnb m (List.mem_cons_of_mem n hm)) huf2 hfr2

/-- The Dijkstra frontier argument: for every in grid cell `c` outside the
popped set there is a pending cell `p` with exact g = dist(start, p) lying on
a shortest start-to-`c` route.  Induction along a monotone staircase toward
the start: the predecessor is popped (then its frontier record for `c` is
exact) or it is not (then the induction hypothesis applies). -/
theorem exists_optimal_pending {gr : Grid} {startC endC : GridCoord} {st : AState}
    (hinv : Inv (CostField.new gr) endC st)
    (huf : UFields gr startC st)
    (hfr : Frontier gr startC st st.popped)
    (hscg : inGrid gr startC) :
    ∀ (m : ℕ) (c : GridCoord), inGrid gr c → c ∉ st.popped → manhattan startC c = m →
      ∃ p, p ∈ st.pending ∧
        (∃ cb, st.cells p = some cb ∧ cb.g = .fin ((manhattan startC p : ℕ) : ℚ)) ∧
        manhattan startC p + manhattan p c = m := by
  intro m
  induction m using Nat.strong_induction_on with
  | _ m ih =>
    intro c hcg hcpop hm
    by_cases hcs : c = startC
    · obtain ⟨cb0, hcb0, hg0, -⟩ := huf.start_rec
      have hm0 : manhattan startC c = 0 := by
        rw [hcs]
        exact manhattan_self startC
      have hpend : c ∈ st.pending := by
        rcases hinv.cells_part c (by rw [hcs, hcb0]; exact rfl) with h | h
        · exact h
        · exact absurd h hcpop
      refine ⟨c, hpend, ⟨cb0, by rw [hcs]; exact hcb0, ?_⟩, ?_⟩
      · rw [hg0, hm0]
        norm_num
      · rw [manhattan_self]
        omega
    · have hmpos : m ≠ 0 := by
        intro h0
        rw [h0] at hm
        exact hcs (manhattan_eq_zero hm).symm
      obtain ⟨c2, hc2g, hc2nb, hc2m⟩ := step_toward hscg hcg (by rw [hm]; exact hmpos)
      by_cases hc2pop : c2 ∈ st.popped
      · -- the predecessor is expanded: its frontier record for c is exact
        obtain ⟨cb, qv, hcb, hg, hb⟩ := hfr c2 hc2pop c hc2nb
        have hlow := huf.g_lower c cb qv hcb hg
        have hqm : qv = ((m : ℕ) : ℚ) := by
          rw [hm] at hlow
          have hb2 : qv ≤ ((manhattan startC c2 : ℕ) : ℚ) + 1 := hb
          have hcast : ((manhattan startC c2 : ℕ) : ℚ) + 1 = ((m : ℕ) : ℚ) := by
            rw [← hm, ← hc2m]
            push_cast
            ring
          rw [hcast] at hb2
          linarith
        have hpend : c ∈ st.pending := by
          rcases hinv.cells_part c (by rw [hcb]; exact rfl) with h | h
          · exact h
          · exact absurd h hcpop
        refine ⟨c, hpend, ⟨cb, hcb, ?_⟩, ?_⟩
        · rw [hg, hqm, hm]
        · rw [manhattan_self]
          omega
      · -- the predecessor is untouched: recurse one step closer to the start
        obtain ⟨p, hppend, hprec, hsum⟩ :=
          ih (manhattan startC c2) (by omega) c2 hc2g hc2pop rfl
        refine ⟨p, hppend, hprec, ?_⟩
        have h1 : manhattan p c ≤ manhattan p c2 + 1 := by
          have := manhattan_triangle p c2 c
          have hn : manhattan c2 c = 1 := manhattan_neighbor hc2nb
          omega
        have h2 : manhattan startC c ≤ manhattan startC p + manhattan p c :=
          manhattan_triangle startC p c
        omega

/-- Popping from a state with full optimality bookkeeping: the popped cell's
g is exactly its Manhattan distance from the start (Dijkstra optimality on
the uniform field), and all bookkeeping transfers to the popped state. -/
theorem upop_inv {gr : Grid} {startC endC : GridCoord} {st : AState}
    (hinv : Inv (CostField.new gr) endC st)
    (huf : UFields gr startC st)
    (hfr : Frontier gr startC st st.popped)
    (hscg : inGrid gr startC)
    (hne : st.pending ≠ [])
    {cur : GridCoord} {pend2 : List GridCoord}
    (hpb : pop_best st.cells st.pending = (cur, pend2)) {st1 : AState}
    (hst1 : st1 =
      { st with
        pending := pend2
        cells := (match st.cells cur with
          | some cb => updateCell st.cells cur { cb with is_pending := false }
          | none => st.cells)
        popped := st.popped ++ [cur] }) :
    Inv (CostField.new gr) endC st1 ∧
    (∀ p ∈ st1.popped, GVal.le (fOf st1.cells p) (fOf st1.cells cur)) ∧
    UFields gr startC st1 ∧
    Frontier gr startC st1 st.popped ∧
    st1.popped = st.popped ++ [cur] ∧ cur ∈ st.pending := by
  obtain ⟨hInv1, hmem, hmax1, hfOf1, hgOf1, hback, hfwd⟩ := pop_inv hinv hne hpb hst1
  obtain ⟨-, -, hmin⟩ := pop_best_spec st.cells st.pending hne
  rw [hpb] at hmin
  dsimp only at hmin
  have hpop1 : st1.popped = st.popped ++ [cur] := by rw [hst1]
  -- optimality of the popped cell
  have hcurnp : cur ∉ st.popped := by
    intro h
    exact hinv.pop_pend cur h hmem
  have hcurg : inGrid gr cur := hinv.in_grid cur (hinv.pend_cells cur hmem)
  obtain ⟨curCb, hcurCb⟩ := Option.isSome_iff_exists.mp (hinv.pend_cells cur hmem)
  obtain ⟨gq, hgq⟩ : ∃ gq, curCb.g = .fin gq := by
    cases hg : curCb.g with
    | inf => exact absurd hg (hinv.fin_g cur curCb hcurCb)
    | fin gq => exact ⟨gq, rfl⟩
  obtain ⟨p, hppend, ⟨pcb, hpcb, hpg⟩, hsum⟩ :=
    exists_optimal_pending hinv huf hfr hscg (manhattan startC cur) cur hcurg hcurnp rfl
  have hminp := hmin p hppend
  rw [fOf_some hcurCb, fOf_some hpcb] at hminp
  unfold CellBase.f at hminp
  rw [hgq, hpg] at hminp
  simp only [GVal.fin_add, GVal.fin_le_fin] at hminp
  have hhc : curCb.h = ((manhattan cur endC : ℕ) : ℚ) := hinv.h_eq cur curCb hcurCb
  have hhp : pcb.h = ((manhattan p endC : ℕ) : ℚ) := hinv.h_eq p pcb hpcb
  have htri : (manhattan p endC : ℕ) ≤ manhattan p cur + manhattan cur endC :=
    manhattan_triangle p cur endC
  have htriq : ((manhattan p endC : ℕ) : ℚ) ≤
      ((manhattan p cur : ℕ) : ℚ) + ((manhattan cur endC : ℕ) : ℚ) := by
    exact_mod_cast htri
  have hsumq : ((manhattan startC p : ℕ) : ℚ) + ((manhattan p cur : ℕ) : ℚ) =
      ((manhattan startC cur : ℕ) : ℚ) := by
    exact_mod_cast congrArg (fun n => ((n : ℕ) : ℚ)) hsum
  have hlow := huf.g_lower cur curCb gq hcurCb hgq
  have hcuropt : curCb.g = .fin ((manhattan startC cur : ℕ) : ℚ) := by
    rw [hgq]
    congr 1
    rw [hhc, hhp] at hminp
    linarith
  refine ⟨hInv1, hmax1, ?_, ?_, hpop1, hmem⟩
  · constructor
    · -- g_lower
      intro c cb2 qv hcb2 hg2
      obtain ⟨cb, hcb, hgeq, -, -⟩ := hback c cb2 hcb2
      rw [hgeq] at hg2
      exact huf.g_lower c cb qv hcb hg2
    · -- pop_opt
      intro p2 hp2 cb2 hcb2
      rw [hpop1] at hp2
      rcases List.mem_append.mp hp2 with hp2 | hp2
      · obtain ⟨cb, hcb, hgeq, -, -⟩ := hback p2 cb2 hcb2
        rw [hgeq]
        exact huf.pop_opt p2 hp2 cb hcb
      · rw [List.mem_singleton] at hp2
        subst hp2
        obtain ⟨cb2x, hcb2x, hgeq, -, -⟩ := hfwd p2 curCb hcurCb
        rw [hcb2x] at hcb2
        obtain rfl := Option.some.inj hcb2
        rw [hgeq]
        exact hcuropt
    · -- parent_link
      intro c cb2 p2 hcb2 hpar
      obtain ⟨cb, hcb, hgeq, -, hpareq⟩ := hback c cb2 hcb2
      rw [hpareq] at hpar
      obtain ⟨hp2, hg2⟩ := huf.parent_link c cb p2 hcb hpar
      refine ⟨?_, by rw [hgeq]; exact hg2⟩
      rw [hpop1]
      exact List.mem_append.mpr (Or.inl hp2)
    · -- start_rec
      obtain ⟨cb0, hcb0, hg0, hp0⟩ := huf.start_rec
      obtain ⟨cb2, hcb2, hgeq, -, hpareq⟩ := hfwd startC cb0 hcb0
      exact ⟨cb2, hcb2, by rw [hgeq]; exact hg0, by rw [hpareq]; exact hp0⟩
    · -- parent_none
      intro c cb2 hcb2 hpar
      obtain ⟨cb, hcb, -, -, hpareq⟩ := hback c cb2 hcb2
      rw [hpareq] at hpar
      exact huf.parent_none c cb hcb hpar
  · -- frontier transfers
    intro p2 hp2 m hm
    obtain ⟨cb, qv, hcb, hg, hb⟩ := hfr p2 hp2 m hm
    obtain ⟨cb2, hcb2, hgeq, -, -⟩ := hfwd m cb hcb
    exact ⟨cb2, qv, hcb2, by rw [hgeq]; exact hg, hb⟩

/-- Following exact parent links (each one step of distance, rooted at the
start record) yields a path of exactly g + 1 cells. -/
theorem reconstruct_len {gr : Grid} {endC startC : GridCoord} {st : AState}
    (hinv : Inv (CostField.new gr) endC st)
    (huf : UFields gr startC st) :
    ∀ (n fuel : ℕ) (c : GridCoord) (cb : CellBase) (acc : List GridCoord),
      st.cells c = some cb → cb.g = .fin ((n : ℕ) : ℚ) → n < fuel →
      (reconstruct st.cells fuel c acc).length = n + 1 + acc.length := by
  intro n
  induction n using Nat.strong_induction_on with
  | _ n ih =>
    intro fuel c cb acc hcb hg hfuel
    cases fuel with
    | zero => omega
    | succ fuel =>
      rw [reconstruct]
      rw [hcb]
      simp only [Option.some_bind]
      cases hp : cb.parent with
      | none =>
        have hcs := huf.parent_none c cb hcb hp
        obtain ⟨cb0, hcb0, hg0, -⟩ := huf.start_rec
        have hcbeq : cb = cb0 := by
          rw [hcs] at hcb
          exact Option.some.inj (hcb.symm.trans hcb0)
        have hn0 : n = 0 := by
          rw [hcbeq, hg0] at hg
          have := GVal.fin.inj hg
          exact_mod_cast this.symm
        rw [List.length_cons]
        omega
      | some p =>
        obtain ⟨hppop, hgp⟩ := huf.parent_link c cb p hcb hp
        obtain ⟨pcb, hpcb⟩ := Option.isSome_iff_exists.mp (hinv.pop_cells p hppop)
        have hpopt := huf.pop_opt p hppop pcb hpcb
        have hn : n = manhattan startC p + 1 := by
          rw [hg] at hgp
          have hq := GVal.fin.inj hgp
          have : ((n : ℕ) : ℚ) = (((manhattan startC p + 1 : ℕ)) : ℚ) := by
            rw [hq]
            push_cast
            ring
          exact_mod_cast this
        have hrec := ih (manhattan startC p) (by omega) fuel p pcb (c :: acc)
          hpcb hpopt (by omega)
        rw [hrec, List.length_cons]
        omega

/-- Manhattan distance between two in grid cells is below cols*rows + 1. -/
theorem manhattan_lt_size {gr : Grid} {a b : GridCoord} (ha : inGrid gr a)
    (hb : inGrid gr b) : manhattan a b < gr.cols * gr.rows + 1 := by
  obtain ⟨hax, hay⟩ := ha
  obtain ⟨hbx, hby⟩ := hb
  have key : gr.cols + gr.rows ≤ gr.cols * gr.rows + 1 := by
    rcases Nat.lt_or_ge gr.cols 2 with hc2 | hc2
    · have h1 : gr.cols = 1 := by omega
      rw [h1, one_mul]
      omega
    · rcases Nat.lt_or_ge gr.rows 2 with hr2 | hr2
      · have h1 : gr.rows = 1 := by omega
        rw [h1, mul_one]
      · have := Nat.add_le_mul hc2 hr2
        omega
  unfold manhattan Nat.dist
  omega

/-- The invariant at `find_path`'s initial state. -/
theorem init_inv (cf : CostField) (sc ec : GridCoord) (hscg : inGrid cf.grid sc) :
    Inv cf ec
      { cells := updateCell (fun _ => none) sc
          { g := .fin 0, h := ((manhattan sc ec : ℕ) : ℚ),
            parent := none, is_pending := true },
        pending := [sc], seen := fun x => decide (x = sc), popped := [] } := by
  set rec0 : CellBase :=
    { g := .fin 0, h := ((manhattan sc ec : ℕ) : ℚ),
      parent := none, is_pending := true } with hrec0
  have hc0 : ∀ x, (updateCell (fun _ => none) sc rec0) x =
      if x = sc then some rec0 else none := fun x => updateCell_apply _ _ _ x
  constructor
  all_goals dsimp only
  · intro c
    rw [hc0 c]
    by_cases hcs : c = sc
    · rw [if_pos hcs]
      simp [hcs]
    · rw [if_neg hcs]
      simp [hcs]
  · intro c hc
    rw [hc0 c] at hc
    by_cases hcs : c = sc
    · rw [hcs]; exact hscg
    · rw [if_neg hcs] at hc
      exact absurd hc (by simp)
  · intro c cb hcb
    rw [hc0 c] at hcb
    by_cases hcs : c = sc
    · rw [if_pos hcs] at hcb
      obtain rfl := Option.some.inj hcb
      exact fun hh => GVal.noConfusion hh
    · rw [if_neg hcs] at hcb
      exact Option.noConfusion hcb
  · intro c cb hcb
    rw [hc0 c] at hcb
    by_cases hcs : c = sc
    · rw [if_pos hcs] at hcb
      obtain rfl := Option.some.inj hcb
      rw [hcs]
    · rw [if_neg hcs] at hcb
      exact Option.noConfusion hcb
  · exact List.nodup_singleton sc
  · intro c hc
    rw [List.mem_singleton] at hc
    rw [hc0 c, if_pos hc]
    exact rfl
  · intro c cb hcb
    rw [hc0 c] at hcb
    by_cases hcs : c = sc
    · rw [if_pos hcs] at hcb
      obtain rfl := Option.some.inj hcb
      simp [hcs]
    · rw [if_neg hcs] at hcb
      exact Option.noConfusion hcb
  · exact List.nodup_nil
  · intro c hc
    exact absurd hc (List.not_mem_nil c)
  · intro c hc
    exact absurd hc (List.not_mem_nil c)
  · intro c hc
    rw [hc0 c] at hc
    by_cases hcs : c = sc
    · rw [List.mem_singleton]
      exact Or.inl hcs
    · rw [if_neg hcs] at hc
      exact absurd hc (by simp)
  · exact List.Pairwise.nil
  · intro p hp
    exact absurd hp (List.not_mem_nil p)

/-- The optimality bookkeeping at `find_path`'s initial state. -/
theorem init_ufields (gr : Grid) (sc ec : GridCoord) :
    UFields gr sc
      { cells := updateCell (fun _ => none) sc
          { g := .fin 0, h := ((manhattan sc ec : ℕ) : ℚ),
            parent := none, is_pending := true },
        pending := [sc], seen := fun x => decide (x = sc), popped := [] } := by
  set rec0 : CellBase :=
    { g := .fin 0, h := ((manhattan sc ec : ℕ) : ℚ),
      parent := none, is_pending := true } with hrec0
  have hc0 : ∀ x, (updateCell (fun _ => none) sc rec0) x =
      if x = sc then some rec0 else none := fun x => updateCell_apply _ _ _ x
  constructor
  all_goals dsimp only
  · intro c cb q hcb hg
    rw [hc0 c] at hcb
    by_cases hcs : c = sc
    · rw [if_pos hcs] at hcb
      obtain rfl := Option.some.inj hcb
      rw [hrec0] at hg
      obtain rfl := GVal.fin.inj hg.symm
      rw [hcs, manhattan_self]
      norm_num
    · rw [if_neg hcs] at hcb
      exact Option.noConfusion hcb
  · intro p hp
    exact absurd hp (List.not_mem_nil p)
  · intro c cb p hcb hpar
    rw [hc0 c] at hcb
    by_cases hcs : c = sc
    · rw [if_pos hcs] at hcb
      obtain rfl := Option.some.inj hcb
      exact Option.noConfusion hpar
    · rw [if_neg hcs] at hcb
      exact Option.noConfusion hcb
  · refine ⟨rec0, ?_, rfl, rfl⟩
    rw [hc0 sc, if_pos rfl]
  · intro c cb hcb hpar
    rw [hc0 c] at hcb
    by_cases hcs : c = sc
    · exact hcs
    · rw [if_neg hcs] at hcb
      exact Option.noConfusion hcb

/-- The search loop on a uniform field with zero turn penalty: whenever it
finds the goal, the reconstructed cell path has exactly the Manhattan distance
plus one cells. -/
theorem uloop {gr : Grid} {startC endC : GridCoord} (hscg : inGrid gr startC) :
    ∀ (fuel : ℕ) (st : AState),
      Inv (CostField.new gr) endC st →
      UFields gr startC st →
      Frontier gr startC st st.popped →
      ∀ cp tr, aStarLoop 0 (CostField.new gr) endC fuel st = (.found cp, tr) →
        cp.length = manhattan startC endC + 1 := by
  intro fuel
  induction fuel with
  | zero =>
    intro st _ _ _ cp tr h
    rw [aStarLoop] at h
    exact LoopRes.noConfusion (congrArg Prod.fst h)
  | succ fuel ih =>
    intro st hinv huf hfr cp tr h
    by_cases hemp : st.pending.isEmpty
    · rw [aStarLoop, if_pos hemp] at h
      exact LoopRes.noConfusion (congrArg Prod.fst h)
    · have hne : st.pending ≠ [] := by
        intro he
        rw [he] at hemp
        exact hemp rfl
      set pb := pop_best st.cells st.pending with hpbdef
      set st1 : AState :=
        { st with
          pending := pb.2
          cells := (match st.cells pb.1 with
            | some cb => updateCell st.cells pb.1 { cb with is_pending := false }
            | none => st.cells)
          popped := st.popped ++ [pb.1] } with hst1def
      have hstep : aStarLoop 0 (CostField.new gr) endC (fuel + 1) st =
          if pb.1 = endC then
            (.found (reconstruct st1.cells
              ((CostField.new gr).grid.cols * (CostField.new gr).grid.rows + 1) pb.1 []),
              st1.popped)
          else
            aStarLoop 0 (CostField.new gr) endC fuel
              (((CostField.new gr).grid.cardinal_neighbors pb.1).foldl
                (expandNeighbor 0 (CostField.new gr) endC pb.1) st1) := by
        rw [aStarLoop]
        rw [if_neg hemp]
      rw [hstep] at h
      obtain ⟨hInv1, hmax1, hUF1, hFr1, hpop1, hcurpend⟩ :=
        upop_inv hinv huf hfr hscg hne (Prod.mk.eta.symm.trans hpbdef.symm) hst1def
      have hcur1 : pb.1 ∈ st1.popped := by
        rw [hpop1]
        exact List.mem_append.mpr (Or.inr (List.mem_singleton.mpr rfl))
      obtain ⟨ecb, hecb⟩ := Option.isSome_iff_exists.mp (hInv1.pop_cells pb.1 hcur1)
      have hopt := hUF1.pop_opt pb.1 hcur1 ecb hecb
      have hein : inGrid gr pb.1 := hInv1.in_grid pb.1 (by rw [hecb]; exact rfl)
      by_cases hend : pb.1 = endC
      · rw [if_pos hend] at h
        have hcp : reconstruct st1.cells
            ((CostField.new gr).grid.cols * (CostField.new gr).grid.rows + 1) pb.1 []
            = cp := by
          have := congrArg Prod.fst h
          exact LoopRes.found.inj this
        have hflt : manhattan startC pb.1 <
            (CostField.new gr).grid.cols * (CostField.new gr).grid.rows + 1 :=
          manhattan_lt_size hscg hein
        have hlen := reconstruct_len hInv1 hUF1 (manhattan startC pb.1)
          ((CostField.new gr).grid.cols * (CostField.new gr).grid.rows + 1)
          pb.1 ecb [] hecb hopt hflt
        rw [hcp] at hlen
        rw [hlen, List.length_nil, ← hend]
      · rw [if_neg hend] at h
        obtain ⟨hInv2, hpop2, hpopc2, hgle2, hbound2⟩ :=
          expandFold_inv (baseline_new gr) (le_refl 0)
            ((CostField.new gr).grid.cardinal_neighbors pb.1) st1 hInv1 hcur1 hmax1
            (fun n hn => hn)
        obtain ⟨hUF2, hFr2old⟩ :=
          uexp_fold ((CostField.new gr).grid.cardinal_neighbors pb.1) st1 st.popped
            hInv1 hcur1 hmax1 (fun n hn => hn) hUF1 hFr1
        have hFr2 : Frontier gr startC
            (((CostField.new gr).grid.cardinal_neighbors pb.1).foldl
              (expandNeighbor 0 (CostField.new gr) endC pb.1) st1)
            (((CostField.new gr).grid.cardinal_neighbors pb.1).foldl
              (expandNeighbor 0 (CostField.new gr) endC pb.1) st1).popped := by
          have hpopeq : (((CostField.new gr).grid.cardinal_neighbors pb.1).foldl
              (expandNeighbor 0 (CostField.new gr) endC pb.1) st1).popped
              = st.popped ++ [pb.1] := by
            rw [hpop2, hpop1]
            rfl
          intro p hp m hm
          rw [hpopeq] at hp
          rcases List.mem_append.mp hp with hp | hp
          · exact hFr2old p hp m hm
          · rw [List.mem_singleton] at hp
            have hmg : m ∈ (CostField.new gr).grid.cardinal_neighbors pb.1 := by
              rw [← hp]
              exact hm
            have hmgrid : inGrid (CostField.new gr).grid m :=
              neighbor_inGrid hein hmg
            have hcost : (CostField.new gr).cost_at m = some (Cost.val 1) :=
              new_cost_at gr m hmgrid
            have hgcv : gOf st1.cells pb.1 = .fin ((manhattan startC pb.1 : ℕ) : ℚ) := by
              rw [gOf_some hecb]
              exact hopt
            obtain ⟨cb2, g2, hcb2, hg2, hle2⟩ := hbound2 m hmg 1 hcost _ hgcv
            refine ⟨cb2, g2, hcb2, hg2, ?_⟩
            rw [hp]
            linarith
        exact ih (((CostField.new gr).grid.cardinal_neighbors pb.1).foldl
          (expandNeighbor 0 (CostField.new gr) endC pb.1) st1) hInv2 hUF2 hFr2 cp tr h

end AStar

/-- C5: on a cost field with no registered obstacles (a fresh `CostField::new`
field, every cell at the uniform baseline cost 1) and a zero turn penalty,
every path returned by `find_path` visits exactly manhattan(start cell, end
cell) + 1 cells; its length as a walk — the number of cell steps between
consecutive centers — is exactly the Manhattan distance between the start and
end cells. -/
theorem C5_uniform_optimal (gr : Grid) (fuel : ℕ) (s e : Pos) (ps : List Pos)
    (hpath : AStar.find_path 0 fuel (CostField.new gr) s e = .path ps) :
    ∃ sc ec, gr.to_cell s = some sc ∧ gr.to_cell e = some ec ∧
      ps.length = AStar.manhattan sc ec + 1 := by
  unfold AStar.find_path AStar.find_path_aux at hpath
  cases hs : (CostField.new gr).grid.to_cell s with
  | none =>
    rw [hs] at hpath
    exact AStar.SearchOutcome.noConfusion hpath
  | some sc =>
    rw [hs] at hpath
    dsimp only at hpath
    cases he2 : (CostField.new gr).grid.to_cell e with
    | none =>
      rw [he2] at hpath
      exact AStar.SearchOutcome.noConfusion hpath
    | some ec =>
      rw [he2] at hpath
      dsimp only at hpath
      by_cases hrej : AStar.endRejected (CostField.new gr) ec
      · rw [if_pos hrej] at hpath
        exact AStar.SearchOutcome.noConfusion hpath
      · rw [if_neg hrej] at hpath
        set st0 : AState :=
          { cells := updateCell (fun _ => none) sc
              { g := .fin 0, h := (AStar.manhattan sc ec : ℚ),
                parent := none, is_pending := true },
            pending := [sc],
            seen := fun x => decide (x = sc),
            popped := [] } with hst0
        have hscg : AStar.inGrid (CostField.new gr).grid sc :=
          AStar.to_cell_inGrid (CostField.new gr).grid s sc hs
        have hInv0 : AStar.Inv (CostField.new gr) ec st0 :=
          AStar.init_inv (CostField.new gr) sc ec hscg
        have hUF0 : AStar.UFields gr sc st0 := AStar.init_ufields gr sc ec
        have hFr0 : AStar.Frontier gr sc st0 st0.popped := by
          intro p hp
          rw [hst0] at hp
          exact absurd hp (List.not_mem_nil p)
        cases hloop : AStar.aStarLoop 0 (CostField.new gr) ec fuel st0 with
        | mk res tr =>
          rw [hloop] at hpath
          cases res with
          | fuelOut => exact AStar.SearchOutcome.noConfusion hpath
          | exhausted => exact AStar.SearchOutcome.noConfusion hpath
          | found cellsPath =>
            dsimp only at hpath
            have hps : cellsPath.map (CostField.new gr).grid.cell_center = ps :=
              AStar.SearchOutcome.path.inj hpath
            have hlen := AStar.uloop hscg fuel st0 hInv0 hUF0 hFr0 cellsPath tr hloop
            refine ⟨sc, ec, hs, he2, ?_⟩
            rw [← hps, List.length_map, hlen]

/-- C5 witness: the concrete uniform 3×1 field with zero penalty; the run
returns the three cell centers and 3 = manhattan((0,0),(2,0)) + 1. -/
theorem C5_uniform_optimal_witness :
    AStar.find_path 0 10 (CostField.new (Grid.from_scene ⟨(0, 0), (3, 1)⟩ 1))
      (1/2, 1/2) (5/2, 1/2) = .path [(1/2, 1/2), (3/2, 1/2), (5/2, 1/2)] ∧
    (∃ sc ec, (Grid.from_scene ⟨(0, 0), (3, 1)⟩ 1).to_cell (1/2, 1/2) = some sc ∧
      (Grid.from_scene ⟨(0, 0), (3, 1)⟩ 1).to_cell (5/2, 1/2) = some ec ∧
      ([(1/2, 1/2), (3/2, 1/2), (5/2, 1/2)] : List Pos).length
        = AStar.manhattan sc ec + 1) :=
  have hrun : AStar.find_path 0 10 (CostField.new (Grid.from_scene ⟨(0, 0), (3, 1)⟩ 1))
      (1/2, 1/2) (5/2, 1/2) = .path [(1/2, 1/2), (3/2, 1/2), (5/2, 1/2)] := by
    with_unfolding_all rfl
  ⟨hrun, C5_uniform_optimal (Grid.from_scene ⟨(0, 0), (3, 1)⟩ 1) 10
    (1/2, 1/2) (5/2, 1/2) [(1/2, 1/2), (3/2, 1/2), (5/2, 1/2)] hrun⟩

/-- C4: during one `find_path` invocation over a cost field satisfying the
baseline invariant (every finite cell cost at least 1, which `CostField::new`
establishes and every field operation preserves) and with a nonnegative turn
penalty (the source uses 1.0), no cell is ever popped from the frontier twice
— the pop/expansion trace has no duplicates — and the loop terminates: with
fuel exceeding cols * rows (one pop per fuel unit) the run never exhausts its
fuel, because each iteration pops a fresh in grid cell. -/
theorem C4_closed_set (pen : ℚ) (fuel : ℕ) (cf : CostField) (s e : Pos)
    (hbase : AStar.baseline cf) (hpen : 0 ≤ pen) :
    (AStar.searchTrace pen fuel cf s e).Nodup ∧
    (cf.grid.cols * cf.grid.rows < fuel →
      AStar.find_path pen fuel cf s e ≠ AStar.SearchOutcome.fuelOut) := by
  unfold AStar.searchTrace AStar.find_path AStar.find_path_aux
  cases hs : cf.grid.to_cell s with
  | none =>
    exact ⟨List.nodup_nil, fun _ hh => AStar.SearchOutcome.noConfusion hh⟩
  | some sc =>
    cases he2 : cf.grid.to_cell e with
    | none =>
      exact ⟨List.nodup_nil, fun _ hh => AStar.SearchOutcome.noConfusion hh⟩
    | some ec =>
      dsimp only
      by_cases hrej : AStar.endRejected cf ec
      · rw [if_pos hrej]
        exact ⟨List.nodup_nil, fun _ hh => AStar.SearchOutcome.noConfusion hh⟩
      · rw [if_neg hrej]
        set st0 : AState :=
          { cells := updateCell (fun _ => none) sc
              { g := .fin 0, h := (AStar.manhattan sc ec : ℚ),
                parent := none, is_pending := true },
            pending := [sc],
            seen := fun x => decide (x = sc),
            popped := [] } with hst0
        have hscg : AStar.inGrid cf.grid sc := AStar.to_cell_inGrid cf.grid s sc hs
        have hc0 : ∀ x, st0.cells x = if x = sc then
            some { g := .fin 0, h := (AStar.manhattan sc ec : ℚ),
                   parent := none, is_pending := true } else none := by
          intro x
          rw [hst0]
          dsimp only
          exact AStar.updateCell_apply _ _ _ x
        have hInv0 : AStar.Inv cf ec st0 := by
          constructor
          · intro c
            rw [hc0 c, hst0]
            by_cases hcs : c = sc
            · rw [if_pos hcs]
              simp [hcs]
            · rw [if_neg hcs]
              simp [hcs]
          · intro c hc
            rw [hc0 c] at hc
            by_cases hcs : c = sc
            · rw [hcs]; exact hscg
            · rw [if_neg hcs] at hc
              exact absurd hc (by simp)
          · intro c cb hcb
            rw [hc0 c] at hcb
            by_cases hcs : c = sc
            · rw [if_pos hcs] at hcb
              obtain rfl := Option.some.inj hcb
              exact fun hh => GVal.noConfusion hh
            · rw [if_neg hcs] at hcb
              exact Option.noConfusion hcb
          · intro c cb hcb
            rw [hc0 c] at hcb
            by_cases hcs : c = sc
            · rw [if_pos hcs] at hcb
              obtain rfl := Option.some.inj hcb
              rw [hcs]
            · rw [if_neg hcs] at hcb
              exact Option.noConfusion hcb
          · rw [hst0]
            exact List.nodup_singleton sc
          · intro c hc
            rw [hst0] at hc
            rw [List.mem_singleton] at hc
            rw [hc0 c, if_pos hc]
            exact rfl
          · intro c cb hcb
            rw [hc0 c] at hcb
            rw [hst0]
            by_cases hcs : c = sc
            · rw [if_pos hcs] at hcb
              obtain rfl := Option.some.inj hcb
              simp [hcs]
            · rw [if_neg hcs] at hcb
              exact Option.noConfusion hcb
          · rw [hst0]
            exact List.nodup_nil
          · intro c hc
            rw [hst0] at hc
            exact absurd hc (List.not_mem_nil c)
          · intro c hc
            rw [hst0] at hc
            exact absurd hc (List.not_mem_nil c)
          · intro c hc
            rw [hc0 c] at hc
            by_cases hcs : c = sc
            · rw [hst0]
              rw [List.mem_singleton]
              exact Or.inl hcs
            · rw [if_neg hcs] at hc
              exact absurd hc (by simp)
          · rw [hst0]
            exact List.Pairwise.nil
          · intro p hp
            rw [hst0] at hp
            exact absurd hp (List.not_mem_nil p)
        obtain ⟨hnd, hing, hterm⟩ := AStar.loop_inv_trace hbase hpen fuel st0 hInv0
        cases hloop : AStar.aStarLoop pen cf ec fuel st0 with
        | mk res tr =>
          rw [hloop] at hnd hterm
          have hpop0 : st0.popped = [] := by rw [hst0]
          cases res with
          | fuelOut =>
            refine ⟨hnd, ?_⟩
            intro hlt
            exfalso
            refine hterm ?_ rfl
            rw [hpop0]
            simpa using hlt
          | exhausted =>
            exact ⟨hnd, fun _ hh => AStar.SearchOutcome.noConfusion hh⟩
          | found ps =>
            exact ⟨hnd, fun _ hh => AStar.SearchOutcome.noConfusion hh⟩

/-- C4 witness: a concrete 3×1 fresh field run with the source's penalty 1 and
fuel 4 > 3 cells; the hypotheses hold by `baseline_new` and `0 ≤ 1`. -/
theorem C4_closed_set_witness :
    (AStar.searchTrace 1 4 (CostField.new (Grid.from_scene ⟨(0, 0), (3, 1)⟩ 1))
      (1/2, 1/2) (5/2, 1/2)).Nodup ∧
    ((CostField.new (Grid.from_scene ⟨(0, 0), (3, 1)⟩ 1)).grid.cols *
        (CostField.new (Grid.from_scene ⟨(0, 0), (3, 1)⟩ 1)).grid.rows < 4 →
      AStar.find_path 1 4 (CostField.new (Grid.from_scene ⟨(0, 0), (3, 1)⟩ 1))
        (1/2, 1/2) (5/2, 1/2) ≠ AStar.SearchOutcome.fuelOut) :=
  C4_closed_set 1 4 (CostField.new (Grid.from_scene ⟨(0, 0), (3, 1)⟩ 1))
    (1/2, 1/2) (5/2, 1/2)
    (AStar.baseline_new (Grid.from_scene ⟨(0, 0), (3, 1)⟩ 1)) (by norm_num)

/-! ### C9: cycle breaking and row leveling (spec §4.5)

The leveling pass of `get_cfg_layout` (lib.rs lines 98-143) filters self-loop
edges and delegates the depth-first cycle breaking, topological ordering and
row assignment to the external `rust_sugiyama` crate, whose code is not part
of this repository; the definitions below are therefore modelled from the
specification's own description of that pass. -/

namespace Leveler

/-- Modelled from the spec: the state of the depth-first classification —
the open (gray) path, the finish-ordered list (most recently finished first,
which is exactly the reverse-finish topological order, entry first), the
retained DAG edges and the recorded back-edges. -/
structure DfsSt where
  gray : List ℕ
  finished : List ℕ
  dag : List (ℕ × ℕ)
  back : List (ℕ × ℕ)
deriving DecidableEq

/-- Modelled from the spec: depth-first traversal with explicit fuel.  A
`Sum.inl u` task opens `u` and scans its successors; a `Sum.inr (u, vs)` task
examines the remaining successors `vs` of the open `u`: an edge to an open
(gray) node is a back-edge, an edge to a finished node is a DAG (forward or
cross) edge, and an edge to a fresh node is a DAG (tree) edge followed by a
recursive visit.  A node moves from gray to the front of the finish list when
its scan completes. -/
def dfsGo (adj : ℕ → List ℕ) : ℕ → ℕ ⊕ (ℕ × List ℕ) → DfsSt → Option DfsSt
  | 0, _, _ => none
  | fuel + 1, Sum.inl u, st =>
    match dfsGo adj fuel (Sum.inr (u, adj u)) { st with gray := u :: st.gray } with
    | none => none
    | some st2 =>
      some { st2 with gray := st2.gray.erase u, finished := u :: st2.finished }
  | _ + 1, Sum.inr (_, []), st => some st
  | fuel + 1, Sum.inr (u, v :: vs), st =>
    if v ∈ st.gray then
      dfsGo adj fuel (Sum.inr (u, vs)) { st with back := (u, v) :: st.back }
    else if v ∈ st.finished then
      dfsGo adj fuel (Sum.inr (u, vs)) { st with dag := (u, v) :: st.dag }
    else
      match dfsGo adj fuel (Sum.inl v) { st with dag := (u, v) :: st.dag } with
      | none => none
      | some st2 => dfsGo adj fuel (Sum.inr (u, vs)) st2

/-- Modelled from the spec: the leveling entry point — self-loops are
filtered out before traversal and the walk starts at the designated entry
node on empty state. -/
def runLevel (edges : List (ℕ × ℕ)) (entry : ℕ) (fuel : ℕ) : Option DfsSt :=
  dfsGo
    (fun u => (edges.filter (fun e => decide (e.1 = u) && decide (¬ e.1 = e.2))).map
      Prod.snd)
    fuel (Sum.inl entry) { gray := [], finished := [], dag := [], back := [] }

/-- Modelled from the spec: processing one node `u` of the topological order,
`row[v] = max(row[v], row[u] + 1)` for every retained DAG edge `(u, v)`. -/
def rowUpd (dag : List (ℕ × ℕ)) (row : ℕ → ℕ) (u : ℕ) : ℕ → ℕ :=
  (dag.filter (fun e => decide (e.1 = u))).foldl
    (fun r e => fun x => if x = e.2 then max (r x) (r e.1 + 1) else r x) row

/-- Modelled from the spec: longest-path row assignment — all rows start at
0 and the nodes are processed in the reverse-finish topological order. -/
def assignRows (dag : List (ℕ × ℕ)) (topo : List ℕ) : ℕ → ℕ :=
  topo.foldl (rowUpd dag) (fun _ => 0)

/-- The traversal invariant: gray and finished are duplicate free and
disjoint, DAG-edge sources are discovered, no DAG edge is a self-loop, and
the finish list is suffix-closed along DAG edges (whenever a source has
finished, its target finished no later). -/
structure DInv (st : DfsSt) : Prop where
  gray_nd : st.gray.Nodup
  fin_nd : st.finished.Nodup
  disj : ∀ x ∈ st.gray, x ∉ st.finished
  cl : ∀ e ∈ st.dag, ∀ R : List ℕ, R.IsSuffix st.finished → e.1 ∈ R → e.2 ∈ R
  src : ∀ e ∈ st.dag, e.1 ∈ st.gray ∨ e.1 ∈ st.finished
  ne : ∀ e ∈ st.dag, e.1 ≠ e.2

theorem dfsGo_spec (adj : ℕ → List ℕ) :
    ∀ (fuel : ℕ) (task : ℕ ⊕ (ℕ × List ℕ)) (st st' : DfsSt),
      dfsGo adj fuel task st = some st' → DInv st →
      (∀ u, task = Sum.inl u → u ∉ st.gray → u ∉ st.finished →
        DInv st' ∧ st'.gray = st.gray ∧
        (∃ mid, st'.finished = u :: mid ++ st.finished) ∧
        (∀ e ∈ st'.dag, e ∈ st.dag ∨ e.2 ∈ st'.finished)) ∧
      (∀ u vs, task = Sum.inr (u, vs) → u ∈ st.gray →
        DInv st' ∧ st'.gray = st.gray ∧
        (∃ pre, st'.finished = pre ++ st.finished) ∧
        (∀ e ∈ st'.dag, e ∈ st.dag ∨ e.2 ∈ st'.finished)) := by
  intro fuel
  induction fuel with
  | zero =>
    intro task st st' hrun
    exact absurd hrun (by rw [dfsGo]; exact fun h => Option.noConfusion h)
  | succ fuel ih =>
    intro task st st' hrun hinv
    constructor
    · -- visit task
      rintro u rfl hfresh hfin
      rw [dfsGo] at hrun
      cases hscan : dfsGo adj fuel (Sum.inr (u, adj u)) { st with gray := u :: st.gray } with
      | none => rw [hscan] at hrun; exact Option.noConfusion hrun
      | some st2 =>
        rw [hscan] at hrun
        have hinv1 : DInv { st with gray := u :: st.gray } := by
          constructor
          · exact List.nodup_cons.mpr ⟨hfresh, hinv.gray_nd⟩
          · exact hinv.fin_nd
          · intro x hx
            rcases List.mem_cons.mp hx with rfl | hx
            · exact hfin
            · exact hinv.disj x hx
          · exact hinv.cl
          · intro e he
            rcases hinv.src e he with h | h
            · exact Or.inl (List.mem_cons_of_mem u h)
            · exact Or.inr h
          · exact hinv.ne
        obtain ⟨hinv2, hgray2, ⟨pre, hfin2⟩, hS4⟩ :=
          ((ih (Sum.inr (u, adj u)) { st with gray := u :: st.gray } st2 hscan hinv1).2)
            u (adj u) rfl (List.mem_cons_self u st.gray)
        obtain rfl := Option.some.inj hrun
        have hgraye : st2.gray.erase u = st.gray := by
          rw [hgray2]
          exact List.erase_cons_head u st.gray
        have hufin2 : u ∉ st2.finished := by
          refine hinv2.disj u ?_
          rw [hgray2]
          exact List.mem_cons_self u st.gray
        have husrc : ∀ e ∈ st.dag, e.1 ≠ u := by
          intro e he heq
          rcases hinv.src e he with h | h
          · exact hfresh (heq ▸ h)
          · exact hfin (heq ▸ h)
        refine ⟨?_, hgraye, ⟨pre, by simp [hfin2]⟩, ?_⟩
        · constructor
          · rw [hgraye]
            exact hinv.gray_nd
          · exact List.nodup_cons.mpr ⟨hufin2, hinv2.fin_nd⟩
          · intro x hx
            rw [hgraye] at hx
            intro hmem
            rcases List.mem_cons.mp hmem with rfl | hmem
            · exact hfresh hx
            · exact hinv2.disj x (by rw [hgray2]; exact List.mem_cons_of_mem u hx) hmem
          · intro e he R hR h1
            rcases List.suffix_cons_iff.mp hR with rfl | hR
            · rcases List.mem_cons.mp h1 with rfl | h1
              · rcases hS4 e he with hed | hed
                · exact absurd rfl (husrc e hed)
                · exact List.mem_cons_of_mem _ hed
              · exact List.mem_cons_of_mem _
                  (hinv2.cl e he st2.finished (List.suffix_refl _) h1)
            · exact hinv2.cl e he R hR h1
          · intro e he
            rcases hinv2.src e he with h | h
            · rw [hgray2] at h
              rcases List.mem_cons.mp h with rfl | h
              · exact Or.inr (List.mem_cons_self _ _)
              · exact Or.inl (by rw [hgraye]; exact h)
            · exact Or.inr (List.mem_cons_of_mem _ h)
          · exact hinv2.ne
        · intro e he
          rcases hS4 e he with h | h
          · exact Or.inl h
          · exact Or.inr (List.mem_cons_of_mem _ h)
    · -- scan task
      rintro u vs rfl hu
      cases vs with
      | nil =>
        rw [dfsGo] at hrun
        obtain rfl := Option.some.inj hrun
        exact ⟨hinv, rfl, ⟨[], rfl⟩, fun e he => Or.inl he⟩
      | cons v vs =>
        rw [dfsGo] at hrun
        by_cases hvg : v ∈ st.gray
        · rw [if_pos hvg] at hrun
          have hinvb : DInv { st with back := (u, v) :: st.back } := by
            constructor
            · exact hinv.gray_nd
            · exact hinv.fin_nd
            · exact hinv.disj
            · exact hinv.cl
            · exact hinv.src
            · exact hinv.ne
          obtain ⟨hinv2, hgray2, hfin2, hS4⟩ :=
            (ih (Sum.inr (u, vs)) { st with back := (u, v) :: st.back } st' hrun hinvb).2
              u vs rfl hu
          exact ⟨hinv2, hgray2, hfin2, hS4⟩
        · rw [if_neg hvg] at hrun
          by_cases hvf : v ∈ st.finished
          · rw [if_pos hvf] at hrun
            have hne2 : u ≠ v := by
              intro h
              exact hinv.disj u hu (h ▸ hvf)
            have hinvc : DInv { st with dag := (u, v) :: st.dag } := by
              constructor
              · exact hinv.gray_nd
              · exact hinv.fin_nd
              · exact hinv.disj
              · intro e he R hR h1
                rcases List.mem_cons.mp he with rfl | he
                · exact absurd (hR.subset h1) (hinv.disj u hu)
                · exact hinv.cl e he R hR h1
              · intro e he
                rcases List.mem_cons.mp he with rfl | he
                · exact Or.inl hu
                · exact hinv.src e he
              · intro e he
                rcases List.mem_cons.mp he with rfl | he
                · exact hne2
                · exact hinv.ne e he
            obtain ⟨hinv2, hgray2, ⟨pre, hfin2⟩, hS4⟩ :=
              (ih (Sum.inr (u, vs)) { st with dag := (u, v) :: st.dag } st' hrun hinvc).2
                u vs rfl hu
            refine ⟨hinv2, hgray2, ⟨pre, hfin2⟩, ?_⟩
            intro e he
            rcases hS4 e he with h | h
            · rcases List.mem_cons.mp h with rfl | h
              · refine Or.inr ?_
                rw [hfin2]
                exact List.mem_append.mpr (Or.inr hvf)
              · exact Or.inl h
            · exact Or.inr h
          · rw [if_neg hvf] at hrun
            have hne2 : u ≠ v := fun h => hvg (h ▸ hu)
            have hinvc : DInv { st with dag := (u, v) :: st.dag } := by
              constructor
              · exact hinv.gray_nd
              · exact hinv.fin_nd
              · exact hinv.disj
              · intro e he R hR h1
                rcases List.mem_cons.mp he with rfl | he
                · exact absurd (hR.subset h1) (hinv.disj u hu)
                · exact hinv.cl e he R hR h1
              · intro e he
                rcases List.mem_cons.mp he with rfl | he
                · exact Or.inl hu
                · exact hinv.src e he
              · intro e he
                rcases List.mem_cons.mp he with rfl | he
                · exact hne2
                · exact hinv.ne e he
            cases hvis : dfsGo adj fuel (Sum.inl v) { st with dag := (u, v) :: st.dag } with
            | none => rw [hvis] at hrun; exact Option.noConfusion hrun
            | some stb =>
              rw [hvis] at hrun
              obtain ⟨hinvb, hgrayb, ⟨mid, hfinb⟩, hS4b⟩ :=
                (ih (Sum.inl v) { st with dag := (u, v) :: st.dag } stb hvis hinvc).1
                  v rfl hvg hvf
              obtain ⟨hinv2, hgray2, ⟨pre2, hfin2⟩, hS42⟩ :=
                (ih (Sum.inr (u, vs)) stb st' hrun hinvb).2 u vs rfl (by rw [hgrayb]; exact hu)
              refine ⟨hinv2, by rw [hgray2, hgrayb], ?_, ?_⟩
              · refine ⟨pre2 ++ (v :: mid), ?_⟩
                rw [hfin2, hfinb]
                simp
              · intro e he
                rcases hS42 e he with h | h
                · rcases hS4b e h with h2 | h2
                  · rcases List.mem_cons.mp h2 with rfl | h2
                    · refine Or.inr ?_
                      rw [hfin2, hfinb]
                      refine List.mem_append.mpr (Or.inr ?_)
                      exact List.mem_cons_self _ _
                    · exact Or.inl h2
                  · refine Or.inr ?_
                    rw [hfin2]
                    exact List.mem_append.mpr (Or.inr h2)
                · exact Or.inr h

theorem rowUpdAux (u : ℕ) :
    ∀ (es : List (ℕ × ℕ)) (r : ℕ → ℕ),
      (∀ e ∈ es, e.1 = u ∧ e.2 ≠ u) →
      (∀ x, r x ≤ (es.foldl
        (fun r e => fun x => if x = e.2 then max (r x) (r e.1 + 1) else r x) r) x) ∧
      (∀ x, (∀ e ∈ es, e.2 ≠ x) → (es.foldl
        (fun r e => fun x => if x = e.2 then max (r x) (r e.1 + 1) else r x) r) x = r x) ∧
      (∀ e ∈ es, r u + 1 ≤ (es.foldl
        (fun r e => fun x => if x = e.2 then max (r x) (r e.1 + 1) else r x) r) e.2) := by
  intro es
  induction es with
  | nil =>
    intro r _
    exact ⟨fun x => Nat.le_refl _, fun x _ => rfl,
      fun e he => absurd he (List.not_mem_nil e)⟩
  | cons e0 es ih =>
    intro r hprop
    obtain ⟨he01, he02⟩ := hprop e0 (List.mem_cons_self e0 es)
    rw [List.foldl_cons]
    set r1 : ℕ → ℕ :=
      fun x => if x = e0.2 then max (r x) (r e0.1 + 1) else r x with hr1
    obtain ⟨im, iunt, isat⟩ :=
      ih r1 (fun e he => hprop e (List.mem_cons_of_mem e0 he))
    have hmono1 : ∀ x, r x ≤ r1 x := by
      intro x
      rw [hr1]
      dsimp only
      by_cases hx : x = e0.2
      · rw [if_pos hx]
        exact Nat.le_max_left _ _
      · rw [if_neg hx]
    have hr1u : r1 u = r u := by
      rw [hr1]
      dsimp only
      rw [if_neg (fun hh => he02 hh.symm)]
    refine ⟨?_, ?_, ?_⟩
    · intro x
      exact Nat.le_trans (hmono1 x) (im x)
    · intro x hx
      have h1 : r1 x = r x := by
        rw [hr1]
        dsimp only
        rw [if_neg (fun hh => hx e0 (List.mem_cons_self e0 es) hh.symm)]
      rw [iunt x (fun e he => hx e (List.mem_cons_of_mem e0 he)), h1]
    · intro e he
      rcases List.mem_cons.mp he with rfl | he
      · refine Nat.le_trans ?_ (im e.2)
        rw [hr1]
        dsimp only
        rw [if_pos rfl, he01]
        exact Nat.le_trans (Nat.succ_le_succ (Nat.le_refl _)) (Nat.le_max_right _ _)
      · have := isat e he
        rw [hr1u] at this
        exact this

theorem assignRows_aux (dag : List (ℕ × ℕ)) (hne : ∀ e ∈ dag, e.1 ≠ e.2) :
    ∀ (topo : List ℕ) (r : ℕ → ℕ),
      (∀ e ∈ dag, ∀ R : List ℕ, R.IsSuffix topo → e.1 ∈ R → e.2 ∈ R) →
      (∀ x, r x ≤ (topo.foldl (rowUpd dag) r) x) ∧
      (∀ x, (∀ e ∈ dag, e.1 ∈ topo → e.2 ≠ x) → (topo.foldl (rowUpd dag) r) x = r x) ∧
      (∀ e ∈ dag, e.1 ∈ topo →
        (topo.foldl (rowUpd dag) r) e.1 + 1 ≤ (topo.foldl (rowUpd dag) r) e.2) := by
  intro topo
  induction topo with
  | nil =>
    intro r _
    exact ⟨fun x => Nat.le_refl _, fun x _ => rfl,
      fun e _ he => absurd he (List.not_mem_nil e.1)⟩
  | cons u rest ih =>
    intro r hcl
    rw [List.foldl_cons]
    have hes : ∀ e ∈ dag.filter (fun e => decide (e.1 = u)), e.1 = u ∧ e.2 ≠ u := by
      intro e he
      obtain ⟨hed, hefl⟩ := List.mem_filter.mp he
      have h1 : e.1 = u := of_decide_eq_true hefl
      exact ⟨h1, fun hh => hne e hed (h1.trans hh.symm)⟩
    obtain ⟨am, aunt, asat⟩ := rowUpdAux u (dag.filter (fun e => decide (e.1 = u))) r hes
    have hclr : ∀ e ∈ dag, ∀ R : List ℕ, R.IsSuffix rest → e.1 ∈ R → e.2 ∈ R := by
      intro e he R hR
      exact hcl e he R (hR.trans (List.suffix_cons u rest))
    obtain ⟨im, iunt, isat⟩ := ih (rowUpd dag r u) hclr
    refine ⟨?_, ?_, ?_⟩
    · intro x
      exact Nat.le_trans (am x) (im x)
    · intro x hx
      have h1 : rowUpd dag r u x = r x := by
        refine aunt x ?_
        intro e he
        obtain ⟨hed, hefl⟩ := List.mem_filter.mp he
        have h2 : e.1 = u := of_decide_eq_true hefl
        exact hx e hed (by rw [h2]; exact List.mem_cons_self u rest)
      rw [iunt x (fun e he hm => hx e he (List.mem_cons_of_mem u hm)), h1]
    · intro e he hmem
      by_cases hin : e.1 ∈ rest
      · exact isat e he hin
      · have heu : e.1 = u := by
          rcases List.mem_cons.mp hmem with h | h
          · exact h
          · exact absurd h hin
        have hfmem : e ∈ dag.filter (fun e => decide (e.1 = u)) :=
          List.mem_filter.mpr ⟨he, decide_eq_true heu⟩
        have hsat1 : r u + 1 ≤ rowUpd dag r u e.2 := asat e hfmem
        have hr1u : rowUpd dag r u u = r u := by
          refine aunt u ?_
          intro e2 he2
          exact (hes e2 he2).2
        have hr2u : (rest.foldl (rowUpd dag) (rowUpd dag r u)) u
            = rowUpd dag r u u := by
          refine iunt u ?_
          intro e2 he2 hm2 habs
          have := hclr e2 he2 rest (List.suffix_refl rest) hm2
          rw [habs] at this
          exact hin (heu ▸ this)
        have hmono2 := im e.2
        rw [heu, hr2u, hr1u]
        omega

end Leveler

/-- C9: in the leveling result for a graph with a designated entry node —
modelled from the spec (§4.5), since `get_cfg_layout` delegates the pass to
the external `rust_sugiyama` crate — the depth-first classification from the
entry yields a reverse-finish topological order on which the longest-path
row assignment starts every row at 0 (a node targeted by no retained DAG edge
keeps row 0) and makes every retained DAG edge (u, v) satisfy
row[v] ≥ row[u] + 1. -/
theorem C9_leveling_monotone (edges : List (ℕ × ℕ)) (entry : ℕ) (fuel : ℕ)
    (st : Leveler.DfsSt) (h : Leveler.runLevel edges entry fuel = some st) :
    (∀ v, (∀ e ∈ st.dag, e.2 ≠ v) → Leveler.assignRows st.dag st.finished v = 0) ∧
    (∀ e ∈ st.dag, Leveler.assignRows st.dag st.finished e.1 + 1 ≤
      Leveler.assignRows st.dag st.finished e.2) := by
  have hinv0 : Leveler.DInv ⟨[], [], [], []⟩ :=
    ⟨List.nodup_nil, List.nodup_nil,
      fun x hx => absurd hx (List.not_mem_nil x),
      fun e he => absurd he (List.not_mem_nil e),
      fun e he => absurd he (List.not_mem_nil e),
      fun e he => absurd he (List.not_mem_nil e)⟩
  obtain ⟨hinvF, hgrayF, ⟨mid, hfinF⟩, -⟩ :=
    (Leveler.dfsGo_spec _ fuel (Sum.inl entry) ⟨[], [], [], []⟩ st h hinv0).1 entry rfl
      (List.not_mem_nil entry) (List.not_mem_nil entry)
  have hsrcfin : ∀ e ∈ st.dag, e.1 ∈ st.finished := by
    intro e he
    rcases hinvF.src e he with h2 | h2
    · rw [hgrayF] at h2
      exact absurd h2 (List.not_mem_nil e.1)
    · exact h2
  obtain ⟨-, hunt, hsat⟩ :=
    Leveler.assignRows_aux st.dag hinvF.ne st.finished (fun _ => 0) hinvF.cl
  constructor
  · intro v hv
    exact hunt v (fun e he _ => hv e he)
  · intro e he
    exact hsat e he (hsrcfin e he)

/-- C9 witness: the spec §8 scenario `entry→cond→{then,else}→exit, exit→entry`
(nodes 0..4).  The run classifies exactly the one back-edge (4, 0), finishes
in topological order [0, 1, 3, 2, 4], and the rows 0, 1, 2, 2, 3 satisfy the
monotonicity on every retained DAG edge. -/
theorem C9_leveling_monotone_witness :
    Leveler.runLevel [(0, 1), (1, 2), (1, 3), (2, 4), (3, 4), (4, 0)] 0 100 =
      some ⟨[], [0, 1, 3, 2, 4], [(3, 4), (1, 3), (2, 4), (1, 2), (0, 1)], [(4, 0)]⟩ ∧
    ((∀ v, (∀ e ∈ [((3 : ℕ), (4 : ℕ)), (1, 3), (2, 4), (1, 2), (0, 1)], e.2 ≠ v) →
        Leveler.assignRows [(3, 4), (1, 3), (2, 4), (1, 2), (0, 1)] [0, 1, 3, 2, 4] v = 0) ∧
      (∀ e ∈ [((3 : ℕ), (4 : ℕ)), (1, 3), (2, 4), (1, 2), (0, 1)],
        Leveler.assignRows [(3, 4), (1, 3), (2, 4), (1, 2), (0, 1)] [0, 1, 3, 2, 4] e.1 + 1 ≤
          Leveler.assignRows [(3, 4), (1, 3), (2, 4), (1, 2), (0, 1)] [0, 1, 3, 2, 4] e.2)) :=
  ⟨by decide,
    C9_leveling_monotone [(0, 1), (1, 2), (1, 3), (2, 4), (3, 4), (4, 0)] 0 100
      ⟨[], [0, 1, 3, 2, 4], [(3, 4), (1, 3), (2, 4), (1, 2), (0, 1)], [(4, 0)]⟩
      (by decide)⟩

end EguiCfg
